import Mathlib

/-!
# nebula: run-time module and symbol resolution

A shallow embedding of `src/src/nebula.c`, of its headers and of the second
copy of the resolver in `src/src/resolve.c`, together with theorems about them.

Conventions of the embedding.

* Process memory is a total map from addresses to bytes (`Mem`); a read takes
  the stored value modulo 256.  Multi-byte fields are little-endian and the
  structures are packed, so field offsets are the sums of the preceding sizes.
* `u32`/`u64` arithmetic written in the source (`base + e_phoff`,
  `base + st_value`, `h << 5`, ...) wraps modulo `2^32`/`2^64`.  Pointer
  arithmetic (`p[i]`, `dyn++`, `s++`, `strtab + st_name`) is exact on natural
  numbers: C leaves its overflow undefined.
* A `char *` into a local buffer is the list of the bytes from the pointer on;
  reading past the end of the list yields `0`.
* A computation that may fail to terminate returns `Option`; `none` stands for
  a scan that leaves the 64-bit address space without meeting its terminator.
-/

namespace Nebula

/-! ## Constants (`ntypes.h`, `nelf.h`, `nebula.h`, `nhash.h`) -/

abbrev ITER_MAX : Nat := 4096
abbrev MAX_MODULES : Nat := 32
abbrev MAX_PATH_LEN : Nat := 128

abbrev EI_CLASS : Nat := 4
abbrev ELFCLASS64 : Nat := 2
abbrev PT_DYNAMIC : Nat := 2
abbrev DT_NULL : Nat := 0
abbrev DT_STRTAB : Nat := 5
abbrev DT_SYMTAB : Nat := 6
abbrev DT_STRSZ : Nat := 10
abbrev STT_OBJECT : Nat := 1
abbrev STT_FUNC : Nat := 2

abbrev HASH_DJB2_SEED : Nat := 5381

/-- The magic bytes `0x7f 'E' 'L' 'F'`. -/
def _elf_magic : List Nat := [0x7f, 69, 76, 70]

/-! ## Memory -/

/-- Process memory: address to stored byte. -/
abbrev Mem := Nat → Nat

/-- Read of a `u8`. -/
def rd8 (m : Mem) (a : Nat) : Nat := m a % 256

/-- Read of a little-endian `u16`. -/
def rd16 (m : Mem) (a : Nat) : Nat := rd8 m a + 256 * rd8 m (a + 1)

/-- Read of a little-endian `u32`. -/
def rd32 (m : Mem) (a : Nat) : Nat := rd16 m a + 65536 * rd16 m (a + 2)

/-- Read of a little-endian `u64`. -/
def rd64 (m : Mem) (a : Nat) : Nat := rd32 m a + 4294967296 * rd32 m (a + 4)

/-- A memory that holds `bytes` from address `org` on and zero elsewhere. -/
def memOf (org : Nat) (bytes : List Nat) : Mem :=
  fun a => if a < org then 0 else bytes.getD (a - org) 0

/-- Little-endian bytes of `v`, `k` of them. -/
def le : Nat → Nat → List Nat
  | 0, _ => []
  | k + 1, v => v % 256 :: le k (v / 256)

/-- The bytes of a string literal (without the terminating NUL). -/
def lit (s : String) : List Nat := s.toList.map Char.toNat

/-! ## Field accessors of the packed ELF structures (`nelf.h`) -/

def e_ident (m : Mem) (e i : Nat) : Nat := rd8 m (e + i)
def e_phoff (m : Mem) (e : Nat) : Nat := rd64 m (e + 32)
def e_phnum (m : Mem) (e : Nat) : Nat := rd16 m (e + 56)

/-- Size of `elf64_phdr_t`. -/
abbrev SIZEOF_PHDR : Nat := 56
def p_type (m : Mem) (p : Nat) : Nat := rd32 m p
def p_vaddr (m : Mem) (p : Nat) : Nat := rd64 m (p + 16)

/-- Size of `elf64_dyn_t`. -/
abbrev SIZEOF_DYN : Nat := 16
/-- The `i64` tag, kept as its 64-bit pattern: the source only compares it with
the non-negative constants `DT_NULL`, `DT_STRTAB`, `DT_SYMTAB`, `DT_STRSZ`. -/
def d_tag (m : Mem) (d : Nat) : Nat := rd64 m d
def d_un (m : Mem) (d : Nat) : Nat := rd64 m (d + 8)

/-- Size of `elf64_sym_t`. -/
abbrev SIZEOF_SYM : Nat := 24
def st_name (m : Mem) (s : Nat) : Nat := rd32 m s
def st_info (m : Mem) (s : Nat) : Nat := rd8 m (s + 4)
def st_value (m : Mem) (s : Nat) : Nat := rd64 m (s + 8)

/-- Macro `ELF64_ST_TYPE(i)`, that is `i & 0xf`. -/
def ELF64_ST_TYPE (i : Nat) : Nat := i &&& 0xf

/-! ## Hashing (`nhash.h`) -/

/-- One round of djb2 in `u32`: `((h << 5) + h) + c`. -/
def djb2_step (h c : Nat) : Nat := ((((h <<< 5) % 2^32) + h) % 2^32 + c) % 2^32

/-- Loop of `djb2` over a string held in a local buffer or literal, entered with
hash `h`: `while ((c = (u8) *s++)) h = ((h << 5) + h) + c`. -/
def djb2_from : List Nat → Nat → Nat
  | [], h => h
  | c :: s, h => if c % 256 ≠ 0 then djb2_from s (djb2_step h (c % 256)) else h

/-- Function `djb2(s)` for a string literal or local buffer. -/
def djb2 (s : List Nat) : Nat := djb2_from s HASH_DJB2_SEED

/-- Loop of `djb2` over a string in memory at address `s`; the first argument
bounds the number of bytes visited. -/
def djb2_loop (m : Mem) : Nat → Nat → Nat → Option Nat
  | 0, _, _ => none
  | f + 1, s, h =>
    if rd8 m s ≠ 0 then djb2_loop m f (s + 1) (djb2_step h (rd8 m s)) else some h

/-- Function `djb2(s)` for a pointer `s` into memory.  The scan is given `2^64` steps, one
per address; `none` means that no NUL was met. -/
def djb2_at (m : Mem) (s : Nat) : Option Nat := djb2_loop m (2^64) s HASH_DJB2_SEED

/-- Loop of `djb2n`: `for (i = 0; i < n; i++) h = ((h << 5) + h) + (u8) s[i]`;
the first argument is `n - i`. -/
def djb2n_loop : Nat → List Nat → Nat → Nat
  | 0, _, h => h
  | k + 1, s, h => djb2n_loop k s.tail (djb2_step h (s.headD 0 % 256))

/-- Function `djb2n(s, n)`. -/
def djb2n (s : List Nat) (n : Nat) : Nat := djb2n_loop n s HASH_DJB2_SEED

/-! ## Memory utilities -/

/-- Loop of `_memcmp`; `p` and `q` give the byte at each index, the last
argument is `n - i`. -/
def _memcmp_loop (p q : Nat → Nat) : Nat → Nat → Int
  | _, 0 => 0
  | i, k + 1 => if p i ≠ q i then (p i : Int) - (q i : Int) else _memcmp_loop p q (i + 1) k

/-- Function `_memcmp(a, b, n)`. -/
def _memcmp (p q : Nat → Nat) (n : Nat) : Int := _memcmp_loop p q 0 n

/-- Function `_memcpy(dst, src, n)` on a destination array given by its bytes. -/
def _memcpy : List Nat → List Nat → Nat → List Nat
  | d, _, 0 => d
  | [], _, _ + 1 => []
  | _ :: d, s, n + 1 => s.headD 0 :: _memcpy d s.tail n

/-- Function `_strlen(s)` for a string in a local buffer. -/
def _strlen : List Nat → Nat
  | [] => 0
  | c :: s => if c ≠ 0 then _strlen s + 1 else 0

/-! ## ELF utilities -/

/-- Function `_is_elf(addr)`. -/
def _is_elf (m : Mem) (addr : Nat) : Bool :=
  if addr = 0 then false
  else if _memcmp (fun i => e_ident m addr i) (fun i => _elf_magic.getD i 0) 4 ≠ 0 then false
  else e_ident m addr EI_CLASS == ELFCLASS64

/-- Loop of `_hex2u64`; the first argument is `max - i`, the list is `s + i`. -/
def _hex2u64_loop : Nat → List Nat → Nat → Nat
  | 0, _, v => v
  | _ + 1, [], v => v
  | k + 1, c :: s, v =>
    if c = 0 then v
    else if 48 ≤ c ∧ c ≤ 57 then _hex2u64_loop k s (((v <<< 4) % 2^64) ||| (c - 48))
    else if 97 ≤ c ∧ c ≤ 102 then _hex2u64_loop k s (((v <<< 4) % 2^64) ||| (c - 97 + 10))
    else if 65 ≤ c ∧ c ≤ 70 then _hex2u64_loop k s (((v <<< 4) % 2^64) ||| (c - 65 + 10))
    else v

/-- Function `_hex2u64(s, max)`. -/
def _hex2u64 (s : List Nat) (max : Nat) : Nat := _hex2u64_loop max s 0

/-- Loop of `_find_dyn`: `for (i = 0; i < e_phnum && i < ITER_MAX; i++)`; the
first explicit argument is `ITER_MAX - i`. -/
def _find_dyn_loop (m : Mem) (base p phnum : Nat) : Nat → Nat → Nat
  | 0, _ => 0
  | k + 1, i =>
    if i < phnum then
      if p_type m (p + SIZEOF_PHDR * i) = PT_DYNAMIC then
        (base + p_vaddr m (p + SIZEOF_PHDR * i)) % 2^64
      else _find_dyn_loop m base p phnum k (i + 1)
    else 0

/-- Function `_find_dyn(base)`; the result `0` is `NULL`. -/
def _find_dyn (m : Mem) (base : Nat) : Nat :=
  _find_dyn_loop m base ((base + e_phoff m base) % 2^64) (e_phnum m base) ITER_MAX 0

/-! ## Parsing of text buffers

The loops of `resolve_mod`, `_enum_modules` and `_read_cpu_info` that move a
`char *` through the local buffer. -/

/-- The character `*p`. -/
def deref (p : List Nat) : Nat := p.headD 0

/-- Loop `while (*p && *p != '\n' && *p != '/') p++`. -/
def skip_to_slash : List Nat → List Nat
  | [] => []
  | c :: r => if c ≠ 0 ∧ c ≠ 10 ∧ c ≠ 47 then skip_to_slash r else c :: r

/-- Loop `while (*q && *q != '\n') { if (*q == '/') name = q + 1; q++; }`;
returns the final `(name, q)`. -/
def scan_name : List Nat → List Nat → List Nat × List Nat
  | [], name => (name, [])
  | c :: r, name =>
    if c ≠ 0 ∧ c ≠ 10 then scan_name r (if c = 47 then r else name) else (name, c :: r)

/-- Loop `for (r = name; *r && *r != '\n'; r++) len++`. -/
def line_len : List Nat → Nat
  | [] => 0
  | c :: r => if c ≠ 0 ∧ c ≠ 10 then line_len r + 1 else 0

/-- Loop `while (*line && *line != '\n') line++`. -/
def skip_line : List Nat → List Nat
  | [] => []
  | c :: r => if c ≠ 0 ∧ c ≠ 10 then skip_line r else c :: r

/-- End of a loop body: `while (*line && *line != '\n') line++; if (*line) line++`. -/
def next_line (line : List Nat) : List Nat :=
  if deref (skip_line line) ≠ 0 then (skip_line line).tail else skip_line line

/-- Loop `while (*p && *p != ' ') p++`. -/
def skip_to_space : List Nat → List Nat
  | [] => []
  | c :: r => if c ≠ 0 ∧ c ≠ 32 then skip_to_space r else c :: r

/-- Loop `while (*p == ' ') p++`. -/
def skip_spaces : List Nat → List Nat
  | [] => []
  | c :: r => if c = 32 then skip_spaces r else c :: r

/-- Loop `while (*p && *p != ':') p++`. -/
def skip_to_colon : List Nat → List Nat
  | [] => []
  | c :: r => if c ≠ 0 ∧ c ≠ 58 then skip_to_colon r else c :: r

/-- Loop `while (*p == ' ' || *p == '\t') p++`. -/
def skip_blanks : List Nat → List Nat
  | [] => []
  | c :: r => if c = 32 ∨ c = 9 then skip_blanks r else c :: r

/-! ## Files read through the kernel-call gateway -/

/-- What `sys_openat` followed by `sys_read` into a local buffer delivers: the
descriptor, the byte count, and the bytes of the buffer after the read (the
file's bytes, then whatever the buffer held before). -/
structure file_read_t where
  fd : Int
  n : Int
  buf : List Nat

/-! ## Module lookup -/

/-- Loop of `resolve_mod`: `while (*line && cnt++ < 64)`; the first explicit
argument is `64 - cnt`. -/
def resolve_mod_loop (m : Mem) (hash : Nat) : Nat → List Nat → Nat
  | 0, _ => 0
  | k + 1, line =>
    if deref line = 0 then 0
    else
      let base := _hex2u64 line 16
      let p := skip_to_slash line
      if deref p = 47 then
        let name := (scan_name p p).1
        let len := line_len name
        if djb2n name len = hash ∧ _is_elf m base = true then base
        else resolve_mod_loop m hash k (next_line line)
      else resolve_mod_loop m hash k (next_line line)

/-- Function `resolve_mod(hash)`, given what reading `/proc/self/maps` delivers. -/
def resolve_mod (f : file_read_t) (m : Mem) (hash : Nat) : Nat :=
  if f.fd < 0 then 0
  else if f.n ≤ 0 then 0
  else resolve_mod_loop m hash 64 (f.buf.set f.n.toNat 0)

/-! ## Symbol lookup -/

/-- The three values recorded by the dynamic-table walk. -/
structure dyn_info_t where
  symtab : Nat
  strtab : Nat
  strsz : Nat
deriving DecidableEq

/-- Body of the `switch (dyn->d_tag)`. -/
def dyn_record (m : Mem) (dyn : Nat) (st : dyn_info_t) : dyn_info_t :=
  if d_tag m dyn = DT_SYMTAB then { st with symtab := d_un m dyn }
  else if d_tag m dyn = DT_STRTAB then { st with strtab := d_un m dyn }
  else if d_tag m dyn = DT_STRSZ then { st with strsz := d_un m dyn }
  else st

/-- Loop `while (dyn->d_tag != DT_NULL && cnt++ < ITER_MAX)`; the first explicit
argument is `ITER_MAX - cnt`. -/
def dyn_walk (m : Mem) : Nat → Nat → dyn_info_t → dyn_info_t
  | 0, _, st => st
  | k + 1, dyn, st =>
    if d_tag m dyn ≠ DT_NULL then dyn_walk m k (dyn + SIZEOF_DYN) (dyn_record m dyn st) else st

/-- Loop `for (s = symtab; (uptr) s < (uptr) strtab; s++)`.  The first explicit
argument bounds the number of rounds; `strtab - symtab` is enough, since `s`
grows by 24 each round. -/
def sym_scan (m : Mem) (base hash strtab strsz : Nat) : Nat → Nat → Option Nat
  | 0, _ => some 0
  | k + 1, s =>
    if s < strtab then
      if st_name m s = 0 ∨ st_value m s = 0 ∨ st_name m s ≥ strsz then
        sym_scan m base hash strtab strsz k (s + SIZEOF_SYM)
      else if ELF64_ST_TYPE (st_info m s) ≠ STT_FUNC ∧ ELF64_ST_TYPE (st_info m s) ≠ STT_OBJECT then
        sym_scan m base hash strtab strsz k (s + SIZEOF_SYM)
      else
        match djb2_at m (strtab + st_name m s) with
        | none => none
        | some h =>
          if h = hash then some ((base + st_value m s) % 2^64)
          else sym_scan m base hash strtab strsz k (s + SIZEOF_SYM)
    else some 0

/-- Function `resolve_sym(base, hash)`; `some 0` is the result `0`, `none` a name scan
that does not terminate. -/
def resolve_sym (m : Mem) (base hash : Nat) : Option Nat :=
  if base = 0 ∨ hash = 0 ∨ _is_elf m base = false then some 0
  else
    let dyn := _find_dyn m base
    if dyn = 0 then some 0
    else
      let st := dyn_walk m ITER_MAX dyn ⟨0, 0, 0⟩
      if st.symtab = 0 ∨ st.strtab = 0 ∨ st.strsz = 0 then some 0
      else sym_scan m base hash st.strtab st.strsz (st.strtab - st.symtab) st.symtab

/-! ## The run-time context (`nebula.h`) -/

/-- Record `nebula_mod_t`; `path` is the 128-byte array. -/
structure nebula_mod_t where
  base : Nat
  end_ : Nat
  hash : Nat
  perms : Nat
  path : List Nat
deriving DecidableEq

/-- Record `nebula_cpu_t`. -/
structure nebula_cpu_t where
  midr : Nat
  revidr : Nat
  id_aa64pfr0 : Nat
  id_aa64isar0 : Nat
  id_aa64mmfr0 : Nat
  impl : Nat
  variant : Nat
  part : Nat
  rev : Nat
deriving DecidableEq

/-- Record `nebula_libc_t`; a function pointer is its address, `0` being null. -/
structure nebula_libc_t where
  base : Nat
  write : Nat
  read : Nat
  mmap : Nat
  mprotect : Nat
  munmap : Nat
  exit : Nat
deriving DecidableEq

/-- Record `nebula_self_t`. -/
structure nebula_self_t where
  base : Nat
  size : Nat
  crc : Nat
deriving DecidableEq

/-- Record `nebula_proc_t`; `comm` is the 16-byte array. -/
structure nebula_proc_t where
  pid : Int
  ppid : Int
  uid : Int
  gid : Int
  comm : List Nat
deriving DecidableEq

/-- Record `nebula_ctx_t`; `mods` is the array of `MAX_MODULES` records. -/
structure nebula_ctx_t where
  self : nebula_self_t
  proc : nebula_proc_t
  cpu : nebula_cpu_t
  libc : nebula_libc_t
  mods : List nebula_mod_t
  mod_cnt : Nat
  ready : Bool
deriving DecidableEq

/-- A module record after `_memset(.., 0, ..)`. -/
def zero_mod : nebula_mod_t := ⟨0, 0, 0, 0, List.replicate MAX_PATH_LEN 0⟩

/-- A CPU record after `_memset(cpu, 0, sizeof(*cpu))`. -/
def zero_cpu : nebula_cpu_t := ⟨0, 0, 0, 0, 0, 0, 0, 0, 0⟩

/-- The context after `_memset(ctx, 0, sizeof(*ctx))`. -/
def zero_ctx : nebula_ctx_t :=
  { self := ⟨0, 0, 0⟩
    proc := ⟨0, 0, 0, 0, List.replicate 16 0⟩
    cpu := zero_cpu
    libc := ⟨0, 0, 0, 0, 0, 0, 0⟩
    mods := List.replicate MAX_MODULES zero_mod
    mod_cnt := 0
    ready := false }

/-! ## crc32 -/

/-- Inner statement `crc = (crc >> 1) ^ (0xedb88320 & -(crc & 1))` in `u32`. -/
def crc32_bit (crc : Nat) : Nat :=
  (crc >>> 1) ^^^ (0xedb88320 &&& ((2^32 - (crc &&& 1)) % 2^32))

/-- One byte: `crc ^= p[i]` and the eight rounds of the inner loop. -/
def crc32_byte (crc b : Nat) : Nat := crc32_bit^[8] (crc ^^^ b)

/-- Loop `for (i = 0; i < len; i++)`; the first explicit argument is `len - i`,
the second the address of `p[i]`. -/
def crc32_loop (m : Mem) : Nat → Nat → Nat → Nat
  | 0, _, crc => crc
  | k + 1, p, crc => crc32_loop m k (p + 1) (crc32_byte crc (rd8 m p))

/-- Function `crc32(data, len)`; the final `~crc` in `u32`. -/
def crc32 (m : Mem) (data len : Nat) : Nat := 0xffffffff - crc32_loop m len data 0xffffffff

/-! ## Process and CPU introspection -/

/-- Function `_read_proc_comm(buf, len)`: the bytes of `buf` afterwards.  `old` is `buf`
before the call, `f` what reading `/proc/self/comm` delivers. -/
def _read_proc_comm (f : file_read_t) (old : List Nat) : List Nat :=
  if f.fd < 0 then (old.set 0 63).set 1 0
  else if f.n > 0 then
    if f.buf.getD (f.n.toNat - 1) 0 = 10 then f.buf.set (f.n.toNat - 1) 0
    else f.buf.set f.n.toNat 0
  else (f.buf.set 0 63).set 1 0

/-- The common part of the three branches of `_read_cpu_info`: move to the
value after the colon. -/
def cpu_value (p : List Nat) : List Nat :=
  let p1 := skip_to_colon p
  let p2 := if deref p1 = 58 then p1.tail else p1
  skip_blanks p2

/-- Loop `while (*p)` of `_read_cpu_info`; the first argument bounds the number
of rounds (each round consumes at least one character). -/
def _read_cpu_info_loop : Nat → List Nat → nebula_cpu_t → nebula_cpu_t
  | 0, _, cpu => cpu
  | k + 1, p, cpu =>
    if deref p = 0 then cpu
    else if _memcmp (fun i => p.getD i 0) (fun i => (lit "CPU implementer").getD i 0) 15 = 0 then
      _read_cpu_info_loop k (next_line (cpu_value p))
        { cpu with impl := _hex2u64 (cpu_value p) 4 % 2^8 }
    else if _memcmp (fun i => p.getD i 0) (fun i => (lit "CPU part").getD i 0) 8 = 0 then
      _read_cpu_info_loop k (next_line (cpu_value p))
        { cpu with part := _hex2u64 (cpu_value p) 6 % 2^16 }
    else if _memcmp (fun i => p.getD i 0) (fun i => (lit "CPU revision").getD i 0) 12 = 0 then
      _read_cpu_info_loop k (next_line (cpu_value p))
        { cpu with rev := _hex2u64 (cpu_value p) 4 % 2^8 }
    else _read_cpu_info_loop k (next_line p) cpu

/-- Function `_read_cpu_info(cpu)`, given what reading `/proc/cpuinfo` delivers. -/
def _read_cpu_info (f : file_read_t) : nebula_cpu_t :=
  if f.fd < 0 then zero_cpu
  else if f.n ≤ 0 then zero_cpu
  else _read_cpu_info_loop (f.buf.length + 1) (f.buf.set f.n.toNat 0) zero_cpu

/-! ## Module enumeration -/

/-- The permission bits read at `p[0]`, `p[1]`, `p[2]`. -/
def perm_bits (p : List Nat) : Nat :=
  ((if p.getD 0 0 = 114 then 0x4 else 0) ||| (if p.getD 1 0 = 119 then 0x2 else 0))
    ||| (if p.getD 2 0 = 120 then 0x1 else 0)

/-- The search `for (i = 0; i < cnt; i++) if (ctx->mods[i].hash == hash)`. -/
def seen_hash (mods : List nebula_mod_t) (cnt hash : Nat) : Bool :=
  (mods.take cnt).any (fun r => r.hash == hash)

/-- The record stored at `ctx->mods[cnt]`: `old` is the slot before, `path_start`
and `q` delimit the path text. -/
def fill_mod (old : nebula_mod_t) (base hash perms : Nat) (path_start q : List Nat) :
    nebula_mod_t :=
  let path_len := path_start.length - q.length
  let path_len := if path_len ≥ MAX_PATH_LEN then MAX_PATH_LEN - 1 else path_len
  { old with
    base := base
    hash := hash
    perms := perms
    path := (_memcpy old.path path_start path_len).set path_len 0 }

/-- Loop `while (*line && cnt < MAX_MODULES)` of `_enum_modules`; the first
explicit argument bounds the number of rounds (each round consumes at least one
character of the buffer).  Returns the table and `cnt`. -/
def _enum_modules_loop (m : Mem) :
    Nat → List Nat → List nebula_mod_t → Nat → List nebula_mod_t × Nat
  | 0, _, mods, cnt => (mods, cnt)
  | k + 1, line, mods, cnt =>
    if deref line ≠ 0 ∧ cnt < MAX_MODULES then
      let base := _hex2u64 line 16
      let p := skip_spaces (skip_to_space line)
      let perms := perm_bits p
      let path_start := skip_to_slash line
      if deref path_start = 47 then
        let nq := scan_name path_start path_start
        let name_len := line_len nq.1
        let hash := djb2n nq.1 name_len
        if seen_hash mods cnt hash = false ∧ _is_elf m base = true then
          _enum_modules_loop m k (next_line line)
            (mods.set cnt (fill_mod (mods.getD cnt zero_mod) base hash perms path_start nq.2))
            (cnt + 1)
        else _enum_modules_loop m k (next_line line) mods cnt
      else _enum_modules_loop m k (next_line line) mods cnt
    else (mods, cnt)

/-- Function `_enum_modules(ctx)`, given what reading `/proc/self/maps` delivers: the
context afterwards and the returned count. -/
def _enum_modules (f : file_read_t) (m : Mem) (ctx : nebula_ctx_t) : nebula_ctx_t × Nat :=
  if f.fd < 0 then (ctx, 0)
  else if f.n ≤ 0 then (ctx, 0)
  else
    let r := _enum_modules_loop m (f.buf.length + 1) (f.buf.set f.n.toNat 0) ctx.mods 0
    ({ ctx with mods := r.1 }, r.2)

/-! ## Initialisation -/

/-- What the process looks like to `nebula_init`.  The process is
single-threaded and maps nothing during the call, so every read of
`/proc/self/maps` delivers the same `maps`. -/
structure World where
  mem : Mem
  maps : file_read_t
  comm : file_read_t
  cpuinfo : file_read_t
  pid : Int
  /-- The extent `__end - __start` of the payload. -/
  self_size : Nat

/-- Function `_resolve_libc(ctx)`: the result and the context afterwards. -/
def _resolve_libc (m : Mem) (ctx : nebula_ctx_t) : Option (Bool × nebula_ctx_t) :=
  let b := ctx.libc.base
  if b = 0 then some (false, ctx)
  else do
    let write ← resolve_sym m b (djb2 (lit "write"))
    if write = 0 then some (false, { ctx with libc := { ctx.libc with write := write } })
    else do
      let read ← resolve_sym m b (djb2 (lit "read"))
      let mmap ← resolve_sym m b (djb2 (lit "mmap"))
      let mprotect ← resolve_sym m b (djb2 (lit "mprotect"))
      let munmap ← resolve_sym m b (djb2 (lit "munmap"))
      let exit ← resolve_sym m b (djb2 (lit "exit"))
      some (true, { ctx with libc := ⟨b, write, read, mmap, mprotect, munmap, exit⟩ })

/-- The probes of `nebula_init` for the base of libc. -/
def probe_libc (w : World) : Nat :=
  let b := resolve_mod w.maps w.mem (djb2 (lit "libc.so.6"))
  let b := if b = 0 then resolve_mod w.maps w.mem (djb2 (lit "libc-2.31.so")) else b
  if b = 0 then resolve_mod w.maps w.mem (djb2 (lit "libc.musl-aarch64.so.1")) else b

/-- Function `nebula_init(ctx, base)`.  The context is `none` for a null pointer; the
result is the returned flag and the context afterwards. -/
def nebula_init (w : World) (ctx : Option nebula_ctx_t) (base : Nat) :
    Option (Bool × Option nebula_ctx_t) :=
  match ctx with
  | none => some (false, none)
  | some _ =>
    let c : nebula_ctx_t := zero_ctx
    let c := { c with self := ⟨base, w.self_size, crc32 w.mem base w.self_size⟩ }
    let c := { c with proc := { c.proc with pid := w.pid } }
    let c := { c with proc := { c.proc with comm := _read_proc_comm w.comm c.proc.comm } }
    let c := { c with cpu := _read_cpu_info w.cpuinfo }
    let c := { c with libc := { c.libc with base := probe_libc w } }
    if c.libc.base = 0 then some (false, some c)
    else
      match _resolve_libc w.mem c with
      | none => none
      | some (false, c) => some (false, some c)
      | some (true, c) =>
        let r := _enum_modules w.maps w.mem c
        some (true, some { r.1 with mod_cnt := r.2, ready := true })


/-! ## Instrumented loops

The same loops, returning in addition what they touch: the program headers
examined, the dynamic entries recorded, the symbol records examined and the
bytes read for names. -/

/-- Loop of `_find_dyn` with the indices of the program headers it examines. -/
def _find_dyn_loop_tr (m : Mem) (base p phnum : Nat) : Nat → Nat → Nat × List Nat
  | 0, _ => (0, [])
  | k + 1, i =>
    if i < phnum then
      if p_type m (p + SIZEOF_PHDR * i) = PT_DYNAMIC then
        ((base + p_vaddr m (p + SIZEOF_PHDR * i)) % 2^64, [i])
      else
        ((_find_dyn_loop_tr m base p phnum k (i + 1)).1,
          i :: (_find_dyn_loop_tr m base p phnum k (i + 1)).2)
    else (0, [])

/-- Function `_find_dyn(base)` with the indices of the program headers it
examines. -/
def _find_dyn_tr (m : Mem) (base : Nat) : Nat × List Nat :=
  _find_dyn_loop_tr m base ((base + e_phoff m base) % 2^64) (e_phnum m base) ITER_MAX 0

/-- Loop of the dynamic-table walk with the addresses of the entries whose tag
it records (those that reach the `switch`). -/
def dyn_walk_tr (m : Mem) : Nat → Nat → dyn_info_t → dyn_info_t × List Nat
  | 0, _, st => (st, [])
  | k + 1, dyn, st =>
    if d_tag m dyn ≠ DT_NULL then
      ((dyn_walk_tr m k (dyn + SIZEOF_DYN) (dyn_record m dyn st)).1,
        dyn :: (dyn_walk_tr m k (dyn + SIZEOF_DYN) (dyn_record m dyn st)).2)
    else (st, [])

/-- Loop of `djb2` over memory with the addresses of the bytes it reads. -/
def djb2_loop_tr (m : Mem) : Nat → Nat → Nat → Option Nat × List Nat
  | 0, _, _ => (none, [])
  | f + 1, s, h =>
    if rd8 m s ≠ 0 then
      ((djb2_loop_tr m f (s + 1) (djb2_step h (rd8 m s))).1,
        s :: (djb2_loop_tr m f (s + 1) (djb2_step h (rd8 m s))).2)
    else (some h, [s])

/-- Function `djb2(s)` for a pointer into memory, with the addresses read. -/
def djb2_at_tr (m : Mem) (s : Nat) : Option Nat × List Nat :=
  djb2_loop_tr m (2^64) s HASH_DJB2_SEED

/-- What the symbol scan touches: the addresses of the records on which the
loop body ran, and the addresses of the bytes read by `djb2` for names. -/
structure scan_trace_t where
  examined : List Nat
  name_reads : List Nat
deriving DecidableEq

/-- Loop of the symbol scan with what it touches. -/
def sym_scan_tr (m : Mem) (base hash strtab strsz : Nat) : Nat → Nat → Option Nat × scan_trace_t
  | 0, _ => (some 0, ⟨[], []⟩)
  | k + 1, s =>
    if s < strtab then
      if st_name m s = 0 ∨ st_value m s = 0 ∨ st_name m s ≥ strsz then
        ((sym_scan_tr m base hash strtab strsz k (s + SIZEOF_SYM)).1,
          ⟨s :: (sym_scan_tr m base hash strtab strsz k (s + SIZEOF_SYM)).2.examined,
            (sym_scan_tr m base hash strtab strsz k (s + SIZEOF_SYM)).2.name_reads⟩)
      else if ELF64_ST_TYPE (st_info m s) ≠ STT_FUNC ∧ ELF64_ST_TYPE (st_info m s) ≠ STT_OBJECT then
        ((sym_scan_tr m base hash strtab strsz k (s + SIZEOF_SYM)).1,
          ⟨s :: (sym_scan_tr m base hash strtab strsz k (s + SIZEOF_SYM)).2.examined,
            (sym_scan_tr m base hash strtab strsz k (s + SIZEOF_SYM)).2.name_reads⟩)
      else
        match (djb2_at_tr m (strtab + st_name m s)).1 with
        | none => (none, ⟨[s], (djb2_at_tr m (strtab + st_name m s)).2⟩)
        | some h =>
          if h = hash then
            (some ((base + st_value m s) % 2^64), ⟨[s], (djb2_at_tr m (strtab + st_name m s)).2⟩)
          else
            ((sym_scan_tr m base hash strtab strsz k (s + SIZEOF_SYM)).1,
              ⟨s :: (sym_scan_tr m base hash strtab strsz k (s + SIZEOF_SYM)).2.examined,
                (djb2_at_tr m (strtab + st_name m s)).2 ++
                  (sym_scan_tr m base hash strtab strsz k (s + SIZEOF_SYM)).2.name_reads⟩)
    else (some 0, ⟨[], []⟩)

/-- Function `resolve_sym(base, hash)` with what its symbol scan touches. -/
def resolve_sym_tr (m : Mem) (base hash : Nat) : Option Nat × scan_trace_t :=
  if base = 0 ∨ hash = 0 ∨ _is_elf m base = false then (some 0, ⟨[], []⟩)
  else
    let dyn := _find_dyn m base
    if dyn = 0 then (some 0, ⟨[], []⟩)
    else
      let st := dyn_walk m ITER_MAX dyn ⟨0, 0, 0⟩
      if st.symtab = 0 ∨ st.strtab = 0 ∨ st.strsz = 0 then (some 0, ⟨[], []⟩)
      else sym_scan_tr m base hash st.strtab st.strsz (st.strtab - st.symtab) st.symtab

/-! ## Compile-time and run-time FNV-1a (`nhash.h`) -/

abbrev HASH_FNV1A_SEED : Nat := 0x811c9dc5
abbrev HASH_FNV1A_PRIME : Nat := 0x01000193

/-- Macro `_CT_HASH_BYTE(h, b)`, that is `((h) ^ (u8)(b)) * HASH_FNV1A_PRIME` in
`u32`. -/
def _CT_HASH_BYTE (h b : Nat) : Nat := ((h ^^^ (b % 256)) * HASH_FNV1A_PRIME) % 2^32

/-- Macro `H1(s,i,h)`; `s` gives the byte `(s)[i]` at each index. -/
def H1 (s : Nat → Nat) (i h : Nat) : Nat := _CT_HASH_BYTE h (s i)

/-- Macro `H2(s,i,h)`. -/
def H2 (s : Nat → Nat) (i h : Nat) : Nat := H1 s i (H1 s (i + 1) h)

/-- Macro `H4(s,i,h)`. -/
def H4 (s : Nat → Nat) (i h : Nat) : Nat := H2 s i (H2 s (i + 2) h)

/-- Macro `H8(s,i,h)`. -/
def H8 (s : Nat → Nat) (i h : Nat) : Nat := H4 s i (H4 s (i + 4) h)

/-- Macro `H16(s,i,h)`. -/
def H16 (s : Nat → Nat) (i h : Nat) : Nat := H8 s i (H8 s (i + 8) h)

/-- Macro `H32(s,i,h)`. -/
def H32 (s : Nat → Nat) (i h : Nat) : Nat := H16 s i (H16 s (i + 16) h)

/-- Macro `H(s)`; `sizeof_s` is `sizeof(s)` and `s` gives the byte `(s)[i]` at
each index. -/
def H (sizeof_s : Nat) (s : Nat → Nat) : Nat :=
  (if sizeof_s > 1 then H32 s 0 HASH_FNV1A_SEED else HASH_FNV1A_SEED) % 2^32

/-- Macro `H` applied to the string literal of characters `l`: the array of the
literal is `l` followed by a NUL, and `beyond i` is what an index `i` past that
array reads. -/
def H_lit (l : List Nat) (beyond : Nat → Nat) : Nat :=
  H (l.length + 1) (fun i => if i < l.length + 1 then (l ++ [0]).getD i 0 else beyond i)

/-- Loop of `fnv1a` over a string held in a local buffer or literal, entered
with hash `h`: `while (*s) h = (h ^ (u8) *s++) * HASH_FNV1A_PRIME`. -/
def fnv1a_from : List Nat → Nat → Nat
  | [], h => h
  | c :: s, h =>
    if c ≠ 0 then fnv1a_from s (((h ^^^ (c % 256)) * HASH_FNV1A_PRIME) % 2^32) else h

/-- Function `fnv1a(s)`. -/
def fnv1a (s : List Nat) : Nat := fnv1a_from s HASH_FNV1A_SEED

/-! ## The second copy of the resolver (`src/src/resolve.c`)

The file `resolve.c` has its own static helpers and its own `resolve_mod` and
`resolve_sym`; they are embedded here from that file.  The loops over the text
buffer and the hash functions of `nhash.h` are the shared ones above. -/

namespace ResolveC

abbrev MAPS_BUFSZ : Nat := 4096
abbrev MAX_ENTRIES : Nat := 64

/-- The magic bytes of `resolve.c`. -/
def _elf_magic : List Nat := [0x7f, 69, 76, 70]

/-- Loop of `_memcmp` in `resolve.c`; the last argument is `n - i`. -/
def _memcmp_loop (p q : Nat → Nat) : Nat → Nat → Int
  | _, 0 => 0
  | i, k + 1 => if p i ≠ q i then (p i : Int) - (q i : Int) else _memcmp_loop p q (i + 1) k

/-- Function `_memcmp(a, b, n)` of `resolve.c`. -/
def _memcmp (p q : Nat → Nat) (n : Nat) : Int := _memcmp_loop p q 0 n

/-- Function `_is_elf(addr)` of `resolve.c`. -/
def _is_elf (m : Mem) (addr : Nat) : Bool :=
  if addr = 0 then false
  else if _memcmp (fun i => e_ident m addr i) (fun i => _elf_magic.getD i 0) 4 ≠ 0 then false
  else e_ident m addr EI_CLASS == ELFCLASS64

/-- Loop of `_hex2u64` in `resolve.c`; the first argument is `max - i`. -/
def _hex2u64_loop : Nat → List Nat → Nat → Nat
  | 0, _, v => v
  | _ + 1, [], v => v
  | k + 1, c :: s, v =>
    if c = 0 then v
    else if 48 ≤ c ∧ c ≤ 57 then _hex2u64_loop k s (((v <<< 4) % 2^64) ||| (c - 48))
    else if 97 ≤ c ∧ c ≤ 102 then _hex2u64_loop k s (((v <<< 4) % 2^64) ||| (c - 97 + 10))
    else if 65 ≤ c ∧ c ≤ 70 then _hex2u64_loop k s (((v <<< 4) % 2^64) ||| (c - 65 + 10))
    else v

/-- Function `_hex2u64(s, max)` of `resolve.c`. -/
def _hex2u64 (s : List Nat) (max : Nat) : Nat := _hex2u64_loop max s 0

/-- Loop of `_find_dyn` in `resolve.c`; the first explicit argument is
`ITER_MAX - i`. -/
def _find_dyn_loop (m : Mem) (base p phnum : Nat) : Nat → Nat → Nat
  | 0, _ => 0
  | k + 1, i =>
    if i < phnum then
      if p_type m (p + SIZEOF_PHDR * i) = PT_DYNAMIC then
        (base + p_vaddr m (p + SIZEOF_PHDR * i)) % 2^64
      else _find_dyn_loop m base p phnum k (i + 1)
    else 0

/-- Function `_find_dyn(base)` of `resolve.c`. -/
def _find_dyn (m : Mem) (base : Nat) : Nat :=
  _find_dyn_loop m base ((base + e_phoff m base) % 2^64) (e_phnum m base) ITER_MAX 0

/-- Loop of `resolve_mod` in `resolve.c`: `while (*line && cnt++ < MAX_ENTRIES)`;
the first explicit argument is `MAX_ENTRIES - cnt`. -/
def resolve_mod_loop (m : Mem) (hash : Nat) : Nat → List Nat → Nat
  | 0, _ => 0
  | k + 1, line =>
    if deref line = 0 then 0
    else
      let base := _hex2u64 line 16
      let path := skip_to_slash line
      if deref path = 47 then
        let name := (scan_name path path).1
        let len := line_len name
        if djb2n name len = hash ∧ _is_elf m base = true then base
        else resolve_mod_loop m hash k (next_line line)
      else resolve_mod_loop m hash k (next_line line)

/-- Function `resolve_mod(hash)` of `resolve.c`, given what reading `MAPS_PATH`
delivers. -/
def resolve_mod (f : file_read_t) (m : Mem) (hash : Nat) : Nat :=
  if f.fd < 0 then 0
  else if f.n ≤ 0 then 0
  else resolve_mod_loop m hash MAX_ENTRIES (f.buf.set f.n.toNat 0)

/-- Loop `while (dyn->d_tag != DT_NULL && cnt++ < ITER_MAX)` of `resolve_sym` in
`resolve.c`. -/
def dyn_walk (m : Mem) : Nat → Nat → dyn_info_t → dyn_info_t
  | 0, _, st => st
  | k + 1, dyn, st =>
    if d_tag m dyn ≠ DT_NULL then
      dyn_walk m k (dyn + SIZEOF_DYN)
        (if d_tag m dyn = DT_SYMTAB then { st with symtab := d_un m dyn }
         else if d_tag m dyn = DT_STRTAB then { st with strtab := d_un m dyn }
         else if d_tag m dyn = DT_STRSZ then { st with strsz := d_un m dyn }
         else st)
    else st

/-- Loop `for (s = symtab; (uptr) s < (uptr) strtab; s++)` of `resolve_sym` in
`resolve.c`; the first explicit argument bounds the number of rounds. -/
def sym_scan (m : Mem) (base hash strtab strsz : Nat) : Nat → Nat → Option Nat
  | 0, _ => some 0
  | k + 1, s =>
    if s < strtab then
      if st_name m s = 0 ∨ st_value m s = 0 ∨ st_name m s ≥ strsz then
        sym_scan m base hash strtab strsz k (s + SIZEOF_SYM)
      else if ELF64_ST_TYPE (st_info m s) ≠ STT_FUNC ∧ ELF64_ST_TYPE (st_info m s) ≠ STT_OBJECT then
        sym_scan m base hash strtab strsz k (s + SIZEOF_SYM)
      else
        match djb2_at m (strtab + st_name m s) with
        | none => none
        | some h =>
          if h = hash then some ((base + st_value m s) % 2^64)
          else sym_scan m base hash strtab strsz k (s + SIZEOF_SYM)
    else some 0

/-- Function `resolve_sym(base, hash)` of `resolve.c`. -/
def resolve_sym (m : Mem) (base hash : Nat) : Option Nat :=
  if base = 0 ∨ hash = 0 ∨ _is_elf m base = false then some 0
  else
    let dyn := _find_dyn m base
    if dyn = 0 then some 0
    else
      let st := dyn_walk m ITER_MAX dyn ⟨0, 0, 0⟩
      if st.symtab = 0 ∨ st.strtab = 0 ∨ st.strsz = 0 then some 0
      else sym_scan m base hash st.strtab st.strsz (st.strtab - st.symtab) st.symtab

end ResolveC

/-! ## The permission reads of `_enum_modules`

The loop of `_enum_modules` again, returning in addition the indices in `buf`
of the three reads `p[0]`, `p[1]`, `p[2]` of every round. -/

/-- The indices in a buffer of `len` bytes of `p[0]`, `p[1]`, `p[2]`, where the
pointer `p` has the bytes `p` of the buffer from it on: its index is `len`
minus their number. -/
def perm_reads (len : Nat) (p : List Nat) : List Nat :=
  [len - p.length, len - p.length + 1, len - p.length + 2]

/-- Loop of `_enum_modules` over a buffer of `len` bytes, with the indices of
its permission reads. -/
def _enum_modules_loop_tr (m : Mem) (len : Nat) :
    Nat → List Nat → List nebula_mod_t → Nat → (List nebula_mod_t × Nat) × List Nat
  | 0, _, mods, cnt => ((mods, cnt), [])
  | k + 1, line, mods, cnt =>
    if deref line ≠ 0 ∧ cnt < MAX_MODULES then
      let base := _hex2u64 line 16
      let p := skip_spaces (skip_to_space line)
      let perms := perm_bits p
      let path_start := skip_to_slash line
      if deref path_start = 47 then
        let nq := scan_name path_start path_start
        let name_len := line_len nq.1
        let hash := djb2n nq.1 name_len
        if seen_hash mods cnt hash = false ∧ _is_elf m base = true then
          ((_enum_modules_loop_tr m len k (next_line line)
              (mods.set cnt (fill_mod (mods.getD cnt zero_mod) base hash perms path_start nq.2))
              (cnt + 1)).1,
            perm_reads len p ++
              (_enum_modules_loop_tr m len k (next_line line)
                (mods.set cnt
                  (fill_mod (mods.getD cnt zero_mod) base hash perms path_start nq.2))
                (cnt + 1)).2)
        else
          ((_enum_modules_loop_tr m len k (next_line line) mods cnt).1,
            perm_reads len p ++ (_enum_modules_loop_tr m len k (next_line line) mods cnt).2)
      else
        ((_enum_modules_loop_tr m len k (next_line line) mods cnt).1,
          perm_reads len p ++ (_enum_modules_loop_tr m len k (next_line line) mods cnt).2)
    else ((mods, cnt), [])

/-- Function `_enum_modules(ctx)` with the indices in `buf` of its permission
reads. -/
def _enum_modules_tr (f : file_read_t) (m : Mem) (ctx : nebula_ctx_t) :
    (nebula_ctx_t × Nat) × List Nat :=
  if f.fd < 0 then ((ctx, 0), [])
  else if f.n ≤ 0 then ((ctx, 0), [])
  else
    let r := _enum_modules_loop_tr m f.buf.length (f.buf.length + 1) (f.buf.set f.n.toNat 0)
      ctx.mods 0
    (({ ctx with mods := r.1.1 }, r.1.2), r.2)

/-! ## The structural walks and the name reads of `resolve_sym`

Function `resolve_sym` again, returning in addition what its two structural
walks touch, and, separately, the bytes read for every name it hashes. -/

/-- What the structural walks of `resolve_sym` touch: the indices of the
program headers examined by `_find_dyn`, and the addresses of the dynamic
entries that reach the `switch`. -/
structure walk_trace_t where
  headers : List Nat
  entries : List Nat
deriving DecidableEq

/-- Function `resolve_sym(base, hash)` with what its structural walks touch. -/
def resolve_sym_wtr (m : Mem) (base hash : Nat) : Option Nat × walk_trace_t :=
  if base = 0 ∨ hash = 0 ∨ _is_elf m base = false then (some 0, ⟨[], []⟩)
  else
    let d := _find_dyn_tr m base
    if d.1 = 0 then (some 0, ⟨d.2, []⟩)
    else
      let w := dyn_walk_tr m ITER_MAX d.1 ⟨0, 0, 0⟩
      if w.1.symtab = 0 ∨ w.1.strtab = 0 ∨ w.1.strsz = 0 then (some 0, ⟨d.2, w.2⟩)
      else
        (sym_scan m base hash w.1.strtab w.1.strsz (w.1.strtab - w.1.symtab) w.1.symtab,
          ⟨d.2, w.2⟩)

/-- Loop of the symbol scan with the reads of `djb2` kept apart for every name:
one list of addresses, in reading order, for every entry whose name is hashed. -/
def sym_scan_ntr (m : Mem) (base hash strtab strsz : Nat) :
    Nat → Nat → Option Nat × List (List Nat)
  | 0, _ => (some 0, [])
  | k + 1, s =>
    if s < strtab then
      if st_name m s = 0 ∨ st_value m s = 0 ∨ st_name m s ≥ strsz then
        sym_scan_ntr m base hash strtab strsz k (s + SIZEOF_SYM)
      else if ELF64_ST_TYPE (st_info m s) ≠ STT_FUNC ∧ ELF64_ST_TYPE (st_info m s) ≠ STT_OBJECT then
        sym_scan_ntr m base hash strtab strsz k (s + SIZEOF_SYM)
      else
        match (djb2_at_tr m (strtab + st_name m s)).1 with
        | none => (none, [(djb2_at_tr m (strtab + st_name m s)).2])
        | some h =>
          if h = hash then
            (some ((base + st_value m s) % 2^64), [(djb2_at_tr m (strtab + st_name m s)).2])
          else
            ((sym_scan_ntr m base hash strtab strsz k (s + SIZEOF_SYM)).1,
              (djb2_at_tr m (strtab + st_name m s)).2 ::
                (sym_scan_ntr m base hash strtab strsz k (s + SIZEOF_SYM)).2)
    else (some 0, [])

/-- Function `resolve_sym(base, hash)` with the reads of every name it hashes. -/
def resolve_sym_ntr (m : Mem) (base hash : Nat) : Option Nat × List (List Nat) :=
  if base = 0 ∨ hash = 0 ∨ _is_elf m base = false then (some 0, [])
  else
    let dyn := _find_dyn m base
    if dyn = 0 then (some 0, [])
    else
      let st := dyn_walk m ITER_MAX dyn ⟨0, 0, 0⟩
      if st.symtab = 0 ∨ st.strtab = 0 ∨ st.strsz = 0 then (some 0, [])
      else sym_scan_ntr m base hash st.strtab st.strsz (st.strtab - st.symtab) st.symtab
/-! ## Specification-side definitions for mapping listings -/

/-- A line of text: no NUL and no newline in it. -/
def is_line (l : List Nat) : Prop := ∀ c ∈ l, c ≠ 0 ∧ c ≠ 10

instance (l : List Nat) : Decidable (is_line l) := by unfold is_line; infer_instance

/-- The text of a listing: the newline-terminated lines `ls`, then a last line
`t` that has no newline (empty when the text ends in a newline). -/
def listing_text (ls : List (List Nat)) (t : List Nat) : List Nat :=
  (ls.map (fun l => l ++ [10])).flatten ++ t

/-- The lines of that listing. -/
def listing_lines (ls : List (List Nat)) (t : List Nat) : List (List Nat) :=
  ls ++ (if t = [] then [] else [t])

/-- The final path component of a line: the text after its last `/`. -/
def last_comp (l : List Nat) : List Nat := (l.reverse.takeWhile (fun c => c ≠ 47)).reverse

/-- The path of a line: the text from its first `/` on. -/
def path_of (l : List Nat) : List Nat := l.dropWhile (fun c => c ≠ 47)

/-- The hash of the final path component of a line. -/
def line_hash (l : List Nat) : Nat := djb2n (last_comp l) (last_comp l).length

/-- The base address a line starts with. -/
def line_base (l : List Nat) : Nat := _hex2u64 l 16

/-- A line that `resolve_mod(hash)` is specified to accept: it has a `/`, its
final path component hashes to `hash`, and its base passes `_is_elf`. -/
def line_matches (m : Mem) (hash : Nat) (l : List Nat) : Bool :=
  decide (47 ∈ l) && (line_hash l == hash) && _is_elf m (line_base l)

/-- Specification of `resolve_mod` over the first `k` lines: the base of the
first matching line, `0` when there is none. -/
def resolve_mod_spec (m : Mem) (hash k : Nat) (lines : List (List Nat)) : Nat :=
  match (lines.take k).find? (line_matches m hash) with
  | some l => line_base l
  | none => 0

/-- What a line is followed by in the buffer: nothing, a NUL or a newline. -/
def is_end (e : List Nat) : Prop := deref e = 0 ∨ deref e = 10


/-! ## Specification-side definitions for symbol lookup -/

/-- The addresses of the symbol records scanned: `symtab`, `symtab + 24`, ...,
as long as the address is below `strtab`. -/
def sym_addrs (symtab strtab : Nat) : List Nat :=
  (List.range ((strtab - symtab + 23) / 24)).map (fun k => symtab + 24 * k)

/-- The entry filters: name offset non-zero and below the string-table size,
value non-zero, type function or data object. -/
def sym_ok (m : Mem) (strsz s : Nat) : Bool :=
  decide (st_name m s ≠ 0) && decide (st_value m s ≠ 0) && decide (st_name m s < strsz)
    && (decide (ELF64_ST_TYPE (st_info m s) = STT_FUNC)
      || decide (ELF64_ST_TYPE (st_info m s) = STT_OBJECT))

/-- An entry that passes the filters and whose name hashes to `hash`. -/
def sym_hit (m : Mem) (strtab strsz hash s : Nat) : Bool :=
  sym_ok m strsz s && (djb2_at m (strtab + st_name m s) == some hash)

/-- Specification of the scan of `resolve_sym`: `base + st_value` (in `u64`) of
the first hit in table order, `0` when there is none. -/
def resolve_sym_spec (m : Mem) (base hash symtab strtab strsz : Nat) : Nat :=
  match (sym_addrs symtab strtab).find? (sym_hit m strtab strsz hash) with
  | some s => (base + st_value m s) % 2^64
  | none => 0

/-- The NUL-terminated string `n` stands at address `a`. -/
def has_cstr (m : Mem) (a : Nat) (n : List Nat) : Prop :=
  n.length < 2^64 ∧ (∀ i, i < n.length → rd8 m (a + i) = n.getD i 0 ∧ n.getD i 0 ≠ 0) ∧
    rd8 m (a + n.length) = 0

/-- The dynamic table at `dyn` holds the entries `ents` (tag and value), none
of them tagged `DT_NULL`, and then an entry tagged `DT_NULL`. -/
def has_dyn_table (m : Mem) (dyn : Nat) (ents : List (Nat × Nat)) : Prop :=
  (∀ i, i < ents.length →
      d_tag m (dyn + 16 * i) = (ents.getD i (0, 0)).1 ∧
      d_un m (dyn + 16 * i) = (ents.getD i (0, 0)).2 ∧ (ents.getD i (0, 0)).1 ≠ DT_NULL) ∧
    d_tag m (dyn + 16 * ents.length) = DT_NULL

/-- The table `ents` declares the value `v` for `tag`: it has such an entry, and
no entry of that tag with another value. -/
def declares (ents : List (Nat × Nat)) (tag v : Nat) : Prop :=
  (tag, v) ∈ ents ∧ ∀ e ∈ ents, e.1 = tag → e.2 = v

/-- What the walk records for one entry of the table. -/
def record_ent (st : dyn_info_t) (e : Nat × Nat) : dyn_info_t :=
  if e.1 = DT_SYMTAB then { st with symtab := e.2 }
  else if e.1 = DT_STRTAB then { st with strtab := e.2 }
  else if e.1 = DT_STRSZ then { st with strsz := e.2 }
  else st

/-- The value recorded for one of the three tags. -/
def dyn_field (st : dyn_info_t) (tag : Nat) : Nat :=
  if tag = DT_SYMTAB then st.symtab else if tag = DT_STRTAB then st.strtab else st.strsz

instance (m : Mem) (dyn : Nat) (ents : List (Nat × Nat)) : Decidable (has_dyn_table m dyn ents) := by
  unfold has_dyn_table; infer_instance

instance (ents : List (Nat × Nat)) (tag v : Nat) : Decidable (declares ents tag v) := by
  unfold declares; infer_instance

instance (m : Mem) (a : Nat) (n : List Nat) : Decidable (has_cstr m a n) := by
  unfold has_cstr; infer_instance

/-- A valid 64-bit image at `base` with its tables: program header `i` is its
one `PT_DYNAMIC` header, and `ents` are the entries of its dynamic table, which
declare `symtab`, `strtab` and `strsz`. -/
structure image_tables (m : Mem) (base : Nat) (i : Nat) (ents : List (Nat × Nat))
    (symtab strtab strsz : Nat) : Prop where
  valid : _is_elf m base = true
  ph_index : i < e_phnum m base
  ph_dynamic : p_type m ((base + e_phoff m base) % 2^64 + SIZEOF_PHDR * i) = PT_DYNAMIC
  ph_others : ∀ j, j < e_phnum m base → j ≠ i →
    p_type m ((base + e_phoff m base) % 2^64 + SIZEOF_PHDR * j) ≠ PT_DYNAMIC
  table : has_dyn_table m
    ((base + p_vaddr m ((base + e_phoff m base) % 2^64 + SIZEOF_PHDR * i)) % 2^64) ents
  decl_symtab : declares ents DT_SYMTAB symtab
  decl_strtab : declares ents DT_STRTAB strtab
  decl_strsz : declares ents DT_STRSZ strsz

/-- Such an image whose symbol array holds one exported function symbol, called
`n`, of value `v`; `s` is the address of the symbol's record.  The other
records of the array do not pass the entry filters. -/
structure exports_symbol (m : Mem) (base : Nat) (n : List Nat) (v : Nat)
    (i : Nat) (ents : List (Nat × Nat)) (symtab strtab strsz s : Nat) : Prop where
  tables : image_tables m base i ents symtab strtab strsz
  sym_mem : s ∈ sym_addrs symtab strtab
  name_pos : st_name m s ≠ 0
  name_lt : st_name m s < strsz
  value_eq : st_value m s = v
  value_pos : v ≠ 0
  is_func : ELF64_ST_TYPE (st_info m s) = STT_FUNC
  name_eq : has_cstr m (strtab + st_name m s) n
  sym_others : ∀ a ∈ sym_addrs symtab strtab, a ≠ s → sym_ok m strsz a = false

/-- Such an image that exports the function symbol `n` with value `v` among
other symbols: every name of an exported symbol is NUL-terminated, and the
record at `s` is the first one in table order whose name hashes like `n`. -/
structure exports_first (m : Mem) (base : Nat) (n : List Nat) (v : Nat)
    (i : Nat) (ents : List (Nat × Nat)) (symtab strtab strsz s : Nat) : Prop where
  tables : image_tables m base i ents symtab strtab strsz
  sym_mem : s ∈ sym_addrs symtab strtab
  name_pos : st_name m s ≠ 0
  name_lt : st_name m s < strsz
  value_eq : st_value m s = v
  value_pos : v ≠ 0
  is_func : ELF64_ST_TYPE (st_info m s) = STT_FUNC
  name_eq : has_cstr m (strtab + st_name m s) n
  names : ∀ a ∈ sym_addrs symtab strtab, sym_ok m strsz a = true →
    ∃ n', has_cstr m (strtab + st_name m a) n'
  first : ∀ a ∈ sym_addrs symtab strtab, a < s → sym_hit m strtab strsz (djb2 n) a = false

/-- The conditions under which the walks of `resolve_sym` reach the tables of
such an image: the `PT_DYNAMIC` header and the table's terminator lie within the
iteration cap, and neither the table nor the symbol array is at address zero. -/
structure within_caps (m : Mem) (base : Nat) (i : Nat) (ents : List (Nat × Nat))
    (symtab : Nat) : Prop where
  ph_cap : i < ITER_MAX
  dyn_cap : ents.length ≤ ITER_MAX
  dyn_pos : (base + p_vaddr m ((base + e_phoff m base) % 2^64 + SIZEOF_PHDR * i)) % 2^64 ≠ 0
  symtab_pos : symtab ≠ 0

/-! ## Specification-side definitions for module enumeration -/

/-- The identity of the records in the first `cnt` slots of the table: hash and
base of each, in table order. -/
def table_of (mods : List nebula_mod_t) (cnt : Nat) : List (Nat × Nat) :=
  (mods.take cnt).map (fun r => (r.hash, r.base))

/-- Specification of one line of the enumeration, on the list `acc` of the
records (hash, base) made so far: a line with a `/` whose hash is new and whose
base passes `_is_elf` adds a record, unless `MAX_MODULES` records exist. -/
def enum_step (m : Mem) (acc : List (Nat × Nat)) (l : List Nat) : List (Nat × Nat) :=
  if acc.length < MAX_MODULES ∧ 47 ∈ l ∧ (∀ r ∈ acc, r.1 ≠ line_hash l) ∧
      _is_elf m (line_base l) = true then
    acc ++ [(line_hash l, line_base l)]
  else acc

/-- Specification of the enumeration over the lines of a listing. -/
def enum_spec (m : Mem) (lines : List (List Nat)) : List (Nat × Nat) :=
  lines.foldl (enum_step m) []

/-- The record that a line `l`, followed in the buffer by `e`, leaves in the
slot that held `old`. -/
def line_record (old : nebula_mod_t) (l e : List Nat) : nebula_mod_t :=
  fill_mod old (line_base l) (line_hash l) (perm_bits (skip_spaces (skip_to_space (l ++ e))))
    (path_of l ++ e) e

/-! ## Specification-side definitions for the bootstrap -/

/-- The names of the bootstrap candidates, in probe order. -/
def bootstrap_names : List (List Nat) :=
  [lit "libc.so.6", lit "libc-2.31.so", lit "libc.musl-aarch64.so.1"]

/-- The names of the primitives resolved by `_resolve_libc`, in call order. -/
def primitive_names : List (List Nat) :=
  [lit "write", lit "read", lit "mmap", lit "mprotect", lit "munmap", lit "exit"]

/-- The first non-zero value of a list, `0` when there is none. -/
def first_nonzero (l : List Nat) : Nat := (l.find? (fun x => decide (x ≠ 0))).getD 0

/-- Specification of the probes over a listing: the result for the first
candidate, in probe order, that has a matching line among the first 64. -/
def libc_base_spec (m : Mem) (lines : List (List Nat)) : Nat :=
  first_nonzero (bootstrap_names.map (fun n => resolve_mod_spec m (djb2 n) 64 lines))

/-- The context of `nebula_init` when it checks `ctx->libc.base` after the
probes. -/
def probed_ctx (w : World) (base : Nat) : nebula_ctx_t :=
  { zero_ctx with
    self := ⟨base, w.self_size, crc32 w.mem base w.self_size⟩
    proc := { zero_ctx.proc with
      pid := w.pid
      comm := _read_proc_comm w.comm zero_ctx.proc.comm }
    cpu := _read_cpu_info w.cpuinfo
    libc := { zero_ctx.libc with base := probe_libc w } }

/-- The flag returned by a call of `nebula_init` (`false` if it does not return). -/
def flag_of (r : Option (Bool × Option nebula_ctx_t)) : Bool :=
  match r with
  | some (b, _) => b
  | none => false

/-- The context left by a call of `nebula_init` on a non-null context. -/
def ctx_of (r : Option (Bool × Option nebula_ctx_t)) : nebula_ctx_t :=
  match r with
  | some (_, some c) => c
  | _ => zero_ctx

/-! ## Specification-side definitions for the structural walks -/

/-- Specification of `_find_dyn`: `base + p_vaddr` (in `u64`) of the first
program header of type `PT_DYNAMIC` among the first `min(e_phnum, ITER_MAX)`
headers at `base + e_phoff`, and `0` when there is none. -/
def find_dyn_spec (m : Mem) (base : Nat) : Nat :=
  match (List.range (min (e_phnum m base) ITER_MAX)).find? (fun i =>
      p_type m ((base + e_phoff m base) % 2^64 + SIZEOF_PHDR * i) == PT_DYNAMIC) with
  | some i => (base + p_vaddr m ((base + e_phoff m base) % 2^64 + SIZEOF_PHDR * i)) % 2^64
  | none => 0

/-- The first `k` entries (tag and value) of the dynamic table at `dyn`. -/
def dyn_entries (m : Mem) (dyn k : Nat) : List (Nat × Nat) :=
  (List.range k).map (fun i => (d_tag m (dyn + 16 * i), d_un m (dyn + 16 * i)))

/-- The entries walked: those before the first `DT_NULL` among the first
`ITER_MAX` entries. -/
def walked (m : Mem) (dyn : Nat) : List (Nat × Nat) :=
  (dyn_entries m dyn ITER_MAX).takeWhile (fun e => decide (e.1 ≠ DT_NULL))

/-- One of the three tags of interest. -/
def tag_of_interest (t : Nat) : Bool :=
  decide (t = DT_SYMTAB) || decide (t = DT_STRTAB) || decide (t = DT_STRSZ)

/-- The final field of a line: the text after its last space. -/
def final_field (l : List Nat) : List Nat := (l.reverse.takeWhile (fun c => c ≠ 32)).reverse

/-! ## Specification-side definitions for the permission field -/

/-- The text of a line from its second space-delimited field on: what follows
the first run of spaces. -/
def after_spaces (l : List Nat) : List Nat :=
  (l.dropWhile (fun c => c ≠ 32)).dropWhile (fun c => c = 32)

/-- The second space-delimited field of a line. -/
def field2 (l : List Nat) : List Nat := (after_spaces l).takeWhile (fun c => c ≠ 32)

/-- The permission value specified for the characters `c0`, `c1`, `c2` at the
head of `fld`: `4 * [c0 = 'r'] + 2 * [c1 = 'w'] + [c2 = 'x']`. -/
def perms_spec (fld : List Nat) : Nat :=
  4 * (if fld.getD 0 0 = 114 then 1 else 0) + 2 * (if fld.getD 1 0 = 119 then 1 else 0)
    + (if fld.getD 2 0 = 120 then 1 else 0)

/-! ## Specification-side definitions for the range of the symbol scan -/

/-- An entry at which the scan ends: it passes the filters, and the hash of its
name is `hash` (the scan returns) or its name has no terminator. -/
def sym_stop (m : Mem) (strtab strsz hash s : Nat) : Bool :=
  sym_ok m strsz s &&
    (match djb2_at m (strtab + st_name m s) with
     | none => true
     | some h => h == hash)

/-- The list cut after its first element that satisfies `p`. -/
def cut_after (p : Nat → Bool) : List Nat → List Nat
  | [] => []
  | a :: r => if p a then [a] else a :: cut_after p r

/-! ## Specification-side definitions for the hexadecimal token -/

/-- A hexadecimal digit, in either case. -/
def is_hex_digit (c : Nat) : Bool :=
  decide ((48 ≤ c ∧ c ≤ 57) ∨ (97 ≤ c ∧ c ≤ 102) ∨ (65 ≤ c ∧ c ≤ 70))

/-- The numeric value of a hexadecimal digit. -/
def hex_digit_val (c : Nat) : Nat :=
  if c ≤ 57 then c - 48 else if c ≤ 70 then c - 55 else c - 87

/-- The numeric value of a string of hexadecimal digits, most significant
digit first. -/
def hex_value (ds : List Nat) : Nat := ds.foldl (fun v c => 16 * v + hex_digit_val c) 0

/-- The longest prefix of `s`, of at most `max` characters, that consists of
hexadecimal digits. -/
def hex_token (s : List Nat) (max : Nat) : List Nat := (s.take max).takeWhile is_hex_digit

/-- The line starts with a hexadecimal digit. -/
def starts_hex (l : List Nat) : Bool := (l.head?.map is_hex_digit).getD false

/-! ## Specification-side definitions for the checksum -/

/-- The conditional step of the reflected CRC-32 on a 32-bit register: shift
right by one, and xor with the polynomial `0xEDB88320` when the bit shifted out
was set. -/
def crc32_step_spec (crc : Nat) : Nat :=
  if crc % 2 = 1 then (crc >>> 1) ^^^ 0xEDB88320 else crc >>> 1

/-- The register of the standard reflected CRC-32 after the bytes `bytes`,
starting from `0xFFFFFFFF`: each byte is xored into the low bits and followed by
eight steps. -/
def crc32_reg_spec (bytes : List Nat) : Nat :=
  bytes.foldl (fun crc b => crc32_step_spec^[8] (crc ^^^ b)) 0xFFFFFFFF

/-- The standard reflected CRC-32 of a byte sequence: the final register,
complemented. -/
def crc32_spec (bytes : List Nat) : Nat := crc32_reg_spec bytes ^^^ 0xFFFFFFFF

/-- The `len` bytes of memory from address `data` on. -/
def bytes_at (m : Mem) (data len : Nat) : List Nat :=
  (List.range len).map (fun i => rd8 m (data + i))

/-! ## Concrete images and listings used in the examples -/

/-- A minimal 64-bit image laid out for base `b`: the header, one `PT_DYNAMIC`
program header (offset 64), the dynamic table (offset 128) declaring
`DT_SYMTAB`, `DT_STRTAB` and `DT_STRSZ`, the symbol table (offset 192) with the
null symbol and one function symbol called `name` of value `off`, and the
string table (offset 240). -/
def tiny_image (b : Nat) (name : List Nat) (off : Nat) : List Nat :=
  [0x7f, 69, 76, 70, 2] ++ List.replicate 27 0 ++ le 8 64 ++ List.replicate 16 0 ++ le 2 1
    ++ List.replicate 6 0
    ++ le 4 2 ++ List.replicate 12 0 ++ le 8 128 ++ List.replicate 32 0
    ++ List.replicate 8 0
    ++ le 8 6 ++ le 8 (b + 192) ++ le 8 5 ++ le 8 (b + 240) ++ le 8 10
    ++ le 8 (name.length + 2) ++ le 8 0 ++ le 8 0
    ++ List.replicate 24 0
    ++ le 4 1 ++ [0x12, 0] ++ le 2 0 ++ le 8 off ++ le 8 0
    ++ [0] ++ name ++ [0]

/-- A memory holding `tiny_image` with the symbol `write` at base `0x1000`. -/
def mem_libc : Mem := memOf 0x1000 (tiny_image 0x1000 (lit "write") 0x500)

/-- A listing with one line, for `libc.so.6` mapped at `0x1000`. -/
def maps_libc : file_read_t :=
  ⟨3, 50, lit "1000-2000 r-xp 00000000 08:01 1234 /lib/libc.so.6\n"⟩

/-- A file that cannot be opened. -/
def no_file : file_read_t := ⟨-2, 0, []⟩

/-- A process with `libc.so.6` at `0x1000` exporting `write` at offset `0x500`. -/
def world_libc : World := ⟨mem_libc, maps_libc, no_file, no_file, 42, 0⟩

/-- The entries of the dynamic table of `tiny_image` at base `b`. -/
def tiny_dyn (b : Nat) (name : List Nat) : List (Nat × Nat) :=
  [(DT_SYMTAB, b + 192), (DT_STRTAB, b + 240), (DT_STRSZ, name.length + 2)]

/-- A memory holding `tiny_image` at `0x1000` with a symbol whose name hashes
to zero under djb2. -/
def mem_zero_hash : Mem := memOf 0x1000 (tiny_image 0x1000 (lit "6PC61CH") 0x500)

/-- A process whose mapping listing cannot be opened. -/
def world_nomaps : World := ⟨mem_libc, no_file, no_file, no_file, 42, 0⟩

/-- A listing of 64 empty lines followed by a line for `/x` mapped at `0x1000`. -/
def lines_65 : List (List Nat) := List.replicate 64 [] ++ [lit "1000 r-xp /x"]

/-- A memory with an image header at `0x10` and another at `0x20`. -/
def mem_two_hdr : Mem :=
  memOf 0x10 ([0x7f, 69, 76, 70, 2] ++ List.replicate 11 0 ++ [0x7f, 69, 76, 70, 2])

/-- A listing of 32 lines for files with different one-letter names mapped at
`0x10`, followed by a line for `/z` mapped at `0x20`. -/
def lines_33 : List (List Nat) :=
  (List.range 32).map (fun k => lit "10 r-xp /" ++ [65 + k]) ++ [lit "20 r-xp /z"]

/-- A successful read that delivers the lines `ls`, each ended by a newline. -/
def read_lines (ls : List (List Nat)) : file_read_t :=
  ⟨3, (listing_text ls []).length, listing_text ls []⟩

/-- A memory with `tiny_image` exporting `write` at `0x1000` and a bare image
header at `0x1100`. -/
def mem_two : Mem :=
  memOf 0x1000 (tiny_image 0x1000 (lit "write") 0x500 ++ List.replicate 9 0
    ++ [0x7f, 69, 76, 70, 2])

/-- A listing with `libc-2.31.so` at `0x1000` and `libc.so.6` at `0x1100`. -/
def lines_two : List (List Nat) :=
  [lit "1000-1100 r-xp 00000000 08:01 1234 /lib/libc-2.31.so",
   lit "1100-1200 r-xp 00000000 08:01 1235 /lib/libc.so.6"]

/-- A process with both libraries mapped. -/
def world_two : World := ⟨mem_two, read_lines lines_two, no_file, no_file, 42, 0⟩

/-- An image laid out for base `b` whose dynamic table comes last (offset 192)
and has no `DT_NULL` entry: the header, one `PT_DYNAMIC` program header
(offset 64), the symbol table (offset 128) with the null symbol and the
function symbol `write` of value `0x500`, the string table (offset 176), and
the three entries `DT_SYMTAB`, `DT_STRTAB`, `DT_STRSZ`. -/
def open_image (b : Nat) : List Nat :=
  [0x7f, 69, 76, 70, 2] ++ List.replicate 27 0 ++ le 8 64 ++ List.replicate 16 0 ++ le 2 1
    ++ List.replicate 6 0
    ++ le 4 2 ++ List.replicate 12 0 ++ le 8 192 ++ List.replicate 32 0
    ++ List.replicate 8 0
    ++ List.replicate 24 0
    ++ le 4 1 ++ [0x12, 0] ++ le 2 0 ++ le 8 0x500 ++ le 8 0
    ++ [0] ++ lit "write" ++ [0] ++ List.replicate 9 0
    ++ le 8 6 ++ le 8 (b + 128) ++ le 8 5 ++ le 8 (b + 176) ++ le 8 10 ++ le 8 7

/-- A memory holding `open_image` at `0x1000`, followed without end by dynamic
entries of tag 1 and value 0. -/
def mem_noterm : Mem :=
  fun a => if a < 0x1000 + 240 then memOf 0x1000 (open_image 0x1000) a
    else if (a - (0x1000 + 240)) % 16 = 0 then 1 else 0

/-- The image `tiny_image` with `write`, its `DT_STRSZ` entry retagged 1. -/
def mem_no_strsz : Mem :=
  Function.update mem_libc (0x1000 + 128 + 32) 1

/-- An image laid out for base `b` that declares its string table 4097 symbol
records after its symbol table: the header, one `PT_DYNAMIC` program header
(offset 64), and the dynamic table (offset 128) declaring the symbol table at
offset 192, the string table at offset `192 + 24 * 4097` and a size of 8. -/
def wide_image (b : Nat) : List Nat :=
  [0x7f, 69, 76, 70, 2] ++ List.replicate 27 0 ++ le 8 64 ++ List.replicate 16 0 ++ le 2 1
    ++ List.replicate 6 0
    ++ le 4 2 ++ List.replicate 12 0 ++ le 8 128 ++ List.replicate 32 0
    ++ List.replicate 8 0
    ++ le 8 6 ++ le 8 (b + 192) ++ le 8 5 ++ le 8 (b + 192 + 24 * 4097) ++ le 8 10
    ++ le 8 8 ++ le 8 0 ++ le 8 0

/-- A memory holding `wide_image` at `0x1000` and zero elsewhere. -/
def mem_wide : Mem := memOf 0x1000 (wide_image 0x1000)

/-- The image of `mem_libc` with the declared string-table size lowered to 3,
which ends the table inside the name `write`. -/
def mem_short : Mem := Function.update mem_libc (0x1000 + 128 + 40) 3

/-- A listing with three mappings of `/lib/libc.so.6`, at `0x1000`, `0x1100`
and `0x1000` again. -/
def lines_dup : List (List Nat) :=
  [lit "1000-1100 r--p 00000000 08:01 1234 /lib/libc.so.6",
   lit "1100-1200 r-xp 00001000 08:01 1234 /lib/libc.so.6",
   lit "1000-1100 rw-p 00002000 08:01 1234 /lib/libc.so.6"]

/-- A listing with one line, for a bracketed mapping whose name has a `/`. -/
def lines_anon : List (List Nat) := [lit "1000-2000 r-xp 00000000 00:00 0 [anon:/x]"]

/-- A listing with one line whose path is `/` followed by 140 letters `a`. -/
def lines_long : List (List Nat) := [lit "1000 r-xp /" ++ List.replicate 140 97]

/-- The image of `mem_libc` with the declared string-table address lowered to
`0x1064`, below the symbol table at `0x10c0`. -/
def mem_flat : Mem := Function.update mem_libc (0x1000 + 152) 100

/-- The whole lines of a long mapping listing: 59 lines of 68 characters. -/
def lines_cut : List (List Nat) :=
  List.replicate 59 (lit "7f1234560000-7f1234570000 r-xp 00000000 08:01 1234567 /lib/libc.so.6")

/-- The first 24 characters of the next line of that listing. -/
def tail_cut : List Nat := lit "7f1234560000-7f123457000"

/-- What a read of that listing into the 4096-byte buffer delivers: its first
4095 bytes, that is the 59 whole lines and the cut line.  The last byte of the
buffer is what the stack held before. -/
def maps_cut : file_read_t := ⟨3, 4095, listing_text lines_cut tail_cut ++ [0xaa]⟩

/-- An image laid out for base `b` with three symbol records: the header, one
`PT_DYNAMIC` program header (offset 64), the dynamic table (offset 128), the
symbol table (offset 192) with the null symbol, the function `write` of value
`0x500` and the function `read` of value `0x600`, and the string table (offset
264, 12 bytes). -/
def tri_image (b : Nat) : List Nat :=
  [0x7f, 69, 76, 70, 2] ++ List.replicate 27 0 ++ le 8 64 ++ List.replicate 16 0 ++ le 2 1
    ++ List.replicate 6 0
    ++ le 4 2 ++ List.replicate 12 0 ++ le 8 128 ++ List.replicate 32 0
    ++ List.replicate 8 0
    ++ le 8 6 ++ le 8 (b + 192) ++ le 8 5 ++ le 8 (b + 264) ++ le 8 10
    ++ le 8 12 ++ le 8 0 ++ le 8 0
    ++ List.replicate 24 0
    ++ le 4 1 ++ [0x12, 0] ++ le 2 0 ++ le 8 0x500 ++ le 8 0
    ++ le 4 7 ++ [0x12, 0] ++ le 2 0 ++ le 8 0x600 ++ le 8 0
    ++ [0] ++ lit "write" ++ [0] ++ lit "read" ++ [0]

/-- A memory holding `tri_image` at `0x1000` and zero elsewhere. -/
def mem_tri : Mem := memOf 0x1000 (tri_image 0x1000)

/-- A memory holding at `0x1000` an image header that declares `0xffff` program
headers at offset 0, none of them of type `PT_DYNAMIC`. -/
def mem_nophdr : Mem := memOf 0x1000 ([0x7f, 69, 76, 70, 2] ++ List.replicate 51 0 ++ [0xff, 0xff])
/-! ## Lemmas: `_is_elf` -/

theorem is_elf_iff (m : Mem) (addr : Nat) :
    _is_elf m addr = true ↔
      addr ≠ 0 ∧ rd8 m addr = 0x7f ∧ rd8 m (addr + 1) = 69 ∧ rd8 m (addr + 2) = 76 ∧
        rd8 m (addr + 3) = 70 ∧ rd8 m (addr + 4) = 2 := by
  unfold _is_elf
  by_cases h0 : addr = 0
  · simp [h0]
  · simp only [h0, if_false, _memcmp, _memcmp_loop, _elf_magic, e_ident, List.getD_cons_zero,
      List.getD_cons_succ, Nat.add_zero, Nat.zero_add]
    by_cases h1 : rd8 m addr = 0x7f <;> by_cases h2 : rd8 m (addr + 1) = 69 <;>
      by_cases h3 : rd8 m (addr + 2) = 76 <;> by_cases h4 : rd8 m (addr + 3) = 70 <;>
      simp [h1, h2, h3, h4, sub_eq_zero]
    all_goals omega

theorem is_elf_zero (m : Mem) : _is_elf m 0 = false := by simp [_is_elf]

/-! ## Lemmas: the pointer loops on a line followed by its end -/

theorem deref_nil : deref [] = 0 := rfl

theorem deref_cons (c : Nat) (r : List Nat) : deref (c :: r) = c := rfl

theorem deref_line_append {l e : List Nat} (hl : is_line l) (he : deref e = 10 ∨ l ≠ []) :
    deref (l ++ e) ≠ 0 := by
  cases l with
  | nil => rcases he with he | he
           · simp [he]
           · exact absurd rfl he
  | cons c r => simpa [deref] using (hl c (by simp)).1

theorem hex2u64_loop_line_append (k : Nat) (l e : List Nat) (v : Nat) (he : is_end e) :
    _hex2u64_loop k (l ++ e) v = _hex2u64_loop k l v := by
  induction l generalizing k v with
  | nil =>
    cases k with
    | zero => simp [_hex2u64_loop]
    | succ k =>
      cases e with
      | nil => rfl
      | cons c r =>
        have hc : c = 0 ∨ c = 10 := by simpa [is_end, deref] using he
        rcases hc with hc | hc <;> subst hc <;> simp [_hex2u64_loop]
  | cons c r ih =>
    cases k with
    | zero => simp [_hex2u64_loop]
    | succ k =>
      rw [List.cons_append]
      simp only [_hex2u64_loop, ih]

theorem hex2u64_line_append (l e : List Nat) (he : is_end e) :
    _hex2u64 (l ++ e) 16 = line_base l := by
  simp [_hex2u64, line_base, hex2u64_loop_line_append _ _ _ _ he]

theorem skip_to_slash_line_append {l e : List Nat} (hl : is_line l) (he : is_end e) :
    skip_to_slash (l ++ e) = path_of l ++ e := by
  induction l with
  | nil =>
    cases e with
    | nil => rfl
    | cons c r =>
      have hc : c = 0 ∨ c = 10 := by simpa [is_end, deref] using he
      rcases hc with hc | hc <;> subst hc <;> simp [skip_to_slash, path_of]
  | cons c r ih =>
    have hc := hl c (by simp)
    have hr : is_line r := fun x hx => hl x (by simp [hx])
    by_cases h47 : c = 47
    · subst h47; simp [skip_to_slash, path_of]
    · simp [skip_to_slash, path_of, hc.1, hc.2, h47, ih hr]

theorem path_of_eq_nil {l : List Nat} : path_of l = [] ↔ 47 ∉ l := by
  simp only [path_of, List.dropWhile_eq_nil_iff, decide_eq_true_eq]
  exact ⟨fun h h47 => h 47 h47 rfl, fun h x hx hx47 => h (hx47 ▸ hx)⟩

theorem deref_path_of_append {l e : List Nat} (he : is_end e) :
    deref (path_of l ++ e) = 47 ↔ 47 ∈ l := by
  induction l with
  | nil =>
    simp only [path_of, List.dropWhile_nil, List.nil_append, List.not_mem_nil, iff_false]
    rcases he with he | he <;> simp [he]
  | cons c r ih =>
    by_cases h47 : c = 47
    · subst h47; simp [path_of, deref]
    · have : path_of (c :: r) = path_of r := by simp [path_of, h47]
      rw [this, ih]
      simp [Ne.symm h47]


theorem is_line_tail {c : Nat} {r : List Nat} (h : is_line (c :: r)) : is_line r :=
  fun x hx => h x (by simp [hx])

theorem end_cases {e : List Nat} (he : is_end e) :
    e = [] ∨ ∃ r, e = 0 :: r ∨ e = 10 :: r := by
  cases e with
  | nil => exact Or.inl rfl
  | cons c r =>
    have hc : c = 0 ∨ c = 10 := by simpa [is_end, deref] using he
    rcases hc with hc | hc
    · exact Or.inr ⟨r, Or.inl (by rw [hc])⟩
    · exact Or.inr ⟨r, Or.inr (by rw [hc])⟩

theorem last_comp_cons (c : Nat) (r : List Nat) :
    last_comp (c :: r) = if 47 ∈ r then last_comp r else if c = 47 then r else c :: r := by
  unfold last_comp
  rw [List.reverse_cons, List.takeWhile_append]
  by_cases h : 47 ∈ r
  · have hlt : (List.takeWhile (fun c => decide (c ≠ 47)) r.reverse).length ≠ r.reverse.length := by
      intro heq
      have hall := (List.takeWhile_eq_self_iff.mp
        (List.IsPrefix.eq_of_length (List.takeWhile_prefix _) heq))
      have := hall 47 (by simpa using h)
      simp at this
    rw [if_neg hlt, if_pos h]
  · have hall : List.takeWhile (fun c => decide (c ≠ 47)) r.reverse = r.reverse := by
      rw [List.takeWhile_eq_self_iff]
      intro x hx
      have : x ∈ r := by simpa using hx
      simpa using fun hx47 : x = 47 => h (hx47 ▸ this)
    have hlen : (List.takeWhile (fun c => decide (c ≠ 47)) r.reverse).length = r.reverse.length := by
      rw [hall]
    rw [if_pos hlen, if_neg h]
    by_cases hc : c = 47
    · simp [hc, List.takeWhile]
    · simp [hc, List.takeWhile]

theorem last_comp_path_of {l : List Nat} (h : 47 ∈ l) : last_comp (path_of l) = last_comp l := by
  induction l with
  | nil => simp at h
  | cons c r ih =>
    by_cases hc : c = 47
    · simp [path_of, hc]
    · have hr : 47 ∈ r := by
        rcases List.mem_cons.mp h with h | h
        · exact absurd h.symm hc
        · exact h
      have hp : path_of (c :: r) = path_of r := by simp [path_of, hc]
      rw [hp, ih hr, last_comp_cons, if_pos hr]

theorem is_line_path_of {l : List Nat} (hl : is_line l) : is_line (path_of l) :=
  fun x hx => hl x ((List.dropWhile_sublist _).subset hx)

theorem is_line_last_comp {l : List Nat} (hl : is_line l) : is_line (last_comp l) := by
  intro x hx
  have h1 : x ∈ l.reverse.takeWhile (fun c => c ≠ 47) := by simpa [last_comp] using hx
  have h2 : x ∈ l.reverse := (List.takeWhile_sublist _).subset h1
  exact hl x (by simpa using h2)

theorem mem_path_of {l : List Nat} : 47 ∈ path_of l ↔ 47 ∈ l := by
  induction l with
  | nil => simp [path_of]
  | cons c r ih =>
    by_cases hc : c = 47
    · simp [path_of, hc]
    · have hp : path_of (c :: r) = path_of r := by simp [path_of, hc]
      rw [hp, ih]
      simp [Ne.symm hc]

theorem scan_name_line_append {p e : List Nat} (hp : is_line p) (he : is_end e)
    (name0 : List Nat) :
    scan_name (p ++ e) name0 = (if 47 ∈ p then last_comp p ++ e else name0, e) := by
  induction p generalizing name0 with
  | nil =>
    rcases end_cases he with h | ⟨r, h | h⟩ <;> subst h <;> simp [scan_name]
  | cons c r ih =>
    have hc := hp c (by simp)
    rw [List.cons_append]
    simp only [scan_name, hc.1, hc.2, ne_eq, not_false_eq_true, and_self, if_true]
    rw [ih (is_line_tail hp), last_comp_cons]
    by_cases h47 : 47 ∈ r
    · simp [h47]
    · by_cases hc47 : c = 47
      · simp [h47, hc47]
      · simp [h47, hc47, Ne.symm hc47]

theorem line_len_line_append {l e : List Nat} (hl : is_line l) (he : is_end e) :
    line_len (l ++ e) = l.length := by
  induction l with
  | nil =>
    rcases end_cases he with h | ⟨r, h | h⟩ <;> subst h <;> simp [line_len]
  | cons c r ih =>
    have hc := hl c (by simp)
    rw [List.cons_append]
    simp [line_len, hc.1, hc.2, ih (is_line_tail hl)]

theorem djb2n_loop_append (n : Nat) (s e : List Nat) (h : Nat) (hn : n ≤ s.length) :
    djb2n_loop n (s ++ e) h = djb2n_loop n s h := by
  induction n generalizing s h with
  | zero => rfl
  | succ n ih =>
    cases s with
    | nil => simp at hn
    | cons c r =>
      simp only [List.cons_append, djb2n_loop, List.tail_cons, List.headD_cons]
      exact ih r _ (by simpa using hn)

theorem skip_line_line_append {l e : List Nat} (hl : is_line l) (he : is_end e) :
    skip_line (l ++ e) = e := by
  induction l with
  | nil =>
    rcases end_cases he with h | ⟨r, h | h⟩ <;> subst h <;> simp [skip_line]
  | cons c r ih =>
    have hc := hl c (by simp)
    rw [List.cons_append]
    simp [skip_line, hc.1, hc.2, ih (is_line_tail hl)]

theorem next_line_line_append {l e : List Nat} (hl : is_line l) (he : is_end e) :
    next_line (l ++ e) = if deref e ≠ 0 then e.tail else e := by
  simp [next_line, skip_line_line_append hl he]

/-- One round of the loop of `resolve_mod` on a line followed by its end. -/
theorem resolve_mod_loop_line (m : Mem) (hash k : Nat) {l e : List Nat} (hl : is_line l)
    (he : is_end e) (hne : deref e = 10 ∨ l ≠ []) :
    resolve_mod_loop m hash (k + 1) (l ++ e) =
      if line_matches m hash l = true then line_base l
      else resolve_mod_loop m hash k (if deref e ≠ 0 then e.tail else e) := by
  have h0 := deref_line_append hl hne
  rw [resolve_mod_loop]
  simp only [h0, if_false, hex2u64_line_append l e he, skip_to_slash_line_append hl he,
    next_line_line_append hl he, deref_path_of_append he]
  by_cases h47 : 47 ∈ l
  · have hn : (scan_name (path_of l ++ e) (path_of l ++ e)).1 = last_comp l ++ e := by
      rw [scan_name_line_append (is_line_path_of hl) he, if_pos (mem_path_of.mpr h47),
        last_comp_path_of h47]
    simp only [h47, if_true, hn, line_len_line_append (is_line_last_comp hl) he]
    have hh : djb2n (last_comp l ++ e) (last_comp l).length = line_hash l := by
      simp [djb2n, line_hash, djb2n_loop_append]
    rw [hh]
    by_cases hm : line_hash l = hash <;> by_cases helf : _is_elf m (line_base l) = true <;>
      simp [line_matches, h47, hm, helf]
  · simp [h47, line_matches]

/-! ## Lemmas: `resolve_mod` on a listing -/

theorem listing_text_cons (l : List Nat) (ls : List (List Nat)) (t : List Nat) :
    listing_text (l :: ls) t = l ++ 10 :: listing_text ls t := by
  simp [listing_text]

theorem listing_text_nil (t : List Nat) : listing_text [] t = t := by
  simp [listing_text]

theorem listing_text_eq_nil {ls : List (List Nat)} {t : List Nat} :
    listing_text ls t = [] ↔ ls = [] ∧ t = [] := by
  cases ls with
  | nil => simp [listing_text]
  | cons l ls => simp [listing_text_cons]

theorem resolve_mod_spec_zero (m : Mem) (hash : Nat) (lines : List (List Nat)) :
    resolve_mod_spec m hash 0 lines = 0 := by
  simp [resolve_mod_spec]

theorem resolve_mod_spec_nil (m : Mem) (hash k : Nat) : resolve_mod_spec m hash k [] = 0 := by
  simp [resolve_mod_spec]

theorem resolve_mod_spec_cons (m : Mem) (hash k : Nat) (l : List Nat) (lines : List (List Nat)) :
    resolve_mod_spec m hash (k + 1) (l :: lines) =
      if line_matches m hash l = true then line_base l else resolve_mod_spec m hash k lines := by
  by_cases h : line_matches m hash l = true
  · simp [resolve_mod_spec, List.find?, h]
  · simp [resolve_mod_spec, List.find?, h]

theorem resolve_mod_loop_end (m : Mem) (hash k : Nat) {r : List Nat} (hr : deref r = 0) :
    resolve_mod_loop m hash k r = 0 := by
  cases k with
  | zero => rfl
  | succ k => simp [resolve_mod_loop, hr]

/-- The loop of `resolve_mod` on a listing computes the specification over the
first `k` lines. -/
theorem resolve_mod_loop_listing (m : Mem) (hash : Nat) (ls : List (List Nat)) (t r : List Nat)
    (hls : ∀ l ∈ ls, is_line l) (ht : is_line t) (hr : deref r = 0) (k : Nat) :
    resolve_mod_loop m hash k (listing_text ls t ++ r) =
      resolve_mod_spec m hash k (listing_lines ls t) := by
  induction ls generalizing k with
  | nil =>
    cases k with
    | zero => rw [resolve_mod_spec_zero]; rfl
    | succ k =>
      rw [listing_text_nil]
      by_cases htn : t = []
      · subst htn
        simp [listing_lines, resolve_mod_spec_nil, resolve_mod_loop, hr]
      · rw [resolve_mod_loop_line m hash k ht (Or.inl hr) (Or.inr htn)]
        simp [listing_lines, htn, resolve_mod_spec_cons, resolve_mod_spec_nil, hr,
          resolve_mod_loop_end m hash k hr]
  | cons l ls ih =>
    cases k with
    | zero => rw [resolve_mod_spec_zero]; rfl
    | succ k =>
      have hl : is_line l := hls l (by simp)
      have hls' : ∀ x ∈ ls, is_line x := fun x hx => hls x (by simp [hx])
      have he : is_end (10 :: (listing_text ls t ++ r)) := Or.inr rfl
      rw [listing_text_cons, List.append_assoc, List.cons_append,
        resolve_mod_loop_line m hash k hl he (Or.inl rfl)]
      have hlines : listing_lines (l :: ls) t = l :: listing_lines ls t := by
        simp [listing_lines]
      rw [hlines, resolve_mod_spec_cons]
      simp only [deref_cons, ne_eq, OfNat.ofNat_ne_zero, not_false_eq_true, if_true,
        List.tail_cons]
      rw [ih hls' k]

/-- The buffer after `buf[n] = '\0'`, when the read delivered the text `L`. -/
theorem set_terminator (L g : List Nat) :
    (L ++ g).set (L.length : Int).toNat 0 = L ++ g.set 0 0 := by
  simp

theorem deref_set_zero (g : List Nat) : deref (g.set 0 0) = 0 := by
  cases g <;> rfl

/-- Function `resolve_mod` on a listing delivered by a successful read. -/
theorem resolve_mod_listing (m : Mem) (hash : Nat) (fd : Int) (ls : List (List Nat))
    (t g : List Nat) (hfd : 0 ≤ fd) (hls : ∀ l ∈ ls, is_line l) (ht : is_line t) :
    resolve_mod ⟨fd, (listing_text ls t).length, listing_text ls t ++ g⟩ m hash =
      resolve_mod_spec m hash 64 (listing_lines ls t) := by
  unfold resolve_mod
  simp only [not_lt.mpr hfd, if_false]
  by_cases hn : ((listing_text ls t).length : Int) ≤ 0
  · have hlen : (listing_text ls t).length = 0 := by omega
    have hnil := listing_text_eq_nil.mp (List.length_eq_zero.mp hlen)
    simp [hn, hnil.1, hnil.2, listing_lines, resolve_mod_spec_nil, listing_text_nil]
  · rw [if_neg hn, set_terminator]
    exact resolve_mod_loop_listing m hash ls t _ hls ht (deref_set_zero g) 64

/-! ## Lemmas: symbol lookup -/

theorem rd8_lt (m : Mem) (a : Nat) : rd8 m a < 256 := Nat.mod_lt _ (by decide)

theorem has_cstr_nil {m : Mem} {a : Nat} (h : has_cstr m a []) : rd8 m a = 0 := by
  simpa using h.2.2

theorem has_cstr_cons {m : Mem} {a c : Nat} {n : List Nat} (h : has_cstr m a (c :: n)) :
    rd8 m a = c ∧ c ≠ 0 ∧ has_cstr m (a + 1) n := by
  obtain ⟨hlen, hall, hend⟩ := h
  have h0 := hall 0 (by simp)
  refine ⟨by simpa using h0.1, by simpa using h0.2, ?_, ?_, ?_⟩
  · simp only [List.length_cons] at hlen; omega
  · intro i hi
    have := hall (i + 1) (by simpa using hi)
    simpa [Nat.add_assoc, Nat.add_comm 1 i] using this
  · simpa [Nat.add_assoc, Nat.add_comm 1 n.length] using hend

theorem djb2_loop_of_cstr (m : Mem) (n : List Nat) (f a h : Nat) (hs : has_cstr m a n)
    (hf : n.length < f) : djb2_loop m f a h = some (djb2_from n h) := by
  induction n generalizing f a h with
  | nil =>
    cases f with
    | zero => simp at hf
    | succ f => simp [djb2_loop, has_cstr_nil hs, djb2_from]
  | cons c n ih =>
    cases f with
    | zero => simp at hf
    | succ f =>
      obtain ⟨hc, hc0, hrest⟩ := has_cstr_cons hs
      have hlt : c < 256 := hc ▸ rd8_lt m a
      have hmod : c % 256 = c := Nat.mod_eq_of_lt hlt
      simp only [djb2_loop, hc, ne_eq, hc0, not_false_eq_true, if_true, djb2_from, hmod]
      exact ih f (a + 1) _ hrest (by simpa using hf)

/-- The hash computed for a NUL-terminated name in memory. -/
theorem djb2_at_of_cstr (m : Mem) (a : Nat) (n : List Nat) (hs : has_cstr m a n) :
    djb2_at m a = some (djb2 n) :=
  djb2_loop_of_cstr m n _ a _ hs hs.1

theorem sym_addrs_nil {s strtab : Nat} (h : strtab ≤ s) : sym_addrs s strtab = [] := by
  have : (strtab - s + 23) / 24 = 0 := by omega
  simp [sym_addrs, this]

theorem sym_addrs_step {s strtab : Nat} (h : s < strtab) :
    sym_addrs s strtab = s :: sym_addrs (s + 24) strtab := by
  have : (strtab - s + 23) / 24 = (strtab - (s + 24) + 23) / 24 + 1 := by omega
  unfold sym_addrs
  rw [this, List.range_succ_eq_map]
  simp only [List.map_cons, List.map_map, Nat.mul_zero, Nat.add_zero, List.cons.injEq, true_and]
  apply List.map_congr_left
  intro k _
  simp only [Function.comp, Nat.succ_eq_add_one]
  omega

theorem resolve_sym_spec_nil (m : Mem) (base hash strtab strsz : Nat) {s : Nat}
    (h : strtab ≤ s) : resolve_sym_spec m base hash s strtab strsz = 0 := by
  simp [resolve_sym_spec, sym_addrs_nil h]

theorem resolve_sym_spec_step (m : Mem) (base hash strtab strsz : Nat) {s : Nat}
    (h : s < strtab) :
    resolve_sym_spec m base hash s strtab strsz =
      if sym_hit m strtab strsz hash s = true then (base + st_value m s) % 2^64
      else resolve_sym_spec m base hash (s + 24) strtab strsz := by
  by_cases hh : sym_hit m strtab strsz hash s = true
  · simp [resolve_sym_spec, sym_addrs_step h, List.find?, hh]
  · simp [resolve_sym_spec, sym_addrs_step h, List.find?, hh]

/-- The scan of `resolve_sym` computes the specification when every name it
hashes is NUL-terminated. -/
theorem sym_scan_eq_spec (m : Mem) (base hash strtab strsz : Nat) (n : Nat) :
    ∀ (fuel s : Nat), (strtab - s + 23) / 24 = n → n ≤ fuel →
      (∀ a ∈ sym_addrs s strtab, sym_ok m strsz a = true →
        (djb2_at m (strtab + st_name m a)).isSome = true) →
      sym_scan m base hash strtab strsz fuel s =
        some (resolve_sym_spec m base hash s strtab strsz) := by
  induction n with
  | zero =>
    intro fuel s hn _ _
    have hle : strtab ≤ s := by omega
    rw [resolve_sym_spec_nil m base hash strtab strsz hle]
    cases fuel with
    | zero => rfl
    | succ f => simp [sym_scan, Nat.not_lt.mpr hle]
  | succ n ih =>
    intro fuel s hn hfuel hterm
    have hlt : s < strtab := by omega
    cases fuel with
    | zero => omega
    | succ f =>
      have hrec := ih f (s + 24) (by omega) (by omega)
        (fun a ha => hterm a (by rw [sym_addrs_step hlt]; exact List.mem_cons_of_mem _ ha))
      have hts := hterm s (by rw [sym_addrs_step hlt]; exact List.mem_cons_self _ _)
      rw [resolve_sym_spec_step m base hash strtab strsz hlt, sym_scan]
      simp only [hlt, if_true]
      by_cases h1 : st_name m s = 0 ∨ st_value m s = 0 ∨ st_name m s ≥ strsz
      · have hok : sym_ok m strsz s = false := by
          rcases h1 with h | h | h <;> simp [sym_ok, h]
        simp [h1, hrec, sym_hit, hok]
      · rw [if_neg h1]
        by_cases h2 : ELF64_ST_TYPE (st_info m s) ≠ STT_FUNC ∧
            ELF64_ST_TYPE (st_info m s) ≠ STT_OBJECT
        · have hok : sym_ok m strsz s = false := by simp [sym_ok, h2.1, h2.2]
          simp [h2, hrec, sym_hit, hok]
        · rw [if_neg h2]
          have hok : sym_ok m strsz s = true := by
            simp only [not_or, ge_iff_le, not_le] at h1
            have h2' : ELF64_ST_TYPE (st_info m s) = STT_FUNC ∨
                ELF64_ST_TYPE (st_info m s) = STT_OBJECT := by
              by_contra hcon
              exact h2 ⟨fun h => hcon (Or.inl h), fun h => hcon (Or.inr h)⟩
            simp only [sym_ok, ne_eq, h1.1, not_false_eq_true, decide_True, h1.2.1, h1.2.2,
              Bool.and_self, Bool.true_and, Bool.or_eq_true, decide_eq_true_eq]
            exact h2'
          obtain ⟨hv, hhv⟩ := Option.isSome_iff_exists.mp (hts hok)
          rw [hhv]
          by_cases hh : hv = hash
          · simp [hh, sym_hit, hok, hhv]
          · simp [hh, sym_hit, hok, hhv, hrec]

theorem resolve_sym_eq_spec (m : Mem) (base hash : Nat) (hv : _is_elf m base = true)
    (hh : hash ≠ 0) (hd : _find_dyn m base ≠ 0)
    (h1 : (dyn_walk m ITER_MAX (_find_dyn m base) ⟨0, 0, 0⟩).symtab ≠ 0)
    (h2 : (dyn_walk m ITER_MAX (_find_dyn m base) ⟨0, 0, 0⟩).strtab ≠ 0)
    (h3 : (dyn_walk m ITER_MAX (_find_dyn m base) ⟨0, 0, 0⟩).strsz ≠ 0)
    (hterm : ∀ a ∈ sym_addrs (dyn_walk m ITER_MAX (_find_dyn m base) ⟨0, 0, 0⟩).symtab
        (dyn_walk m ITER_MAX (_find_dyn m base) ⟨0, 0, 0⟩).strtab,
      sym_ok m (dyn_walk m ITER_MAX (_find_dyn m base) ⟨0, 0, 0⟩).strsz a = true →
      (djb2_at m ((dyn_walk m ITER_MAX (_find_dyn m base) ⟨0, 0, 0⟩).strtab + st_name m a)).isSome
        = true) :
    resolve_sym m base hash =
      some (resolve_sym_spec m base hash
        (dyn_walk m ITER_MAX (_find_dyn m base) ⟨0, 0, 0⟩).symtab
        (dyn_walk m ITER_MAX (_find_dyn m base) ⟨0, 0, 0⟩).strtab
        (dyn_walk m ITER_MAX (_find_dyn m base) ⟨0, 0, 0⟩).strsz) := by
  have hb : base ≠ 0 := ((is_elf_iff m base).mp hv).1
  unfold resolve_sym
  simp only [hb, hh, hv, hd, h1, h2, h3, or_self, if_false, Bool.true_eq_false]
  exact sym_scan_eq_spec m base hash _ _ _ _ _ rfl (by omega) hterm

theorem find_dyn_loop_first (m : Mem) (base p phnum i : Nat) (hi : i < phnum)
    (ht : p_type m (p + SIZEOF_PHDR * i) = PT_DYNAMIC) :
    ∀ (k j : Nat), j ≤ i → i < j + k →
      (∀ j', j ≤ j' → j' < i → p_type m (p + SIZEOF_PHDR * j') ≠ PT_DYNAMIC) →
      _find_dyn_loop m base p phnum k j = (base + p_vaddr m (p + SIZEOF_PHDR * i)) % 2^64 := by
  intro k
  induction k with
  | zero => intro j h1 h2; omega
  | succ k ih =>
    intro j h1 h2 hnot
    rw [_find_dyn_loop]
    have hj : j < phnum := by omega
    simp only [hj, if_true]
    by_cases hji : j = i
    · subst hji; simp [ht]
    · rw [if_neg (hnot j (Nat.le_refl _) (by omega))]
      exact ih (j + 1) (by omega) (by omega) (fun j' h3 h4 => hnot j' (by omega) h4)

theorem dyn_record_eq (m : Mem) (dyn : Nat) (st : dyn_info_t) :
    dyn_record m dyn st = record_ent st (d_tag m dyn, d_un m dyn) := rfl

theorem has_dyn_table_tail {m : Mem} {dyn : Nat} {e : Nat × Nat} {ents : List (Nat × Nat)}
    (h : has_dyn_table m dyn (e :: ents)) :
    d_tag m dyn = e.1 ∧ d_un m dyn = e.2 ∧ e.1 ≠ DT_NULL ∧ has_dyn_table m (dyn + 16) ents := by
  obtain ⟨hall, hend⟩ := h
  have h0 := hall 0 (by simp)
  refine ⟨by simpa using h0.1, by simpa using h0.2.1, by simpa using h0.2.2, ?_, ?_⟩
  · intro i hi
    have := hall (i + 1) (by simpa using hi)
    have ha : dyn + 16 * (i + 1) = dyn + 16 + 16 * i := by omega
    simpa [ha] using this
  · have ha : dyn + 16 * (e :: ents).length = dyn + 16 + 16 * ents.length := by
      simp only [List.length_cons]; omega
    rw [← ha]; exact hend

/-- The walk over a table that ends within the cap folds `record_ent` over its
entries. -/
theorem dyn_walk_table (m : Mem) (ents : List (Nat × Nat)) :
    ∀ (k dyn : Nat) (st : dyn_info_t), has_dyn_table m dyn ents → ents.length ≤ k →
      dyn_walk m k dyn st = ents.foldl record_ent st := by
  induction ents with
  | nil =>
    intro k dyn st h _
    have h0 : d_tag m dyn = DT_NULL := by simpa [has_dyn_table] using h.2
    cases k with
    | zero => rfl
    | succ k => simp [dyn_walk, h0]
  | cons e ents ih =>
    intro k dyn st h hk
    obtain ⟨ht, hu, hne, hrest⟩ := has_dyn_table_tail h
    cases k with
    | zero => simp at hk
    | succ k =>
      rw [dyn_walk, if_pos (by rw [ht]; exact hne), dyn_record_eq, ht, hu]
      exact ih k _ _ hrest (by simpa using hk)

theorem dyn_field_record (st : dyn_info_t) (e : Nat × Nat) (tag : Nat)
    (htag : tag = DT_SYMTAB ∨ tag = DT_STRTAB ∨ tag = DT_STRSZ) :
    dyn_field (record_ent st e) tag = if e.1 = tag then e.2 else dyn_field st tag := by
  rcases htag with h | h | h <;> subst h <;>
    by_cases h6 : e.1 = DT_SYMTAB <;> by_cases h5 : e.1 = DT_STRTAB <;>
    by_cases h10 : e.1 = DT_STRSZ <;> simp_all [dyn_field, record_ent]

theorem dyn_field_foldl (tag v : Nat) (htag : tag = DT_SYMTAB ∨ tag = DT_STRTAB ∨ tag = DT_STRSZ)
    (ents : List (Nat × Nat)) :
    ∀ st : dyn_info_t, (∀ v', (tag, v') ∈ ents → v' = v) →
      ((tag, v) ∈ ents ∨ dyn_field st tag = v) →
      dyn_field (ents.foldl record_ent st) tag = v := by
  induction ents with
  | nil => intro st _ h; simpa using h
  | cons e ents ih =>
    intro st huniq h
    rw [List.foldl_cons]
    apply ih _ (fun v' hv' => huniq v' (List.mem_cons_of_mem _ hv'))
    rw [dyn_field_record st e tag htag]
    by_cases he : e.1 = tag
    · right
      rw [if_pos he]
      exact huniq e.2 (by rw [← he]; exact List.mem_cons_self _ _)
    · rw [if_neg he]
      rcases h with h | h
      · rcases List.mem_cons.mp h with h | h
        · exact absurd (by rw [← h]) he
        · exact Or.inl h
      · exact Or.inr h

theorem dyn_field_declared (ents : List (Nat × Nat)) (tag v : Nat)
    (htag : tag = DT_SYMTAB ∨ tag = DT_STRTAB ∨ tag = DT_STRSZ) (h : declares ents tag v) :
    dyn_field (ents.foldl record_ent ⟨0, 0, 0⟩) tag = v :=
  dyn_field_foldl tag v htag ents _ (fun v' hv' => h.2 (tag, v') hv' rfl) (Or.inl h.1)

theorem mem_sym_addrs {a symtab strtab : Nat} :
    a ∈ sym_addrs symtab strtab ↔ ∃ j, a = symtab + 24 * j ∧ a < strtab := by
  simp only [sym_addrs, List.mem_map, List.mem_range]
  constructor
  · rintro ⟨j, hj, rfl⟩
    exact ⟨j, rfl, by omega⟩
  · rintro ⟨j, rfl, hlt⟩
    exact ⟨j, by omega, rfl⟩

theorem find?_unique {α : Type} (p : α → Bool) (l : List α) (x : α) (hx : x ∈ l)
    (hp : p x = true) (hu : ∀ y ∈ l, p y = true → y = x) : l.find? p = some x := by
  induction l with
  | nil => simp at hx
  | cons y l ih =>
    by_cases hy : p y = true
    · have := hu y (List.mem_cons_self _ _) hy
      subst this
      simp [List.find?, hy]
    · have hxl : x ∈ l := by
        rcases List.mem_cons.mp hx with h | h
        · rw [h] at hp; exact absurd hp hy
        · exact h
      simp only [List.find?, Bool.not_eq_true] at hy ⊢
      rw [hy]
      exact ih hxl (fun z hz => hu z (List.mem_cons_of_mem _ hz))

/-- On an image whose tables lie within the caps, `resolve_sym` scans the
declared symbol array. -/
theorem resolve_sym_tables (m : Mem) (base i : Nat) (ents : List (Nat × Nat))
    (symtab strtab strsz : Nat) (ht : image_tables m base i ents symtab strtab strsz)
    (hc : within_caps m base i ents symtab) (hstr : strtab ≠ 0) (hsz : strsz ≠ 0)
    (hterm : ∀ a ∈ sym_addrs symtab strtab, sym_ok m strsz a = true →
      (djb2_at m (strtab + st_name m a)).isSome = true)
    (hash : Nat) (hh : hash ≠ 0) :
    resolve_sym m base hash = some (resolve_sym_spec m base hash symtab strtab strsz) := by
  have hfd : _find_dyn m base =
      (base + p_vaddr m ((base + e_phoff m base) % 2^64 + SIZEOF_PHDR * i)) % 2^64 := by
    unfold _find_dyn
    exact find_dyn_loop_first m base _ _ i ht.ph_index ht.ph_dynamic ITER_MAX 0 (Nat.zero_le _)
      (by have := hc.ph_cap; omega)
      (fun j _ hj => ht.ph_others j (Nat.lt_trans hj ht.ph_index) (Nat.ne_of_lt hj))
  have hw : dyn_walk m ITER_MAX (_find_dyn m base) ⟨0, 0, 0⟩ = ents.foldl record_ent ⟨0, 0, 0⟩ := by
    rw [hfd]; exact dyn_walk_table m ents _ _ _ ht.table hc.dyn_cap
  have h6 : (ents.foldl record_ent ⟨0, 0, 0⟩).symtab = symtab := by
    simpa [dyn_field] using dyn_field_declared ents DT_SYMTAB symtab (Or.inl rfl) ht.decl_symtab
  have h5 : (ents.foldl record_ent ⟨0, 0, 0⟩).strtab = strtab := by
    simpa [dyn_field] using
      dyn_field_declared ents DT_STRTAB strtab (Or.inr (Or.inl rfl)) ht.decl_strtab
  have h10 : (ents.foldl record_ent ⟨0, 0, 0⟩).strsz = strsz := by
    simpa [dyn_field] using
      dyn_field_declared ents DT_STRSZ strsz (Or.inr (Or.inr rfl)) ht.decl_strsz
  have hspec := resolve_sym_eq_spec m base hash ht.valid hh (by rw [hfd]; exact hc.dyn_pos)
    (by rw [hw, h6]; exact hc.symtab_pos) (by rw [hw, h5]; exact hstr)
    (by rw [hw, h10]; exact hsz) (by rw [hw, h6, h5, h10]; exact hterm)
  rw [hspec, hw, h6, h5, h10]

/-- What `resolve_sym` returns on an image that exports one function symbol. -/
theorem resolve_sym_exports (m : Mem) (base : Nat) (n : List Nat) (v i : Nat)
    (ents : List (Nat × Nat)) (symtab strtab strsz s : Nat)
    (hx : exports_symbol m base n v i ents symtab strtab strsz s)
    (hc : within_caps m base i ents symtab) (hash : Nat) (hh : hash ≠ 0) :
    resolve_sym m base hash = some (if hash = djb2 n then (base + v) % 2^64 else 0) := by
  obtain ⟨j, hsj, hslt⟩ := mem_sym_addrs.mp hx.sym_mem
  have hstr : strtab ≠ 0 := by omega
  have hsz : strsz ≠ 0 := by have := hx.name_lt; omega
  have hname := djb2_at_of_cstr m _ n hx.name_eq
  have hoks : sym_ok m strsz s = true := by
    simp [sym_ok, hx.name_pos, hx.name_lt, hx.value_eq, hx.value_pos, hx.is_func]
  rw [resolve_sym_tables m base i ents symtab strtab strsz hx.tables hc hstr hsz
    (by
      intro a ha hok
      by_cases has : a = s
      · rw [has, hname]; rfl
      · rw [hx.sym_others a ha has] at hok; exact absurd hok (by simp)) hash hh]
  congr 1
  unfold resolve_sym_spec
  by_cases hhash : hash = djb2 n
  · have hhit : sym_hit m strtab strsz hash s = true := by
      simp [sym_hit, hoks, hname, hhash]
    rw [find?_unique _ _ s hx.sym_mem hhit (fun a ha hhita => by
      by_contra has
      have := hx.sym_others a ha has
      simp [sym_hit, this] at hhita)]
    simp [hhash, hx.value_eq]
  · have hnone : (sym_addrs symtab strtab).find? (sym_hit m strtab strsz hash) = none := by
      rw [List.find?_eq_none]
      intro a ha
      by_cases has : a = s
      · subst has
        simp [sym_hit, hname, Ne.symm hhash]
      · simp [sym_hit, hx.sym_others a ha has]
    rw [hnone]
    simp [hhash]

/-! ## Lemmas: `_enum_modules` on a listing -/

theorem fill_mod_hash (old : nebula_mod_t) (base hash perms : Nat) (ps q : List Nat) :
    (fill_mod old base hash perms ps q).hash = hash := rfl

theorem fill_mod_base (old : nebula_mod_t) (base hash perms : Nat) (ps q : List Nat) :
    (fill_mod old base hash perms ps q).base = base := rfl

theorem seen_hash_eq_false {mods : List nebula_mod_t} {cnt hash : Nat} :
    seen_hash mods cnt hash = false ↔ ∀ r ∈ table_of mods cnt, r.1 ≠ hash := by
  simp only [seen_hash, table_of, List.any_eq_false, beq_iff_eq, List.mem_map]
  constructor
  · rintro h r ⟨x, hx, rfl⟩
    exact h x hx
  · intro h x hx
    exact h (x.hash, x.base) ⟨x, hx, rfl⟩

/-- One round of the loop of `_enum_modules` on a line followed by its end. -/
theorem enum_loop_line (m : Mem) (k : Nat) {l e : List Nat} (mods : List nebula_mod_t)
    (cnt : Nat) (hl : is_line l) (he : is_end e) (hne : deref e = 10 ∨ l ≠ [])
    (hcnt : cnt < MAX_MODULES) :
    _enum_modules_loop m (k + 1) (l ++ e) mods cnt =
      if 47 ∈ l ∧ seen_hash mods cnt (line_hash l) = false ∧ _is_elf m (line_base l) = true then
        _enum_modules_loop m k (if deref e ≠ 0 then e.tail else e)
          (mods.set cnt (line_record (mods.getD cnt zero_mod) l e)) (cnt + 1)
      else _enum_modules_loop m k (if deref e ≠ 0 then e.tail else e) mods cnt := by
  have h0 := deref_line_append hl hne
  rw [_enum_modules_loop]
  simp only [h0, hcnt, ne_eq, not_false_eq_true, and_self, if_true,
    hex2u64_line_append l e he, skip_to_slash_line_append hl he,
    next_line_line_append hl he, deref_path_of_append he]
  by_cases h47 : 47 ∈ l
  · have hn : scan_name (path_of l ++ e) (path_of l ++ e) = (last_comp l ++ e, e) := by
      rw [scan_name_line_append (is_line_path_of hl) he, if_pos (mem_path_of.mpr h47),
        last_comp_path_of h47]
    have hh : djb2n (last_comp l ++ e) (last_comp l).length = line_hash l := by
      simp [djb2n, line_hash, djb2n_loop_append]
    simp only [h47, if_true, hn, line_len_line_append (is_line_last_comp hl) he, hh, true_and,
      line_record]
  · simp [h47]

theorem enum_loop_end (m : Mem) (fuel : Nat) {r : List Nat} (mods : List nebula_mod_t)
    (cnt : Nat) (hr : deref r = 0) : _enum_modules_loop m fuel r mods cnt = (mods, cnt) := by
  cases fuel with
  | zero => rfl
  | succ k => simp [_enum_modules_loop, hr]

theorem enum_loop_full (m : Mem) (fuel : Nat) (line : List Nat) (mods : List nebula_mod_t)
    {cnt : Nat} (hc : ¬cnt < MAX_MODULES) :
    _enum_modules_loop m fuel line mods cnt = (mods, cnt) := by
  cases fuel with
  | zero => rfl
  | succ k => simp [_enum_modules_loop, hc]

theorem enum_step_full (m : Mem) {acc : List (Nat × Nat)} (h : ¬acc.length < MAX_MODULES)
    (l : List Nat) : enum_step m acc l = acc := by
  simp [enum_step, h]

theorem foldl_enum_step_full (m : Mem) (lines : List (List Nat)) {acc : List (Nat × Nat)}
    (h : ¬acc.length < MAX_MODULES) : lines.foldl (enum_step m) acc = acc := by
  induction lines with
  | nil => rfl
  | cons l lines ih => rw [List.foldl_cons, enum_step_full m h, ih]

theorem table_of_length {mods : List nebula_mod_t} {cnt : Nat} (h : cnt ≤ mods.length) :
    (table_of mods cnt).length = cnt := by
  simp [table_of, h]

theorem take_set_self {α : Type} (l : List α) (n : Nat) (a : α) :
    (l.set n a).take n = l.take n := by
  induction l generalizing n with
  | nil => simp
  | cons x l ih =>
    cases n with
    | zero => simp
    | succ n => simp [ih]

theorem table_of_set {mods : List nebula_mod_t} {cnt : Nat} (h : cnt < mods.length)
    (rec : nebula_mod_t) :
    table_of (mods.set cnt rec) (cnt + 1) = table_of mods cnt ++ [(rec.hash, rec.base)] := by
  unfold table_of
  rw [List.take_succ, take_set_self]
  simp [List.getElem?_set, h]

/-- The effect of one line on the table, stated on the identities of the
records. -/
theorem enum_round (m : Mem) (k : Nat) {l e : List Nat} (mods : List nebula_mod_t) (cnt : Nat)
    (hl : is_line l) (he : is_end e) (hne : deref e = 10 ∨ l ≠ [])
    (hcnt : cnt < MAX_MODULES) (hlen : mods.length = MAX_MODULES) :
    ∃ mods' cnt',
      _enum_modules_loop m (k + 1) (l ++ e) mods cnt =
        _enum_modules_loop m k (if deref e ≠ 0 then e.tail else e) mods' cnt' ∧
      table_of mods' cnt' = enum_step m (table_of mods cnt) l ∧
      mods'.length = MAX_MODULES ∧ cnt ≤ cnt' ∧ cnt' ≤ MAX_MODULES ∧
      ∀ i, cnt' ≤ i → mods'.getD i zero_mod = mods.getD i zero_mod := by
  have hlen' : (table_of mods cnt).length = cnt := table_of_length (by omega)
  rw [enum_loop_line m k mods cnt hl he hne hcnt]
  by_cases hc : 47 ∈ l ∧ seen_hash mods cnt (line_hash l) = false ∧
      _is_elf m (line_base l) = true
  · rw [if_pos hc]
    refine ⟨_, _, rfl, ?_, by simpa using hlen, Nat.le_succ _, hcnt, ?_⟩
    · rw [table_of_set (by omega)]
      have hs := seen_hash_eq_false.mp hc.2.1
      simp only [enum_step, hlen', hcnt, hc.1, true_and]
      rw [if_pos ⟨hs, hc.2.2⟩]
      rfl
    · intro i hi
      simp only [List.getD_eq_getElem?_getD]
      rw [List.getElem?_set_ne (by omega)]
  · rw [if_neg hc]
    refine ⟨mods, cnt, rfl, ?_, hlen, Nat.le_refl _, Nat.le_of_lt hcnt, fun _ _ => rfl⟩
    have : ¬(47 ∈ l ∧ (∀ r ∈ table_of mods cnt, r.1 ≠ line_hash l) ∧
        _is_elf m (line_base l) = true) := by
      rw [← seen_hash_eq_false]; exact hc
    simp only [enum_step, hlen', hcnt, true_and]
    rw [if_neg this]

theorem listing_lines_length_cons (l : List Nat) (ls : List (List Nat)) (t : List Nat) :
    listing_lines (l :: ls) t = l :: listing_lines ls t := by
  simp [listing_lines]

/-- The loop of `_enum_modules` on a listing computes the specification, keeps
the table's size and leaves the slots from the final count on untouched. -/
theorem enum_loop_listing (m : Mem) (ls : List (List Nat)) (t r : List Nat)
    (hls : ∀ l ∈ ls, is_line l) (ht : is_line t) (hr : deref r = 0) :
    ∀ (fuel : Nat) (mods : List nebula_mod_t) (cnt : Nat),
      (listing_lines ls t).length ≤ fuel → mods.length = MAX_MODULES → cnt ≤ MAX_MODULES →
      table_of (_enum_modules_loop m fuel (listing_text ls t ++ r) mods cnt).1
          (_enum_modules_loop m fuel (listing_text ls t ++ r) mods cnt).2 =
        (listing_lines ls t).foldl (enum_step m) (table_of mods cnt) ∧
      (_enum_modules_loop m fuel (listing_text ls t ++ r) mods cnt).1.length = MAX_MODULES ∧
      cnt ≤ (_enum_modules_loop m fuel (listing_text ls t ++ r) mods cnt).2 ∧
      (_enum_modules_loop m fuel (listing_text ls t ++ r) mods cnt).2 ≤ MAX_MODULES ∧
      ∀ i, (_enum_modules_loop m fuel (listing_text ls t ++ r) mods cnt).2 ≤ i →
        (_enum_modules_loop m fuel (listing_text ls t ++ r) mods cnt).1.getD i zero_mod =
          mods.getD i zero_mod := by
  induction ls with
  | nil =>
    intro fuel mods cnt hfuel hlen hcnt
    rw [listing_text_nil]
    by_cases hc : cnt < MAX_MODULES
    · by_cases htn : t = []
      · subst htn
        rw [List.nil_append, enum_loop_end m fuel mods cnt hr]
        simp [listing_lines, hlen, hcnt]
      · have hlines : listing_lines [] t = [t] := by simp [listing_lines, htn]
        rw [hlines] at hfuel ⊢
        cases fuel with
        | zero => simp at hfuel
        | succ k =>
          obtain ⟨mods', cnt', hstep, htab, hlen', hle, hle', hun⟩ :=
            enum_round m k mods cnt ht (Or.inl hr) (Or.inr htn) hc hlen
          rw [hstep]
          simp only [hr, ne_eq, not_true_eq_false, if_false]
          rw [enum_loop_end m k mods' cnt' hr]
          exact ⟨by simpa using htab, hlen', hle, hle', hun⟩
    · rw [enum_loop_full m fuel _ mods hc,
        foldl_enum_step_full m _ (by rw [table_of_length (by omega)]; exact hc)]
      exact ⟨rfl, hlen, Nat.le_refl _, hcnt, fun _ _ => rfl⟩
  | cons l ls ih =>
    intro fuel mods cnt hfuel hlen hcnt
    have hl : is_line l := hls l (by simp)
    have hls' : ∀ x ∈ ls, is_line x := fun x hx => hls x (by simp [hx])
    by_cases hc : cnt < MAX_MODULES
    · rw [listing_lines_length_cons] at hfuel ⊢
      cases fuel with
      | zero => simp at hfuel
      | succ k =>
        have he : is_end (10 :: (listing_text ls t ++ r)) := Or.inr rfl
        obtain ⟨mods', cnt', hstep, htab, hlen', hle, hle', hun⟩ :=
          enum_round m k mods cnt hl he (Or.inl rfl) hc hlen
        rw [listing_text_cons, List.append_assoc, List.cons_append, hstep]
        simp only [deref_cons, ne_eq, OfNat.ofNat_ne_zero, not_false_eq_true, if_true,
          List.tail_cons]
        obtain ⟨i1, i2, i3, i4, i5⟩ := ih hls' k mods' cnt' (by simpa using hfuel) hlen' hle'
        refine ⟨?_, i2, Nat.le_trans hle i3, i4, ?_⟩
        · rw [i1, htab, List.foldl_cons]
        · intro i hi
          rw [i5 i hi, hun i (Nat.le_trans i3 hi)]
    · rw [enum_loop_full m fuel _ mods hc,
        foldl_enum_step_full m _ (by rw [table_of_length (by omega)]; exact hc)]
      exact ⟨rfl, hlen, Nat.le_refl _, hcnt, fun _ _ => rfl⟩

theorem find?_sym_addrs_first (p : Nat → Bool) (strtab s : Nat) (hp : p s = true) (n : Nat) :
    ∀ start : Nat, (strtab - start + 23) / 24 = n → s ∈ sym_addrs start strtab →
      (∀ a ∈ sym_addrs start strtab, a < s → p a = false) →
      (sym_addrs start strtab).find? p = some s := by
  induction n with
  | zero =>
    intro start hn hs _
    rw [sym_addrs_nil (by omega)] at hs
    simp at hs
  | succ n ih =>
    intro start hn hs hfirst
    have hlt : start < strtab := by omega
    rw [sym_addrs_step hlt] at hs hfirst ⊢
    by_cases hss : s = start
    · subst hss
      simp [List.find?, hp]
    · have hs' : s ∈ sym_addrs (start + 24) strtab := by
        rcases List.mem_cons.mp hs with h | h
        · exact absurd h hss
        · exact h
      obtain ⟨j, hj, _⟩ := mem_sym_addrs.mp hs'
      have hps : p start = false := hfirst start (List.mem_cons_self _ _) (by omega)
      simp only [List.find?, hps]
      exact ih (start + 24) (by omega) hs'
        (fun a ha hlt => hfirst a (List.mem_cons_of_mem _ ha) hlt)

theorem exports_first_term {m : Mem} {base : Nat} {n : List Nat} {v i : Nat}
    {ents : List (Nat × Nat)} {symtab strtab strsz s : Nat}
    (hx : exports_first m base n v i ents symtab strtab strsz s) :
    ∀ a ∈ sym_addrs symtab strtab, sym_ok m strsz a = true →
      (djb2_at m (strtab + st_name m a)).isSome = true := by
  intro a ha hok
  obtain ⟨n', hn'⟩ := hx.names a ha hok
  rw [djb2_at_of_cstr m _ n' hn']
  rfl

/-- On an image that exports `n` first among the symbols hashing like `n`,
`resolve_sym` finds it. -/
theorem resolve_sym_first (m : Mem) (base : Nat) (n : List Nat) (v i : Nat)
    (ents : List (Nat × Nat)) (symtab strtab strsz s : Nat)
    (hx : exports_first m base n v i ents symtab strtab strsz s)
    (hc : within_caps m base i ents symtab) (hh : djb2 n ≠ 0) :
    resolve_sym m base (djb2 n) = some ((base + v) % 2^64) := by
  obtain ⟨j, hsj, hslt⟩ := mem_sym_addrs.mp hx.sym_mem
  have hstr : strtab ≠ 0 := by omega
  have hsz : strsz ≠ 0 := by have := hx.name_lt; omega
  have hname := djb2_at_of_cstr m _ n hx.name_eq
  have hhit : sym_hit m strtab strsz (djb2 n) s = true := by
    simp [sym_hit, sym_ok, hx.name_pos, hx.name_lt, hx.value_eq, hx.value_pos, hx.is_func, hname]
  rw [resolve_sym_tables m base i ents symtab strtab strsz hx.tables hc hstr hsz
    (exports_first_term hx) _ hh]
  unfold resolve_sym_spec
  rw [find?_sym_addrs_first _ strtab s hhit _ symtab rfl hx.sym_mem hx.first]
  simp [hx.value_eq]

/-- On such an image every call of `resolve_sym` returns. -/
theorem resolve_sym_first_some (m : Mem) (base : Nat) (n : List Nat) (v i : Nat)
    (ents : List (Nat × Nat)) (symtab strtab strsz s : Nat)
    (hx : exports_first m base n v i ents symtab strtab strsz s)
    (hc : within_caps m base i ents symtab) (hash : Nat) :
    ∃ a, resolve_sym m base hash = some a := by
  obtain ⟨j, hsj, hslt⟩ := mem_sym_addrs.mp hx.sym_mem
  have hstr : strtab ≠ 0 := by omega
  have hsz : strsz ≠ 0 := by have := hx.name_lt; omega
  by_cases hh : hash = 0
  · exact ⟨0, by simp [resolve_sym, hh]⟩
  · exact ⟨_, resolve_sym_tables m base i ents symtab strtab strsz hx.tables hc hstr hsz
      (exports_first_term hx) hash hh⟩

/-! ## Lemmas: every buffer is a listing followed by its end -/

theorem buffer_decompose (b : List Nat) :
    ∃ (ls : List (List Nat)) (t r : List Nat),
      b = listing_text ls t ++ r ∧ (∀ l ∈ ls, is_line l) ∧ is_line t ∧ deref r = 0 := by
  induction b with
  | nil => exact ⟨[], [], [], by simp [listing_text], by simp, by simp [is_line], rfl⟩
  | cons c b ih =>
    obtain ⟨ls, t, r, hb, hls, ht, hr⟩ := ih
    by_cases h0 : c = 0
    · exact ⟨[], [], c :: b, by simp [listing_text], by simp, by simp [is_line],
        by simp [deref, h0]⟩
    · by_cases h10 : c = 10
      · refine ⟨[] :: ls, t, r, ?_, ?_, ht, hr⟩
        · rw [listing_text_cons, hb, h10]; rfl
        · intro l hl
          rcases List.mem_cons.mp hl with h | h
          · rw [h]; simp [is_line]
          · exact hls l h
      · cases ls with
        | nil =>
          refine ⟨[], c :: t, r, ?_, by simp, ?_, hr⟩
          · rw [listing_text_nil] at hb ⊢
            rw [hb]; rfl
          · intro x hx
            rcases List.mem_cons.mp hx with h | h
            · rw [h]; exact ⟨h0, h10⟩
            · exact ht x h
        | cons l ls =>
          refine ⟨(c :: l) :: ls, t, r, ?_, ?_, ht, hr⟩
          · rw [listing_text_cons] at hb ⊢
            rw [hb]; rfl
          · intro x hx
            rcases List.mem_cons.mp hx with h | h
            · rw [h]
              intro y hy
              rcases List.mem_cons.mp hy with h' | h'
              · rw [h']; exact ⟨h0, h10⟩
              · exact hls l (List.mem_cons_self _ _) y h'
            · exact hls x (List.mem_cons_of_mem _ h)

theorem listing_lines_length_le (ls : List (List Nat)) (t : List Nat) :
    (listing_lines ls t).length ≤ (listing_text ls t).length := by
  induction ls with
  | nil =>
    rw [listing_text_nil]
    by_cases ht : t = []
    · simp [listing_lines, ht]
    · have : 0 < t.length := List.length_pos.mpr ht
      simp [listing_lines, ht]; omega
  | cons l ls ih =>
    rw [listing_lines_length_cons, listing_text_cons]
    simp only [List.length_cons, List.length_append]
    omega

/-! ## Lemmas: `_enum_modules` on any buffer -/

theorem enum_step_valid (m : Mem) (acc : List (Nat × Nat)) (l : List Nat) :
    ∀ r ∈ enum_step m acc l, r ∈ acc ∨ _is_elf m r.2 = true := by
  intro r hr
  unfold enum_step at hr
  split at hr
  · next h =>
    rcases List.mem_append.mp hr with h' | h'
    · exact Or.inl h'
    · right
      have : r = (line_hash l, line_base l) := by simpa using h'
      rw [this]; exact h.2.2.2
  · exact Or.inl hr

theorem foldl_enum_step_valid (m : Mem) (lines : List (List Nat)) :
    ∀ acc : List (Nat × Nat), ∀ r ∈ lines.foldl (enum_step m) acc,
      r ∈ acc ∨ _is_elf m r.2 = true := by
  induction lines with
  | nil => intro acc r hr; exact Or.inl hr
  | cons l lines ih =>
    intro acc r hr
    rw [List.foldl_cons] at hr
    rcases ih _ r hr with h | h
    · exact enum_step_valid m acc l r h
    · exact Or.inr h

theorem mem_table_of {mods : List nebula_mod_t} {cnt i : Nat} (hi : i < cnt)
    (hc : cnt ≤ mods.length) :
    ((mods.getD i zero_mod).hash, (mods.getD i zero_mod).base) ∈ table_of mods cnt := by
  unfold table_of
  rw [List.mem_map]
  refine ⟨mods.getD i zero_mod, ?_, rfl⟩
  have hlt : i < mods.length := by omega
  rw [List.getD_eq_getElem _ _ hlt]
  have : i < (mods.take cnt).length := by simp; omega
  have h2 : (mods.take cnt)[i] = mods[i] := by simp
  rw [← h2]
  exact List.getElem_mem _

/-- The loop of `_enum_modules` on any buffer: the table keeps its size, the
count stays within `MAX_MODULES`, the slots from the final count on are
untouched, and every record made has a base that passes `_is_elf`. -/
theorem enum_loop_inv (m : Mem) (fuel : Nat) (b : List Nat) (mods : List nebula_mod_t)
    (cnt : Nat) (hfuel : b.length ≤ fuel) (hlen : mods.length = MAX_MODULES)
    (hcnt : cnt ≤ MAX_MODULES) :
    (_enum_modules_loop m fuel b mods cnt).1.length = MAX_MODULES ∧
    cnt ≤ (_enum_modules_loop m fuel b mods cnt).2 ∧
    (_enum_modules_loop m fuel b mods cnt).2 ≤ MAX_MODULES ∧
    (∀ i, (_enum_modules_loop m fuel b mods cnt).2 ≤ i →
      (_enum_modules_loop m fuel b mods cnt).1.getD i zero_mod = mods.getD i zero_mod) ∧
    ∀ r ∈ table_of (_enum_modules_loop m fuel b mods cnt).1
        (_enum_modules_loop m fuel b mods cnt).2,
      r ∈ table_of mods cnt ∨ _is_elf m r.2 = true := by
  obtain ⟨ls, t, r, hb, hls, ht, hr⟩ := buffer_decompose b
  have hlines : (listing_lines ls t).length ≤ fuel := by
    have h1 := listing_lines_length_le ls t
    have h2 : (listing_text ls t).length ≤ b.length := by rw [hb]; simp
    omega
  obtain ⟨i1, i2, i3, i4, i5⟩ := enum_loop_listing m ls t r hls ht hr fuel mods cnt hlines hlen hcnt
  rw [hb]
  refine ⟨i2, i3, i4, i5, ?_⟩
  rw [i1]
  exact foldl_enum_step_valid m _ _

/-- Function `_enum_modules` on any read of the listing. -/
theorem enum_modules_inv (f : file_read_t) (m : Mem) (ctx : nebula_ctx_t)
    (hlen : ctx.mods.length = MAX_MODULES) :
    (_enum_modules f m ctx).1.mods.length = MAX_MODULES ∧
    (_enum_modules f m ctx).2 ≤ MAX_MODULES ∧
    (∀ i, (_enum_modules f m ctx).2 ≤ i →
      (_enum_modules f m ctx).1.mods.getD i zero_mod = ctx.mods.getD i zero_mod) ∧
    (∀ i, i < (_enum_modules f m ctx).2 →
      _is_elf m ((_enum_modules f m ctx).1.mods.getD i zero_mod).base = true) ∧
    (_enum_modules f m ctx).1.libc = ctx.libc ∧ (_enum_modules f m ctx).1.ready = ctx.ready := by
  unfold _enum_modules
  by_cases hfd : f.fd < 0
  · simp [hfd, hlen]
  · by_cases hn : f.n ≤ 0
    · simp [hfd, hn, hlen]
    · simp only [hfd, hn, if_false]
      obtain ⟨i2, _, i4, i5, i6⟩ := enum_loop_inv m (f.buf.length + 1) (f.buf.set f.n.toNat 0)
        ctx.mods 0 (by simp) hlen (Nat.zero_le _)
      refine ⟨i2, i4, i5, ?_, trivial, trivial⟩
      intro i hi
      have hmem := mem_table_of hi (by rw [i2]; exact i4)
      rcases i6 _ hmem with h | h
      · simp [table_of] at h
      · exact h

/-- Function `_enum_modules` on a listing delivered by a successful read computes the
specification. -/
theorem enum_modules_listing (m : Mem) (fd : Int) (ls : List (List Nat)) (t g : List Nat)
    (ctx : nebula_ctx_t) (hfd : 0 ≤ fd) (hls : ∀ l ∈ ls, is_line l) (ht : is_line t)
    (hlen : ctx.mods.length = MAX_MODULES) :
    table_of (_enum_modules ⟨fd, (listing_text ls t).length, listing_text ls t ++ g⟩ m ctx).1.mods
        (_enum_modules ⟨fd, (listing_text ls t).length, listing_text ls t ++ g⟩ m ctx).2 =
      enum_spec m (listing_lines ls t) := by
  unfold _enum_modules
  simp only [not_lt.mpr hfd, if_false]
  by_cases hn : ((listing_text ls t).length : Int) ≤ 0
  · have hl0 : (listing_text ls t).length = 0 := by omega
    have hnil := listing_text_eq_nil.mp (List.length_eq_zero.mp hl0)
    simp [hn, hnil.1, hnil.2, listing_lines, enum_spec, table_of, listing_text_nil]
  · rw [if_neg hn]
    simp only [set_terminator]
    have hlines : (listing_lines ls t).length ≤ (listing_text ls t ++ g).length + 1 := by
      have := listing_lines_length_le ls t
      simp only [List.length_append]; omega
    have := (enum_loop_listing m ls t (g.set 0 0) hls ht (deref_set_zero g) _ ctx.mods 0 hlines
      hlen (Nat.zero_le _)).1
    rw [this]
    simp [table_of, enum_spec]

/-! ## Lemmas: the bootstrap -/

theorem nebula_init_eq (w : World) (c0 : nebula_ctx_t) (base : Nat) :
    nebula_init w (some c0) base =
      if probe_libc w = 0 then some (false, some (probed_ctx w base))
      else
        match _resolve_libc w.mem (probed_ctx w base) with
        | none => none
        | some (false, c) => some (false, some c)
        | some (true, c) =>
          some (true, some { (_enum_modules w.maps w.mem c).1 with
            mod_cnt := (_enum_modules w.maps w.mem c).2, ready := true }) := rfl

theorem probed_ctx_libc (w : World) (base : Nat) :
    (probed_ctx w base).libc = ⟨probe_libc w, 0, 0, 0, 0, 0, 0⟩ := rfl

theorem probed_ctx_ready (w : World) (base : Nat) : (probed_ctx w base).ready = false := rfl

theorem probed_ctx_mod_cnt (w : World) (base : Nat) : (probed_ctx w base).mod_cnt = 0 := rfl

theorem probed_ctx_mods (w : World) (base : Nat) :
    (probed_ctx w base).mods = List.replicate MAX_MODULES zero_mod := rfl

theorem probe_libc_eq (w : World) :
    probe_libc w =
      first_nonzero (bootstrap_names.map (fun n => resolve_mod w.maps w.mem (djb2 n))) := by
  unfold probe_libc first_nonzero bootstrap_names
  by_cases h1 : resolve_mod w.maps w.mem (djb2 (lit "libc.so.6")) = 0
  · by_cases h2 : resolve_mod w.maps w.mem (djb2 (lit "libc-2.31.so")) = 0
    · by_cases h3 : resolve_mod w.maps w.mem (djb2 (lit "libc.musl-aarch64.so.1")) = 0
      · simp [List.find?, h1, h2, h3]
      · simp [List.find?, h1, h2, h3]
    · simp [List.find?, h1, h2]
  · simp [List.find?, h1]

/-- What `_resolve_libc` returns, in terms of the six calls of `resolve_sym`. -/
theorem resolve_libc_cases (m : Mem) (ctx : nebula_ctx_t) (hb : ctx.libc.base ≠ 0) :
    (resolve_sym m ctx.libc.base (djb2 (lit "write")) = none ∧ _resolve_libc m ctx = none) ∨
    (resolve_sym m ctx.libc.base (djb2 (lit "write")) = some 0 ∧
      _resolve_libc m ctx = some (false, { ctx with libc := { ctx.libc with write := 0 } })) ∨
    (∃ wr, wr ≠ 0 ∧ resolve_sym m ctx.libc.base (djb2 (lit "write")) = some wr ∧
      ((_resolve_libc m ctx = none ∧
          (resolve_sym m ctx.libc.base (djb2 (lit "read")) = none ∨
           resolve_sym m ctx.libc.base (djb2 (lit "mmap")) = none ∨
           resolve_sym m ctx.libc.base (djb2 (lit "mprotect")) = none ∨
           resolve_sym m ctx.libc.base (djb2 (lit "munmap")) = none ∨
           resolve_sym m ctx.libc.base (djb2 (lit "exit")) = none)) ∨
       ∃ rd mm mp mu ex,
        resolve_sym m ctx.libc.base (djb2 (lit "read")) = some rd ∧
        resolve_sym m ctx.libc.base (djb2 (lit "mmap")) = some mm ∧
        resolve_sym m ctx.libc.base (djb2 (lit "mprotect")) = some mp ∧
        resolve_sym m ctx.libc.base (djb2 (lit "munmap")) = some mu ∧
        resolve_sym m ctx.libc.base (djb2 (lit "exit")) = some ex ∧
        _resolve_libc m ctx =
          some (true, { ctx with libc := ⟨ctx.libc.base, wr, rd, mm, mp, mu, ex⟩ }))) := by
  unfold _resolve_libc
  simp only [hb, if_false]
  cases hw : resolve_sym m ctx.libc.base (djb2 (lit "write")) with
  | none => left; simp
  | some wr =>
    right
    by_cases hwr : wr = 0
    · left; subst hwr; simp
    · right
      refine ⟨wr, hwr, rfl, ?_⟩
      cases h1 : resolve_sym m ctx.libc.base (djb2 (lit "read")) with
      | none => left; simp [hwr]
      | some rd =>
        cases h2 : resolve_sym m ctx.libc.base (djb2 (lit "mmap")) with
        | none => left; simp [hwr]
        | some mm =>
          cases h3 : resolve_sym m ctx.libc.base (djb2 (lit "mprotect")) with
          | none => left; simp [hwr]
          | some mp =>
            cases h4 : resolve_sym m ctx.libc.base (djb2 (lit "munmap")) with
            | none => left; simp [hwr]
            | some mu =>
              cases h5 : resolve_sym m ctx.libc.base (djb2 (lit "exit")) with
              | none => left; simp [hwr]
              | some ex =>
                right
                exact ⟨rd, mm, mp, mu, ex, rfl, rfl, rfl, rfl, rfl, by simp [hwr]⟩

theorem filter_written_length (mods : List nebula_mod_t) (cnt : Nat)
    (hlen : mods.length = MAX_MODULES) (hcnt : cnt ≤ MAX_MODULES)
    (h1 : ∀ i, i < cnt → (mods.getD i zero_mod).base ≠ 0)
    (h2 : ∀ i, cnt ≤ i → (mods.getD i zero_mod).base = 0) :
    (mods.filter (fun x => decide (x.base ≠ 0))).length = cnt := by
  have hsplit : mods = mods.take cnt ++ mods.drop cnt := (List.take_append_drop cnt mods).symm
  have ha : (mods.take cnt).filter (fun x => decide (x.base ≠ 0)) = mods.take cnt := by
    rw [List.filter_eq_self]
    intro x hx
    obtain ⟨i, hi, rfl⟩ := List.getElem_of_mem hx
    have hi' : i < cnt := by simp at hi; omega
    have := h1 i hi'
    rw [List.getD_eq_getElem _ _ (by omega)] at this
    simpa using this
  have hb : (mods.drop cnt).filter (fun x => decide (x.base ≠ 0)) = [] := by
    rw [List.filter_eq_nil_iff]
    intro x hx
    obtain ⟨i, hi, rfl⟩ := List.getElem_of_mem hx
    have hi' : cnt + i < mods.length := by simp at hi; omega
    have := h2 (cnt + i) (Nat.le_add_right _ _)
    rw [List.getD_eq_getElem _ _ hi'] at this
    simpa using this
  rw [hsplit, List.filter_append, ha, hb]
  simp
  omega

/-! ## Lemmas: the concrete examples -/

theorem mem_libc_exports :
    exports_symbol mem_libc 0x1000 (lit "write") 0x500 0 (tiny_dyn 0x1000 (lit "write"))
      (0x1000 + 192) (0x1000 + 240) 7 (0x1000 + 216) where
  tables :=
    { valid := by decide
      ph_index := by decide
      ph_dynamic := by decide
      ph_others := by decide
      table := by decide
      decl_symtab := by decide
      decl_strtab := by decide
      decl_strsz := by decide }
  sym_mem := by decide
  name_pos := by decide
  name_lt := by decide
  value_eq := by decide
  value_pos := by decide
  is_func := by decide
  name_eq := by decide
  sym_others := by decide

theorem mem_libc_caps :
    within_caps mem_libc 0x1000 0 (tiny_dyn 0x1000 (lit "write")) (0x1000 + 192) where
  ph_cap := by decide
  dyn_cap := by decide
  dyn_pos := by decide
  symtab_pos := by decide

theorem world_libc_init :
    nebula_init world_libc (some zero_ctx) 0 =
      some (true, some (ctx_of (nebula_init world_libc (some zero_ctx) 0))) := by
  decide

theorem world_nomaps_init :
    nebula_init world_nomaps (some zero_ctx) 0 =
      some (false, some (ctx_of (nebula_init world_nomaps (some zero_ctx) 0))) := by
  decide

/-! ## Lemmas: one line of a listing -/

theorem resolve_mod_spec_none (m : Mem) (hash k : Nat) (lines : List (List Nat))
    (h : ∀ l ∈ lines, line_matches m hash l = false) : resolve_mod_spec m hash k lines = 0 := by
  unfold resolve_mod_spec
  have : (lines.take k).find? (line_matches m hash) = none := by
    rw [List.find?_eq_none]
    intro l hl
    simp [h l ((List.take_sublist _ _).subset hl)]
  rw [this]

theorem resolve_mod_spec_split (m : Mem) (hash k : Nat) (pre post : List (List Nat))
    (l : List Nat) (hk : pre.length < k) (hpre : ∀ l' ∈ pre, line_matches m hash l' = false)
    (hl : line_matches m hash l = true) :
    resolve_mod_spec m hash k (pre ++ l :: post) = line_base l := by
  unfold resolve_mod_spec
  have htake : (pre ++ l :: post).take k = pre ++ l :: post.take (k - pre.length - 1) := by
    rw [List.take_append_eq_append_take, List.take_of_length_le (Nat.le_of_lt hk)]
    have : k - pre.length = (k - pre.length - 1) + 1 := by omega
    rw [this, List.take_succ_cons]
    simp
  have hnone : pre.find? (line_matches m hash) = none := by
    rw [List.find?_eq_none]
    intro x hx
    simp [hpre x hx]
  rw [htake, List.find?_append, hnone]
  simp [List.find?, hl]

theorem line_matches_false_of_hash {m : Mem} {hash : Nat} {l : List Nat}
    (h : 47 ∈ l → line_hash l ≠ hash) : line_matches m hash l = false := by
  by_cases h47 : 47 ∈ l
  · simp [line_matches, h47, h h47]
  · simp [line_matches, h47]

theorem enum_step_mono (m : Mem) (acc : List (Nat × Nat)) (l : List Nat) :
    ∀ r ∈ acc, r ∈ enum_step m acc l := by
  intro r hr
  unfold enum_step
  split
  · exact List.mem_append_left _ hr
  · exact hr

theorem foldl_enum_step_mono (m : Mem) (lines : List (List Nat)) :
    ∀ acc : List (Nat × Nat), ∀ r ∈ acc, r ∈ lines.foldl (enum_step m) acc := by
  induction lines with
  | nil => intro acc r hr; exact hr
  | cons l lines ih =>
    intro acc r hr
    rw [List.foldl_cons]
    exact ih _ r (enum_step_mono m acc l r hr)

theorem foldl_enum_step_src (m : Mem) (lines : List (List Nat)) :
    ∀ acc : List (Nat × Nat), ∀ r ∈ lines.foldl (enum_step m) acc,
      r ∈ acc ∨ ∃ l ∈ lines, 47 ∈ l ∧ r.1 = line_hash l := by
  induction lines with
  | nil => intro acc r hr; exact Or.inl hr
  | cons l lines ih =>
    intro acc r hr
    rw [List.foldl_cons] at hr
    rcases ih _ r hr with h | ⟨l', hl', h⟩
    · unfold enum_step at h
      split at h
      · next hc =>
        rcases List.mem_append.mp h with h' | h'
        · exact Or.inl h'
        · right
          have : r = (line_hash l, line_base l) := by simpa using h'
          exact ⟨l, List.mem_cons_self _ _, hc.2.1, by rw [this]⟩
      · exact Or.inl h
    · exact Or.inr ⟨l', List.mem_cons_of_mem _ hl', h⟩

theorem table_of_index {mods : List nebula_mod_t} {cnt : Nat} {r : Nat × Nat}
    (h : r ∈ table_of mods cnt) :
    ∃ k, k < cnt ∧ (mods.getD k zero_mod).hash = r.1 ∧ (mods.getD k zero_mod).base = r.2 := by
  unfold table_of at h
  obtain ⟨x, hx, rfl⟩ := List.mem_map.mp h
  obtain ⟨k, hk, hkx⟩ := List.getElem_of_mem hx
  have hk' : k < cnt ∧ k < mods.length := by simpa using hk
  have hget : mods.getD k zero_mod = x := by
    rw [List.getD_eq_getElem _ _ hk'.2, ← hkx]
    simp
  exact ⟨k, hk'.1, by rw [hget], by rw [hget]⟩

/-- The enumeration records a line whose hash no other line has, when fewer
than `MAX_MODULES` records were made from the lines before it. -/
theorem enum_spec_unique_line (m : Mem) (pre post : List (List Nat)) (l : List Nat)
    (h47 : 47 ∈ l) (helf : _is_elf m (line_base l) = true)
    (hpre : ∀ l' ∈ pre, 47 ∈ l' → line_hash l' ≠ line_hash l)
    (hroom : (enum_spec m pre).length < MAX_MODULES) :
    (line_hash l, line_base l) ∈ enum_spec m (pre ++ l :: post) := by
  unfold enum_spec
  rw [List.foldl_append, List.foldl_cons]
  apply foldl_enum_step_mono
  have hnew : ∀ r ∈ pre.foldl (enum_step m) [], r.1 ≠ line_hash l := by
    intro r hr
    rcases foldl_enum_step_src m pre [] r hr with h | ⟨l', hl', h47', hh⟩
    · simp at h
    · rw [hh]; exact hpre l' hl' h47'
  unfold enum_step
  rw [if_pos ⟨hroom, h47, hnew, helf⟩]
  simp

/-- The two outcomes of `nebula_init` once the probes found a base. -/
theorem nebula_init_write_fail (w : World) (c0 : nebula_ctx_t) (base : Nat)
    (hb : probe_libc w ≠ 0)
    (hw : resolve_sym w.mem (probe_libc w) (djb2 (lit "write")) = some 0) :
    ∃ c, nebula_init w (some c0) base = some (false, some c) ∧ c.ready = false := by
  have hb' : (probed_ctx w base).libc.base ≠ 0 := hb
  have hbase : (probed_ctx w base).libc.base = probe_libc w := rfl
  rcases resolve_libc_cases w.mem (probed_ctx w base) hb' with
    ⟨h, _⟩ | ⟨_, hf⟩ | ⟨wr, hwr, h, _⟩
  · rw [hbase, hw] at h; simp at h
  · exact ⟨_, by rw [nebula_init_eq, if_neg hb, hf], rfl⟩
  · rw [hbase, hw] at h
    exact absurd (Option.some.inj h).symm hwr

theorem nebula_init_write_ok (w : World) (c0 : nebula_ctx_t) (base : Nat)
    (hb : probe_libc w ≠ 0) (wr rd mm mp mu ex : Nat) (hwr : wr ≠ 0)
    (h0 : resolve_sym w.mem (probe_libc w) (djb2 (lit "write")) = some wr)
    (h1 : resolve_sym w.mem (probe_libc w) (djb2 (lit "read")) = some rd)
    (h2 : resolve_sym w.mem (probe_libc w) (djb2 (lit "mmap")) = some mm)
    (h3 : resolve_sym w.mem (probe_libc w) (djb2 (lit "mprotect")) = some mp)
    (h4 : resolve_sym w.mem (probe_libc w) (djb2 (lit "munmap")) = some mu)
    (h5 : resolve_sym w.mem (probe_libc w) (djb2 (lit "exit")) = some ex) :
    ∃ c, nebula_init w (some c0) base = some (true, some c) ∧ c.ready = true ∧
      c.libc = ⟨probe_libc w, wr, rd, mm, mp, mu, ex⟩ := by
  have hbase : (probed_ctx w base).libc.base = probe_libc w := rfl
  have hres : _resolve_libc w.mem (probed_ctx w base) =
      some (true, { probed_ctx w base with
        libc := ⟨(probed_ctx w base).libc.base, wr, rd, mm, mp, mu, ex⟩ }) := by
    unfold _resolve_libc
    simp [hb, hbase, h0, h1, h2, h3, h4, h5, hwr]
  have hinv := enum_modules_inv w.maps w.mem
    { probed_ctx w base with
      libc := ⟨(probed_ctx w base).libc.base, wr, rd, mm, mp, mu, ex⟩ }
    (by simp [probed_ctx_mods])
  refine ⟨_, by rw [nebula_init_eq, if_neg hb, hres], rfl, ?_⟩
  exact hinv.2.2.2.2.1

theorem exports_symbol_first {m : Mem} {base : Nat} {n : List Nat} {v i : Nat}
    {ents : List (Nat × Nat)} {symtab strtab strsz s : Nat}
    (hx : exports_symbol m base n v i ents symtab strtab strsz s) :
    exports_first m base n v i ents symtab strtab strsz s where
  tables := hx.tables
  sym_mem := hx.sym_mem
  name_pos := hx.name_pos
  name_lt := hx.name_lt
  value_eq := hx.value_eq
  value_pos := hx.value_pos
  is_func := hx.is_func
  name_eq := hx.name_eq
  names := by
    intro a ha hok
    by_cases has : a = s
    · exact ⟨n, has ▸ hx.name_eq⟩
    · rw [hx.sym_others a ha has] at hok
      exact absurd hok (by simp)
  first := by
    intro a ha hlt
    simp [sym_hit, hx.sym_others a ha (Nat.ne_of_lt hlt)]

theorem world_two_init :
    nebula_init world_two (some zero_ctx) 0 =
      some (false, some (ctx_of (nebula_init world_two (some zero_ctx) 0))) := by
  decide

theorem mem_two_exports :
    exports_symbol mem_two 0x1000 (lit "write") 0x500 0 (tiny_dyn 0x1000 (lit "write"))
      (0x1000 + 192) (0x1000 + 240) 7 (0x1000 + 216) where
  tables :=
    { valid := by decide
      ph_index := by decide
      ph_dynamic := by decide
      ph_others := by decide
      table := by decide
      decl_symtab := by decide
      decl_strtab := by decide
      decl_strsz := by decide }
  sym_mem := by decide
  name_pos := by decide
  name_lt := by decide
  value_eq := by decide
  value_pos := by decide
  is_func := by decide
  name_eq := by decide
  sym_others := by decide

/-- The state left by a call of `nebula_init` that returns. -/
theorem init_ready_invariant (w : World) (c0 : nebula_ctx_t) (base : Nat) (r : Bool)
    (oc : Option nebula_ctx_t) (h : nebula_init w (some c0) base = some (r, oc)) :
    ∃ c, oc = some c ∧ c.ready = r ∧
      (c.ready = true →
        c.libc.base ≠ 0 ∧ c.libc.write ≠ 0 ∧ c.mod_cnt ≤ MAX_MODULES ∧
        c.mods.length = MAX_MODULES ∧
        (∀ i, i < c.mod_cnt → _is_elf w.mem (c.mods.getD i zero_mod).base = true) ∧
        (∀ i, c.mod_cnt ≤ i → c.mods.getD i zero_mod = zero_mod) ∧
        (c.mods.filter (fun x => decide (x.base ≠ 0))).length = c.mod_cnt) := by
  rw [nebula_init_eq] at h
  by_cases hp : probe_libc w = 0
  · rw [if_pos hp] at h
    obtain ⟨rfl, rfl⟩ : false = r ∧ some (probed_ctx w base) = oc := by simpa using h
    exact ⟨_, rfl, rfl, fun hr => by simp [probed_ctx_ready] at hr⟩
  · rw [if_neg hp] at h
    have hb : (probed_ctx w base).libc.base ≠ 0 := hp
    rcases resolve_libc_cases w.mem (probed_ctx w base) hb with
      ⟨_, hn⟩ | ⟨_, hf⟩ | ⟨wr, hwr, _, ⟨hn, _⟩ | ⟨rd, mm, mp, mu, ex, _, _, _, _, _, ht⟩⟩
    · rw [hn] at h; simp at h
    · rw [hf] at h
      obtain ⟨rfl, rfl⟩ : false = r ∧ some _ = oc := by simpa using h
      exact ⟨_, rfl, rfl, fun hr => by simp [probed_ctx_ready] at hr⟩
    · rw [hn] at h; simp at h
    · rw [ht] at h
      obtain ⟨rfl, rfl⟩ : true = r ∧ some _ = oc := by simpa using h
      refine ⟨_, rfl, rfl, fun _ => ?_⟩
      obtain ⟨e1, e2, e3, e4, e5, _⟩ := enum_modules_inv w.maps w.mem
        { probed_ctx w base with
          libc := ⟨(probed_ctx w base).libc.base, wr, rd, mm, mp, mu, ex⟩ }
        (by simp [probed_ctx_mods])
      have hzero : ∀ i, (List.replicate MAX_MODULES zero_mod).getD i zero_mod = zero_mod := by
        intro i
        by_cases hi : i < MAX_MODULES
        · simp [List.getD_eq_getElem?_getD, List.getElem?_replicate, hi]
        · simp [List.getD_eq_getElem?_getD, List.getElem?_replicate, hi]
      have e3' : ∀ i, (_enum_modules w.maps w.mem
          { probed_ctx w base with
            libc := ⟨(probed_ctx w base).libc.base, wr, rd, mm, mp, mu, ex⟩ }).2 ≤ i →
          (_enum_modules w.maps w.mem
            { probed_ctx w base with
              libc := ⟨(probed_ctx w base).libc.base, wr, rd, mm, mp, mu, ex⟩ }).1.mods.getD i
            zero_mod = zero_mod := by
        intro i hi
        rw [e3 i hi]
        exact hzero i
      refine ⟨by simp only [e5]; exact hb, by simp only [e5]; exact hwr, e2, e1, e4, e3', ?_⟩
      exact filter_written_length _ _ e1 e2 (fun i hi => by
        have := ((is_elf_iff _ _).mp (e4 i hi)).1
        exact this) (fun i hi => by rw [e3' i hi]; rfl)

/-- A call of `nebula_init` returns when the six calls of `resolve_sym` do. -/
theorem nebula_init_returns (w : World) (c0 : nebula_ctx_t) (base : Nat)
    (h : ∀ n ∈ primitive_names, (resolve_sym w.mem (probe_libc w) (djb2 n)).isSome = true) :
    ∃ r c, nebula_init w (some c0) base = some (r, some c) := by
  rw [nebula_init_eq]
  by_cases hp : probe_libc w = 0
  · exact ⟨false, _, by rw [if_pos hp]⟩
  · rw [if_neg hp]
    have hb : (probed_ctx w base).libc.base ≠ 0 := hp
    have hbase : (probed_ctx w base).libc.base = probe_libc w := rfl
    have hw := h (lit "write") (by simp [primitive_names])
    have h1 := h (lit "read") (by simp [primitive_names])
    have h2 := h (lit "mmap") (by simp [primitive_names])
    have h3 := h (lit "mprotect") (by simp [primitive_names])
    have h4 := h (lit "munmap") (by simp [primitive_names])
    have h5 := h (lit "exit") (by simp [primitive_names])
    rcases resolve_libc_cases w.mem (probed_ctx w base) hb with
      ⟨hn, _⟩ | ⟨_, hf⟩ | ⟨wr, hwr, _, ⟨_, hn⟩ | ⟨rd, mm, mp, mu, ex, _, _, _, _, _, ht⟩⟩
    · rw [hbase] at hn; rw [hn] at hw; simp at hw
    · exact ⟨false, _, by rw [hf]⟩
    · rw [hbase] at hn
      rcases hn with hn | hn | hn | hn | hn
      · rw [hn] at h1; simp at h1
      · rw [hn] at h2; simp at h2
      · rw [hn] at h3; simp at h3
      · rw [hn] at h4; simp at h4
      · rw [hn] at h5; simp at h5
    · exact ⟨true, _, by rw [ht]⟩

/-- The base left in `libc.base` by a call of `nebula_init` that returns. -/
theorem init_probe_order (w : World) (c0 : nebula_ctx_t) (base : Nat) (r : Bool)
    (oc : Option nebula_ctx_t) (h : nebula_init w (some c0) base = some (r, oc)) :
    bootstrap_names = [lit "libc.so.6", lit "libc-2.31.so", lit "libc.musl-aarch64.so.1"] ∧
    ∃ c, oc = some c ∧
      c.libc.base =
        first_nonzero (bootstrap_names.map (fun n => resolve_mod w.maps w.mem (djb2 n))) := by
  refine ⟨rfl, ?_⟩
  rw [← probe_libc_eq]
  rw [nebula_init_eq] at h
  by_cases hp : probe_libc w = 0
  · rw [if_pos hp] at h
    obtain ⟨_, rfl⟩ : false = r ∧ some (probed_ctx w base) = oc := by simpa using h
    exact ⟨_, rfl, rfl⟩
  · rw [if_neg hp] at h
    have hb : (probed_ctx w base).libc.base ≠ 0 := hp
    rcases resolve_libc_cases w.mem (probed_ctx w base) hb with
      ⟨_, hn⟩ | ⟨_, hf⟩ | ⟨wr, hwr, _, ⟨hn, _⟩ | ⟨rd, mm, mp, mu, ex, _, _, _, _, _, ht⟩⟩
    · rw [hn] at h; simp at h
    · rw [hf] at h
      obtain ⟨_, rfl⟩ : false = r ∧ some _ = oc := by simpa using h
      exact ⟨_, rfl, rfl⟩
    · rw [hn] at h; simp at h
    · rw [ht] at h
      obtain ⟨_, rfl⟩ : true = r ∧ some _ = oc := by simpa using h
      have hinv := enum_modules_inv w.maps w.mem
        { probed_ctx w base with
          libc := ⟨(probed_ctx w base).libc.base, wr, rd, mm, mp, mu, ex⟩ }
        (by simp [probed_ctx_mods])
      refine ⟨_, rfl, ?_⟩
      simp only [hinv.2.2.2.2.1]
      rfl


/-! ## Lemmas: the structural walks -/

theorem find_dyn_loop_range (m : Mem) (base p phnum : Nat) :
    ∀ (k j : Nat), _find_dyn_loop m base p phnum k j =
      match (List.range' j (min phnum (j + k) - j)).find? (fun i =>
          p_type m (p + SIZEOF_PHDR * i) == PT_DYNAMIC) with
      | some i => (base + p_vaddr m (p + SIZEOF_PHDR * i)) % 2^64
      | none => 0 := by
  intro k
  induction k with
  | zero =>
    intro j
    have : min phnum (j + 0) - j = 0 := by omega
    simp [_find_dyn_loop, this]
  | succ k ih =>
    intro j
    rw [_find_dyn_loop]
    by_cases hj : j < phnum
    · have hn : min phnum (j + (k + 1)) - j = (min phnum (j + 1 + k) - (j + 1)) + 1 := by omega
      rw [if_pos hj, hn, List.range'_succ]
      by_cases ht : p_type m (p + SIZEOF_PHDR * j) = PT_DYNAMIC
      · have hb : (p_type m (p + SIZEOF_PHDR * j) == PT_DYNAMIC) = true := by simpa using ht
        rw [if_pos ht, List.find?, hb]
      · have hb : (p_type m (p + SIZEOF_PHDR * j) == PT_DYNAMIC) = false := by simpa using ht
        rw [if_neg ht, ih (j + 1), List.find?, hb]
    · have hn : min phnum (j + (k + 1)) - j = 0 := by omega
      simp [hj, hn]

theorem find_dyn_eq_spec (m : Mem) (base : Nat) : _find_dyn m base = find_dyn_spec m base := by
  unfold _find_dyn find_dyn_spec
  rw [find_dyn_loop_range, List.range_eq_range']
  simp

theorem resolve_sym_no_dyn (m : Mem) (base hash : Nat)
    (h : base = 0 ∨ _is_elf m base = false ∨ _find_dyn m base = 0) :
    resolve_sym m base hash = some 0 := by
  unfold resolve_sym
  by_cases h1 : base = 0 ∨ hash = 0 ∨ _is_elf m base = false
  · rw [if_pos h1]
  · rw [if_neg h1]
    have h2 : _find_dyn m base = 0 := by
      rcases h with h | h | h
      · exact absurd (Or.inl h) h1
      · exact absurd (Or.inr (Or.inr h)) h1
      · exact h
    simp [h2]

theorem dyn_entries_succ (m : Mem) (dyn k : Nat) :
    dyn_entries m dyn (k + 1) = (d_tag m dyn, d_un m dyn) :: dyn_entries m (dyn + 16) k := by
  unfold dyn_entries
  rw [List.range_succ_eq_map]
  simp only [List.map_cons, List.map_map, Nat.mul_zero, Nat.add_zero, List.cons.injEq, true_and]
  apply List.map_congr_left
  intro i _
  have : dyn + 16 * (i + 1) = dyn + 16 + 16 * i := by omega
  simp [Function.comp, this]

theorem dyn_entries_length (m : Mem) (dyn k : Nat) : (dyn_entries m dyn k).length = k := by
  simp [dyn_entries]

/-- The walk folds `record_ent` over the entries before the first `DT_NULL`
among the first `k`. -/
theorem dyn_walk_eq_fold (m : Mem) :
    ∀ (k dyn : Nat) (st : dyn_info_t),
      dyn_walk m k dyn st =
        ((dyn_entries m dyn k).takeWhile (fun e => decide (e.1 ≠ DT_NULL))).foldl record_ent st := by
  intro k
  induction k with
  | zero => intro dyn st; simp [dyn_walk, dyn_entries]
  | succ k ih =>
    intro dyn st
    rw [dyn_walk, dyn_entries_succ]
    by_cases h0 : d_tag m dyn = DT_NULL
    · simp [h0, List.takeWhile]
    · rw [if_pos h0, ih, dyn_record_eq]
      simp [List.takeWhile, h0]

theorem dyn_walk_eq_walked (m : Mem) (dyn : Nat) (st : dyn_info_t) :
    dyn_walk m ITER_MAX dyn st = (walked m dyn).foldl record_ent st :=
  dyn_walk_eq_fold m ITER_MAX dyn st

theorem walked_length_le (m : Mem) (dyn : Nat) : (walked m dyn).length ≤ ITER_MAX := by
  have h := (List.takeWhile_sublist (fun e : Nat × Nat => decide (e.1 ≠ DT_NULL))
    (l := dyn_entries m dyn ITER_MAX)).length_le
  rw [dyn_entries_length] at h
  exact h

theorem record_ent_other (st : dyn_info_t) (e : Nat × Nat) (h : tag_of_interest e.1 = false) :
    record_ent st e = st := by
  simp only [tag_of_interest, Bool.or_eq_false_iff, decide_eq_false_iff_not] at h
  simp [record_ent, h.1.1, h.1.2, h.2]

/-- The entries with other tags do not influence what the walk records. -/
theorem foldl_record_filter (ents : List (Nat × Nat)) :
    ∀ st : dyn_info_t,
      ents.foldl record_ent st =
        (ents.filter (fun e => tag_of_interest e.1)).foldl record_ent st := by
  induction ents with
  | nil => intro st; rfl
  | cons e ents ih =>
    intro st
    by_cases h : tag_of_interest e.1 = true
    · simp only [List.foldl_cons, List.filter_cons, h, if_true]
      exact ih _
    · have h' : tag_of_interest e.1 = false := by simpa using h
      simp only [List.foldl_cons, List.filter_cons, h', Bool.false_eq_true, if_false,
        record_ent_other st e h']
      exact ih _

theorem dyn_field_foldl_absent (tag : Nat)
    (htag : tag = DT_SYMTAB ∨ tag = DT_STRTAB ∨ tag = DT_STRSZ) (ents : List (Nat × Nat)) :
    ∀ st : dyn_info_t, (∀ e ∈ ents, e.1 ≠ tag) →
      dyn_field (ents.foldl record_ent st) tag = dyn_field st tag := by
  induction ents with
  | nil => intro st _; rfl
  | cons e ents ih =>
    intro st h
    rw [List.foldl_cons, ih _ (fun x hx => h x (List.mem_cons_of_mem _ hx)),
      dyn_field_record st e tag htag, if_neg (h e (List.mem_cons_self _ _))]

/-- When one of the three tags is not among the entries walked, `resolve_sym`
returns 0. -/
theorem resolve_sym_tag_absent (m : Mem) (base hash tag : Nat)
    (htag : tag = DT_SYMTAB ∨ tag = DT_STRTAB ∨ tag = DT_STRSZ)
    (h : ∀ e ∈ walked m (_find_dyn m base), e.1 ≠ tag) :
    resolve_sym m base hash = some 0 := by
  have hf := dyn_field_foldl_absent tag htag _ ⟨0, 0, 0⟩ h
  rw [← dyn_walk_eq_walked] at hf
  have hz : (dyn_walk m ITER_MAX (_find_dyn m base) ⟨0, 0, 0⟩).symtab = 0 ∨
      (dyn_walk m ITER_MAX (_find_dyn m base) ⟨0, 0, 0⟩).strtab = 0 ∨
      (dyn_walk m ITER_MAX (_find_dyn m base) ⟨0, 0, 0⟩).strsz = 0 := by
    rcases htag with ht | ht | ht <;> subst ht
    · left; simpa [dyn_field] using hf
    · right; left; simpa [dyn_field] using hf
    · right; right; simpa [dyn_field] using hf
  unfold resolve_sym
  by_cases h1 : base = 0 ∨ hash = 0 ∨ _is_elf m base = false
  · rw [if_pos h1]
  · rw [if_neg h1]
    by_cases h2 : _find_dyn m base = 0
    · simp [h2]
    · simp only [h2, if_false, hz, if_true]

theorem find_dyn_loop_tr_fst (m : Mem) (base p phnum : Nat) :
    ∀ (k i : Nat), (_find_dyn_loop_tr m base p phnum k i).1 = _find_dyn_loop m base p phnum k i := by
  intro k
  induction k with
  | zero => intro i; rfl
  | succ k ih =>
    intro i
    rw [_find_dyn_loop_tr, _find_dyn_loop]
    by_cases hi : i < phnum
    · by_cases ht : p_type m (p + SIZEOF_PHDR * i) = PT_DYNAMIC
      · simp [hi, ht]
      · simp [hi, ht, ih]
    · simp [hi]

theorem find_dyn_loop_tr_length (m : Mem) (base p phnum : Nat) :
    ∀ (k i : Nat), (_find_dyn_loop_tr m base p phnum k i).2.length ≤ min phnum (i + k) - i := by
  intro k
  induction k with
  | zero => intro i; simp [_find_dyn_loop_tr]
  | succ k ih =>
    intro i
    rw [_find_dyn_loop_tr]
    by_cases hi : i < phnum
    · by_cases ht : p_type m (p + SIZEOF_PHDR * i) = PT_DYNAMIC
      · simp only [hi, ht, if_true, List.length_singleton]; omega
      · simp only [hi, ht, if_true, if_false, List.length_cons]
        have := ih (i + 1)
        omega
    · simp [hi]

theorem dyn_walk_tr_fst (m : Mem) :
    ∀ (k dyn : Nat) (st : dyn_info_t), (dyn_walk_tr m k dyn st).1 = dyn_walk m k dyn st := by
  intro k
  induction k with
  | zero => intro dyn st; rfl
  | succ k ih =>
    intro dyn st
    rw [dyn_walk_tr, dyn_walk]
    by_cases h0 : d_tag m dyn = DT_NULL
    · simp [h0]
    · simp [h0, ih]

theorem dyn_walk_tr_length (m : Mem) :
    ∀ (k dyn : Nat) (st : dyn_info_t), (dyn_walk_tr m k dyn st).2.length ≤ k := by
  intro k
  induction k with
  | zero => intro dyn st; simp [dyn_walk_tr]
  | succ k ih =>
    intro dyn st
    rw [dyn_walk_tr]
    by_cases h0 : d_tag m dyn = DT_NULL
    · simp [h0]
    · simp only [h0, ne_eq, not_false_eq_true, if_true, List.length_cons]
      have := ih (dyn + SIZEOF_DYN) (dyn_record m dyn st)
      omega

theorem foldl_record_all_other (ents : List (Nat × Nat)) (st : dyn_info_t)
    (h : ∀ e ∈ ents, tag_of_interest e.1 = false) : ents.foldl record_ent st = st := by
  induction ents with
  | nil => rfl
  | cons e ents ih =>
    rw [List.foldl_cons, record_ent_other st e (h e (List.mem_cons_self _ _))]
    exact ih (fun x hx => h x (List.mem_cons_of_mem _ hx))

theorem walked_of_no_null (m : Mem) (dyn : Nat)
    (h : ∀ i, i < ITER_MAX → d_tag m (dyn + 16 * i) ≠ DT_NULL) :
    walked m dyn = dyn_entries m dyn ITER_MAX := by
  unfold walked
  rw [List.takeWhile_eq_self_iff]
  intro e he
  unfold dyn_entries at he
  obtain ⟨i, hi, rfl⟩ := List.mem_map.mp he
  simpa using h i (List.mem_range.mp hi)

/-- What `resolve_sym` does once the walk has recorded three non-zero values. -/
theorem resolve_sym_of_walk (m : Mem) (base hash a b c : Nat) (hv : _is_elf m base = true)
    (hh : hash ≠ 0) (hd : _find_dyn m base ≠ 0)
    (hw : dyn_walk m ITER_MAX (_find_dyn m base) ⟨0, 0, 0⟩ = ⟨a, b, c⟩)
    (ha : a ≠ 0) (hb : b ≠ 0) (hc : c ≠ 0) :
    resolve_sym m base hash = sym_scan m base hash b c (b - a) a := by
  have hbase : base ≠ 0 := ((is_elf_iff m base).mp hv).1
  unfold resolve_sym
  simp only [hbase, hh, hv, hd, hw, ha, hb, hc, or_self, if_false, Bool.true_eq_false]

theorem mem_noterm_tag (i : Nat) (hi : 3 ≤ i) :
    d_tag mem_noterm (0x1000 + 192 + 16 * i) = 1 ∧ d_un mem_noterm (0x1000 + 192 + 16 * i) = 0 := by
  have h0 : ¬(0x1000 + 192 + 16 * i < 0x1000 + 240) := by omega
  have hb : ∀ j, j < 16 →
      rd8 mem_noterm (0x1000 + 192 + 16 * i + j) = if j = 0 then 1 else 0 := by
    intro j hj
    have h1 : ¬(0x1000 + 192 + 16 * i + j < 0x1000 + 240) := by omega
    have h2 : (0x1000 + 192 + 16 * i + j - (0x1000 + 240)) % 16 = j := by omega
    unfold rd8 mem_noterm
    rw [if_neg h1, h2]
    by_cases hj0 : j = 0 <;> simp [hj0]
  have e0 := hb 0 (by decide)
  have e1 := hb 1 (by decide)
  have e2 := hb 2 (by decide)
  have e3 := hb 3 (by decide)
  have e4 := hb 4 (by decide)
  have e5 := hb 5 (by decide)
  have e6 := hb 6 (by decide)
  have e7 := hb 7 (by decide)
  have e8 := hb 8 (by decide)
  have e9 := hb 9 (by decide)
  have e10 := hb 10 (by decide)
  have e11 := hb 11 (by decide)
  have e12 := hb 12 (by decide)
  have e13 := hb 13 (by decide)
  have e14 := hb 14 (by decide)
  have e15 := hb 15 (by decide)
  simp only [Nat.add_zero] at e0
  constructor
  · simp [d_tag, rd64, rd32, rd16, Nat.add_assoc, e0] at *
    simp [e1, e2, e3, e4, e5, e6, e7]
  · simp [d_un, rd64, rd32, rd16, Nat.add_assoc] at *
    simp [e8, e9, e10, e11, e12, e13, e14, e15]

theorem mem_noterm_no_null (i : Nat) (hi : i < ITER_MAX) :
    d_tag mem_noterm (0x1000 + 192 + 16 * i) ≠ DT_NULL := by
  by_cases h3 : 3 ≤ i
  · rw [(mem_noterm_tag i h3).1]; decide
  · have : i = 0 ∨ i = 1 ∨ i = 2 := by omega
    rcases this with h | h | h <;> subst h <;> decide

theorem mem_noterm_walk :
    dyn_walk mem_noterm ITER_MAX (0x1000 + 192) ⟨0, 0, 0⟩ = ⟨0x1000 + 128, 0x1000 + 176, 7⟩ := by
  rw [dyn_walk_eq_walked, walked_of_no_null _ _ mem_noterm_no_null]
  have h4096 : ITER_MAX = 4093 + 1 + 1 + 1 := rfl
  rw [h4096, dyn_entries_succ, dyn_entries_succ, dyn_entries_succ, List.foldl_cons,
    List.foldl_cons, List.foldl_cons, foldl_record_all_other]
  · decide
  · intro e he
    unfold dyn_entries at he
    obtain ⟨i, _, rfl⟩ := List.mem_map.mp he
    have ha : 0x1000 + 192 + 16 + 16 + 16 + 16 * i = 0x1000 + 192 + 16 * (i + 3) := by omega
    simp only [ha, (mem_noterm_tag (i + 3) (by omega)).1]
    decide

/-! ## Lemmas: the instrumented symbol scan -/

theorem djb2_loop_tr_fst (m : Mem) :
    ∀ (f s h : Nat), (djb2_loop_tr m f s h).1 = djb2_loop m f s h := by
  intro f
  induction f with
  | zero => intro s h; rfl
  | succ f ih =>
    intro s h
    rw [djb2_loop_tr, djb2_loop]
    by_cases h0 : rd8 m s = 0
    · simp [h0]
    · simp [h0, ih]

theorem djb2_at_tr_fst (m : Mem) (s : Nat) : (djb2_at_tr m s).1 = djb2_at m s :=
  djb2_loop_tr_fst m _ s _

theorem sym_scan_tr_fst (m : Mem) (base hash strtab strsz : Nat) :
    ∀ (k s : Nat), (sym_scan_tr m base hash strtab strsz k s).1 =
      sym_scan m base hash strtab strsz k s := by
  intro k
  induction k with
  | zero => intro s; rfl
  | succ k ih =>
    intro s
    rw [sym_scan_tr, sym_scan]
    by_cases hs : s < strtab
    · simp only [hs, if_true]
      by_cases h1 : st_name m s = 0 ∨ st_value m s = 0 ∨ st_name m s ≥ strsz
      · simp only [h1, if_true, ih]
      · simp only [h1, if_false]
        by_cases h2 : ELF64_ST_TYPE (st_info m s) ≠ STT_FUNC ∧
            ELF64_ST_TYPE (st_info m s) ≠ STT_OBJECT
        · rw [if_pos h2, if_pos h2, ih]
        · rw [if_neg h2, if_neg h2, djb2_at_tr_fst]
          cases hd : djb2_at m (strtab + st_name m s) with
          | none => rfl
          | some h =>
            by_cases hh : h = hash
            · simp [hh]
            · simp [hh, ih]
    · simp [hs]

theorem resolve_sym_tr_fst (m : Mem) (base hash : Nat) :
    (resolve_sym_tr m base hash).1 = resolve_sym m base hash := by
  unfold resolve_sym_tr resolve_sym
  by_cases h1 : base = 0 ∨ hash = 0 ∨ _is_elf m base = false
  · simp only [h1, if_true]
  · simp only [h1, if_false]
    by_cases h2 : _find_dyn m base = 0
    · simp only [h2, if_true]
    · simp only [h2, if_false]
      by_cases h3 : (dyn_walk m ITER_MAX (_find_dyn m base) ⟨0, 0, 0⟩).symtab = 0 ∨
          (dyn_walk m ITER_MAX (_find_dyn m base) ⟨0, 0, 0⟩).strtab = 0 ∨
          (dyn_walk m ITER_MAX (_find_dyn m base) ⟨0, 0, 0⟩).strsz = 0
      · simp only [h3, if_true]
      · simp only [h3, if_false]
        exact sym_scan_tr_fst m base hash _ _ _ _

/-- The records examined are the first records of the array, in order. -/
theorem sym_scan_tr_prefix (m : Mem) (base hash strtab strsz : Nat) :
    ∀ (k s : Nat), (sym_scan_tr m base hash strtab strsz k s).2.examined <+: sym_addrs s strtab := by
  intro k
  induction k with
  | zero => intro s; exact List.nil_prefix
  | succ k ih =>
    intro s
    rw [sym_scan_tr]
    by_cases hs : s < strtab
    · rw [sym_addrs_step hs]
      have hrec := ih (s + 24)
      have hcons : (s :: (sym_scan_tr m base hash strtab strsz k (s + SIZEOF_SYM)).2.examined) <+:
          (s :: sym_addrs (s + 24) strtab) := by
        obtain ⟨t, ht⟩ := hrec
        exact ⟨t, by rw [List.cons_append, ht]⟩
      have hone : [s] <+: (s :: sym_addrs (s + 24) strtab) := ⟨_, rfl⟩
      simp only [hs, if_true]
      split
      · exact hcons
      · split
        · exact hcons
        · split
          · exact hone
          · split
            · exact hone
            · exact hcons
    · simp only [hs, if_false]
      exact List.nil_prefix

theorem sym_addrs_length (symtab strtab : Nat) :
    (sym_addrs symtab strtab).length = (strtab - symtab + 23) / 24 := by
  simp [sym_addrs]

/-- When no record passes the entry filters, the scan examines every record of
the array. -/
theorem sym_scan_tr_all (m : Mem) (base hash strtab strsz : Nat) (n : Nat) :
    ∀ (fuel s : Nat), (strtab - s + 23) / 24 = n → n ≤ fuel →
      (∀ a ∈ sym_addrs s strtab, st_name m a = 0) →
      (sym_scan_tr m base hash strtab strsz fuel s).2.examined = sym_addrs s strtab := by
  induction n with
  | zero =>
    intro fuel s hn _ _
    have hle : strtab ≤ s := by omega
    rw [sym_addrs_nil hle]
    cases fuel with
    | zero => rfl
    | succ f => simp [sym_scan_tr, Nat.not_lt.mpr hle]
  | succ n ih =>
    intro fuel s hn hfuel hall
    have hlt : s < strtab := by omega
    cases fuel with
    | zero => omega
    | succ f =>
      rw [sym_addrs_step hlt] at hall ⊢
      have h0 := hall s (List.mem_cons_self _ _)
      rw [sym_scan_tr]
      simp only [hlt, if_true, h0, true_or]
      rw [ih f (s + 24) (by omega) (by omega) (fun a ha => hall a (List.mem_cons_of_mem _ ha))]

theorem rd8_memOf_beyond (org : Nat) (bytes : List Nat) (a : Nat)
    (h : org + bytes.length ≤ a) : rd8 (memOf org bytes) a = 0 := by
  unfold rd8 memOf
  have h1 : ¬a < org := by omega
  rw [if_neg h1, List.getD_eq_getElem?_getD, List.getElem?_eq_none (by omega)]
  rfl

theorem rd32_memOf_beyond (org : Nat) (bytes : List Nat) (a : Nat)
    (h : org + bytes.length ≤ a) : rd32 (memOf org bytes) a = 0 := by
  unfold rd32 rd16
  rw [rd8_memOf_beyond org bytes a h, rd8_memOf_beyond org bytes (a + 1) (by omega),
    rd8_memOf_beyond org bytes (a + 2) (by omega),
    rd8_memOf_beyond org bytes (a + 2 + 1) (by omega)]

/-- What `resolve_sym_tr` does once the walk has recorded three non-zero
values. -/
theorem resolve_sym_tr_of_walk (m : Mem) (base hash a b c : Nat) (hv : _is_elf m base = true)
    (hh : hash ≠ 0) (hd : _find_dyn m base ≠ 0)
    (hw : dyn_walk m ITER_MAX (_find_dyn m base) ⟨0, 0, 0⟩ = ⟨a, b, c⟩)
    (ha : a ≠ 0) (hb : b ≠ 0) (hc : c ≠ 0) :
    resolve_sym_tr m base hash = sym_scan_tr m base hash b c (b - a) a := by
  have hbase : base ≠ 0 := ((is_elf_iff m base).mp hv).1
  unfold resolve_sym_tr
  simp only [hbase, hh, hv, hd, hw, ha, hb, hc, or_self, if_false, Bool.true_eq_false]

theorem rd16_lt (m : Mem) (a : Nat) : rd16 m a < 65536 := by
  have h1 := rd8_lt m a
  have h2 := rd8_lt m (a + 1)
  unfold rd16; omega

theorem rd32_lt (m : Mem) (a : Nat) : rd32 m a < 4294967296 := by
  have h1 := rd16_lt m a
  have h2 := rd16_lt m (a + 2)
  unfold rd32; omega

theorem rd64_lt (m : Mem) (a : Nat) : rd64 m a < 2^64 := by
  have h1 := rd32_lt m a
  have h2 := rd32_lt m (a + 4)
  unfold rd64; omega

theorem foldl_record_strsz_lt (ents : List (Nat × Nat)) :
    ∀ st : dyn_info_t, st.strsz < 2^64 → (∀ e ∈ ents, e.2 < 2^64) →
      (ents.foldl record_ent st).strsz < 2^64 := by
  induction ents with
  | nil => intro st h _; exact h
  | cons e ents ih =>
    intro st h hall
    rw [List.foldl_cons]
    apply ih _ _ (fun x hx => hall x (List.mem_cons_of_mem _ hx))
    have he := hall e (List.mem_cons_self _ _)
    unfold record_ent
    split
    · exact h
    · split
      · exact h
      · split
        · exact he
        · exact h

theorem walk_strsz_lt (m : Mem) (dyn : Nat) :
    (dyn_walk m ITER_MAX dyn ⟨0, 0, 0⟩).strsz < 2^64 := by
  rw [dyn_walk_eq_walked]
  apply foldl_record_strsz_lt _ _ (by decide)
  intro e he
  unfold walked at he
  have he' := (List.takeWhile_sublist _).subset he
  unfold dyn_entries at he'
  obtain ⟨i, _, rfl⟩ := List.mem_map.mp he'
  exact rd64_lt m _

/-- The bytes read by `djb2` lie between the start and the first NUL. -/
theorem djb2_loop_tr_reads (m : Mem) (z : Nat) (hz : rd8 m z = 0) :
    ∀ (f s h : Nat), s ≤ z → z - s < f →
      ∀ a ∈ (djb2_loop_tr m f s h).2, s ≤ a ∧ a ≤ z := by
  intro f
  induction f with
  | zero => intro s h _ hf; omega
  | succ f ih =>
    intro s h hs hf a ha
    rw [djb2_loop_tr] at ha
    by_cases h0 : rd8 m s = 0
    · simp only [h0, ne_eq, not_true_eq_false, if_false, List.mem_singleton] at ha
      omega
    · have hne : s ≠ z := fun h => h0 (h ▸ hz)
      simp only [h0, ne_eq, not_false_eq_true, if_true, List.mem_cons] at ha
      rcases ha with ha | ha
      · omega
      · have := ih (s + 1) _ (by omega) (by omega) a ha
        omega

/-- When the string table ends with a NUL, every byte read for a name lies in
the string table. -/
theorem sym_scan_tr_reads (m : Mem) (base hash strtab strsz : Nat) (hsz : strsz < 2^64)
    (hz : rd8 m (strtab + strsz - 1) = 0) :
    ∀ (k s : Nat), ∀ a ∈ (sym_scan_tr m base hash strtab strsz k s).2.name_reads,
      strtab ≤ a ∧ a < strtab + strsz := by
  intro k
  induction k with
  | zero => intro s a ha; simp [sym_scan_tr] at ha
  | succ k ih =>
    intro s a ha
    rw [sym_scan_tr] at ha
    by_cases hs : s < strtab
    · simp only [hs, if_true] at ha
      by_cases h1 : st_name m s = 0 ∨ st_value m s = 0 ∨ st_name m s ≥ strsz
      · simp only [h1, if_true] at ha
        exact ih _ a ha
      · rw [if_neg h1] at ha
        by_cases h2 : ELF64_ST_TYPE (st_info m s) ≠ STT_FUNC ∧
            ELF64_ST_TYPE (st_info m s) ≠ STT_OBJECT
        · rw [if_pos h2] at ha
          exact ih _ a ha
        · rw [if_neg h2] at ha
          simp only [not_or, ge_iff_le, not_le] at h1
          have hname : ∀ x ∈ (djb2_at_tr m (strtab + st_name m s)).2,
              strtab ≤ x ∧ x < strtab + strsz := by
            intro x hx
            have := djb2_loop_tr_reads m (strtab + strsz - 1) hz (2^64) (strtab + st_name m s)
              HASH_DJB2_SEED (by omega) (by omega) x hx
            omega
          split at ha
          · exact hname a ha
          · split at ha
            · exact hname a ha
            · rcases List.mem_append.mp ha with h | h
              · exact hname a h
              · exact ih _ a h
    · simp [hs] at ha

/-! ## Lemmas: the table built by the enumeration -/

theorem enum_step_nodup (m : Mem) (acc : List (Nat × Nat)) (l : List Nat)
    (h : (acc.map Prod.fst).Nodup) : ((enum_step m acc l).map Prod.fst).Nodup := by
  unfold enum_step
  split
  · next hc =>
    rw [List.map_append, List.nodup_append]
    refine ⟨h, by simp, ?_⟩
    intro a ha hb
    obtain ⟨r, hr, rfl⟩ := List.mem_map.mp ha
    have : r.1 = line_hash l := by simpa using hb
    exact hc.2.2.1 r hr this
  · exact h

theorem foldl_enum_step_nodup (m : Mem) (lines : List (List Nat)) :
    ∀ acc : List (Nat × Nat), (acc.map Prod.fst).Nodup →
      ((lines.foldl (enum_step m) acc).map Prod.fst).Nodup := by
  induction lines with
  | nil => intro acc h; exact h
  | cons l lines ih =>
    intro acc h
    rw [List.foldl_cons]
    exact ih _ (enum_step_nodup m acc l h)

theorem enum_spec_nodup (m : Mem) (lines : List (List Nat)) :
    ((enum_spec m lines).map Prod.fst).Nodup :=
  foldl_enum_step_nodup m lines [] (by simp)

theorem table_of_hashes (mods : List nebula_mod_t) (cnt : Nat) :
    (table_of mods cnt).map Prod.fst = (mods.take cnt).map (fun x => x.hash) := by
  unfold table_of
  rw [List.map_map]
  rfl

/-- The records made appear in the order of their lines. -/
theorem foldl_enum_step_sublist (m : Mem) (lines : List (List Nat)) :
    ∀ (acc : List (Nat × Nat)) (pre : List (List Nat)),
      acc.Sublist ((pre.filter (fun l => decide (47 ∈ l) && _is_elf m (line_base l))).map
        (fun l => (line_hash l, line_base l))) →
      (lines.foldl (enum_step m) acc).Sublist
        (((pre ++ lines).filter (fun l => decide (47 ∈ l) && _is_elf m (line_base l))).map
          (fun l => (line_hash l, line_base l))) := by
  induction lines with
  | nil => intro acc pre h; simpa using h
  | cons l lines ih =>
    intro acc pre h
    rw [List.foldl_cons]
    have hpre : pre ++ l :: lines = (pre ++ [l]) ++ lines := by simp
    rw [hpre]
    apply ih
    rw [List.filter_append, List.map_append]
    unfold enum_step
    split
    · next hc =>
      have hq : (decide (47 ∈ l) && _is_elf m (line_base l)) = true := by
        simp [hc.2.1, hc.2.2.2]
      simp only [List.filter_cons, hq, if_true, List.filter_nil, List.map_cons, List.map_nil]
      exact List.Sublist.append h (List.Sublist.refl _)
    · exact h.trans (List.sublist_append_left _ _)

/-- Every record made has the base of the first line of that hash whose base
passes `_is_elf`; a line that matches a hash without a record came when the
table was full. -/
theorem foldl_enum_step_first (m : Mem) (lines : List (List Nat)) :
    ∀ (acc : List (Nat × Nat)) (pre : List (List Nat)),
      (∀ r ∈ acc, ∃ l, pre.find? (line_matches m r.1) = some l ∧ line_base l = r.2) →
      (∀ l0 ∈ pre, ∀ h, line_matches m h l0 = true →
        (∃ r ∈ acc, r.1 = h) ∨ ¬acc.length < MAX_MODULES) →
      (∀ r ∈ lines.foldl (enum_step m) acc,
        ∃ l, (pre ++ lines).find? (line_matches m r.1) = some l ∧ line_base l = r.2) := by
  induction lines with
  | nil => intro acc pre h1 _; simpa using h1
  | cons l lines ih =>
    intro acc pre h1 h2
    rw [List.foldl_cons]
    have hpre : pre ++ l :: lines = (pre ++ [l]) ++ lines := by simp
    rw [hpre]
    apply ih
    · intro r hr
      unfold enum_step at hr
      split at hr
      · next hc =>
        rcases List.mem_append.mp hr with h | h
        · obtain ⟨l1, hl1, hb1⟩ := h1 r h
          exact ⟨l1, by rw [List.find?_append, hl1]; rfl, hb1⟩
        · have hr' : r = (line_hash l, line_base l) := by simpa using h
          subst hr'
          have hnone : pre.find? (line_matches m (line_hash l)) = none := by
            rw [List.find?_eq_none]
            intro l0 hl0 hm
            rcases h2 l0 hl0 _ hm with ⟨r, hr, hrh⟩ | hfull
            · exact hc.2.2.1 r hr hrh
            · exact hfull hc.1
          have hml : line_matches m (line_hash l) l = true := by
            simp [line_matches, hc.2.1, hc.2.2.2]
          refine ⟨l, ?_, rfl⟩
          rw [List.find?_append, hnone]
          simp [List.find?, hml]
      · obtain ⟨l1, hl1, hb1⟩ := h1 r hr
        exact ⟨l1, by rw [List.find?_append, hl1]; rfl, hb1⟩
    · intro l0 hl0 h hm
      rcases List.mem_append.mp hl0 with hl0 | hl0
      · rcases h2 l0 hl0 h hm with ⟨r, hr, hrh⟩ | hfull
        · exact Or.inl ⟨r, enum_step_mono m acc l r hr, hrh⟩
        · right
          rw [enum_step_full m hfull]
          exact hfull
      · have hl0' : l0 = l := by simpa using hl0
        subst hl0'
        have h47 : 47 ∈ l0 := by
          by_contra hno
          simp [line_matches, hno] at hm
        have hh : line_hash l0 = h := by
          by_contra hno
          simp [line_matches, hno] at hm
        have helf : _is_elf m (line_base l0) = true := by
          by_contra hno
          simp [line_matches, hno] at hm
        by_cases hfull : acc.length < MAX_MODULES
        · by_cases hseen : ∀ r ∈ acc, r.1 ≠ line_hash l0
          · left
            refine ⟨(line_hash l0, line_base l0), ?_, hh⟩
            unfold enum_step
            rw [if_pos ⟨hfull, h47, hseen, helf⟩]
            simp
          · left
            simp only [not_forall, not_not] at hseen
            obtain ⟨r, hr, hrh⟩ := hseen
            exact ⟨r, enum_step_mono m acc l0 r hr, by rw [← hh]; exact hrh⟩
        · right
          rw [enum_step_full m hfull]
          exact hfull

/-! ## Lemmas: the records written by the enumeration -/

theorem memcpy_eq : ∀ (d s : List Nat) (n : Nat), n ≤ d.length → n ≤ s.length →
    _memcpy d s n = s.take n ++ d.drop n := by
  intro d s n
  induction n generalizing d s with
  | zero => intro _ _; cases d <;> simp [_memcpy]
  | succ n ih =>
    intro hd hs
    cases d with
    | nil => simp at hd
    | cons x d =>
      cases s with
      | nil => simp at hs
      | cons y s =>
        simp only [_memcpy, List.headD_cons, List.tail_cons, List.take_succ_cons,
          List.drop_succ_cons, List.cons_append]
        rw [ih d s (by simpa using hd) (by simpa using hs)]

/-- The path stored by `fill_mod`: the path text cut to 127 bytes, a NUL, and
the rest of the field as it was. -/
theorem fill_mod_path (old : nebula_mod_t) (base hash perms : Nat) (p e : List Nat)
    (hold : old.path.length = MAX_PATH_LEN) :
    (fill_mod old base hash perms (p ++ e) e).path =
      p.take (MAX_PATH_LEN - 1) ++ 0 :: old.path.drop (min p.length (MAX_PATH_LEN - 1) + 1) := by
  have hlen : (p ++ e).length - e.length = p.length := by simp
  unfold fill_mod
  simp only [hlen]
  have hpl : (if p.length ≥ MAX_PATH_LEN then MAX_PATH_LEN - 1 else p.length) =
      min p.length (MAX_PATH_LEN - 1) := by
    by_cases h : p.length ≥ MAX_PATH_LEN
    · rw [if_pos h]; simp only [MAX_PATH_LEN] at h ⊢; omega
    · rw [if_neg h]; simp only [MAX_PATH_LEN] at h ⊢; omega
  rw [hpl]
  have hn1 : min p.length (MAX_PATH_LEN - 1) ≤ old.path.length := by
    rw [hold]; simp only [MAX_PATH_LEN]; omega
  have hn2 : min p.length (MAX_PATH_LEN - 1) ≤ (p ++ e).length := by
    simp only [List.length_append]; omega
  rw [memcpy_eq _ _ _ hn1 hn2]
  have htake : (p ++ e).take (min p.length (MAX_PATH_LEN - 1)) = p.take (MAX_PATH_LEN - 1) := by
    rw [List.take_append_of_le_length (Nat.min_le_left _ _)]
    by_cases h : p.length ≤ MAX_PATH_LEN - 1
    · rw [Nat.min_eq_left h, List.take_of_length_le h, List.take_of_length_le (Nat.le_refl _)]
    · rw [Nat.min_eq_right (by omega)]
  rw [htake]
  have hl : (p.take (MAX_PATH_LEN - 1)).length = min p.length (MAX_PATH_LEN - 1) := by
    rw [List.length_take, Nat.min_comm]
  rw [List.set_append_right _ _ (by rw [hl]), hl, Nat.sub_self]
  have hdrop : old.path.drop (min p.length (MAX_PATH_LEN - 1)) =
      old.path.getD (min p.length (MAX_PATH_LEN - 1)) 0 ::
        old.path.drop (min p.length (MAX_PATH_LEN - 1) + 1) := by
    have hlt : min p.length (MAX_PATH_LEN - 1) < old.path.length := by
      rw [hold]; simp only [MAX_PATH_LEN]; omega
    rw [List.getD_eq_getElem _ _ hlt]
    exact List.drop_eq_getElem_cons hlt
  rw [hdrop]
  rfl

theorem getD_set_self (mods : List nebula_mod_t) (i : Nat) (r : nebula_mod_t)
    (h : i < mods.length) : (mods.set i r).getD i zero_mod = r := by
  rw [List.getD_eq_getElem?_getD, List.getElem?_set_self h]
  rfl

theorem getD_set_ne (mods : List nebula_mod_t) (i j : Nat) (r : nebula_mod_t) (h : i ≠ j) :
    (mods.set i r).getD j zero_mod = mods.getD j zero_mod := by
  rw [List.getD_eq_getElem?_getD, List.getD_eq_getElem?_getD, List.getElem?_set_ne h]

/-- The loop of `_enum_modules` on a listing: the slots below the initial count
are untouched, and every slot from the initial count to the final one holds the
record of a line with a `/` whose base passes `_is_elf`. -/
theorem enum_loop_records (m : Mem) (ls : List (List Nat)) (t r : List Nat)
    (hls : ∀ l ∈ ls, is_line l) (ht : is_line t) (hr : deref r = 0) :
    ∀ (fuel : Nat) (mods : List nebula_mod_t) (cnt : Nat),
      (listing_lines ls t).length ≤ fuel → mods.length = MAX_MODULES → cnt ≤ MAX_MODULES →
      (∀ i, i < cnt →
        (_enum_modules_loop m fuel (listing_text ls t ++ r) mods cnt).1.getD i zero_mod =
          mods.getD i zero_mod) ∧
      ∀ k, cnt ≤ k → k < (_enum_modules_loop m fuel (listing_text ls t ++ r) mods cnt).2 →
        ∃ l e, l ∈ listing_lines ls t ∧ is_line l ∧ 47 ∈ l ∧ _is_elf m (line_base l) = true ∧
          is_end e ∧
          (_enum_modules_loop m fuel (listing_text ls t ++ r) mods cnt).1.getD k zero_mod =
            line_record (mods.getD k zero_mod) l e := by
  induction ls with
  | nil =>
    intro fuel mods cnt hfuel hlen hcnt
    rw [listing_text_nil]
    by_cases hc : cnt < MAX_MODULES
    · by_cases htn : t = []
      · subst htn
        rw [List.nil_append, enum_loop_end m fuel mods cnt hr]
        exact ⟨fun _ _ => rfl, fun k h1 h2 => by simp only at h2; omega⟩
      · have hlines : listing_lines [] t = [t] := by simp [listing_lines, htn]
        rw [hlines] at hfuel ⊢
        cases fuel with
        | zero => simp at hfuel
        | succ k =>
          rw [enum_loop_line m k mods cnt ht (Or.inl hr) (Or.inr htn) hc]
          simp only [hr, ne_eq, not_true_eq_false, if_false]
          by_cases hcond : 47 ∈ t ∧ seen_hash mods cnt (line_hash t) = false ∧
              _is_elf m (line_base t) = true
          · rw [if_pos hcond, enum_loop_end m k _ _ hr]
            refine ⟨fun i hi => getD_set_ne mods cnt i _ (by omega), fun j h1 h2 => ?_⟩
            have hj : j = cnt := by simp only at h2; omega
            subst hj
            exact ⟨t, r, by simp, ht, hcond.1, hcond.2.2, Or.inl hr,
              getD_set_self mods j _ (by omega)⟩
          · rw [if_neg hcond, enum_loop_end m k _ _ hr]
            exact ⟨fun _ _ => rfl, fun j h1 h2 => by simp only at h2; omega⟩
    · rw [enum_loop_full m fuel _ mods hc]
      exact ⟨fun _ _ => rfl, fun k h1 h2 => by simp only at h2; omega⟩
  | cons l ls ih =>
    intro fuel mods cnt hfuel hlen hcnt
    have hl : is_line l := hls l (by simp)
    have hls' : ∀ x ∈ ls, is_line x := fun x hx => hls x (by simp [hx])
    by_cases hc : cnt < MAX_MODULES
    · rw [listing_lines_length_cons] at hfuel ⊢
      cases fuel with
      | zero => simp at hfuel
      | succ k =>
        have he : is_end (10 :: (listing_text ls t ++ r)) := Or.inr rfl
        rw [listing_text_cons, List.append_assoc, List.cons_append,
          enum_loop_line m k mods cnt hl he (Or.inl rfl) hc]
        simp only [deref_cons, ne_eq, OfNat.ofNat_ne_zero, not_false_eq_true, if_true,
          List.tail_cons]
        by_cases hcond : 47 ∈ l ∧ seen_hash mods cnt (line_hash l) = false ∧
            _is_elf m (line_base l) = true
        · rw [if_pos hcond]
          obtain ⟨iA, iB⟩ := ih hls' k
            (mods.set cnt (line_record (mods.getD cnt zero_mod) l
              (10 :: (listing_text ls t ++ r)))) (cnt + 1)
            (by simpa using hfuel) (by simpa using hlen) hc
          refine ⟨fun i hi => ?_, fun j h1 h2 => ?_⟩
          · rw [iA i (by omega), getD_set_ne mods cnt i _ (by omega)]
          · by_cases hj : j = cnt
            · subst hj
              refine ⟨l, _, List.mem_cons_self _ _, hl, hcond.1, hcond.2.2, he, ?_⟩
              rw [iA j (by omega), getD_set_self mods j _ (by omega)]
            · obtain ⟨l', e', hl', hline', h47', helf', he', hrec'⟩ := iB j (by omega) h2
              refine ⟨l', e', List.mem_cons_of_mem _ hl', hline', h47', helf', he', ?_⟩
              rw [hrec', getD_set_ne mods cnt j _ (fun h => hj h.symm)]
        · rw [if_neg hcond]
          obtain ⟨iA, iB⟩ := ih hls' k mods cnt (by simpa using hfuel) hlen hcnt
          refine ⟨iA, fun j h1 h2 => ?_⟩
          obtain ⟨l', e', hl', hline', h47', helf', he', hrec'⟩ := iB j h1 h2
          exact ⟨l', e', List.mem_cons_of_mem _ hl', hline', h47', helf', he', hrec'⟩
    · rw [enum_loop_full m fuel _ mods hc]
      exact ⟨fun _ _ => rfl, fun k h1 h2 => by simp only at h2; omega⟩

theorem find?_filter_of_imp {α : Type} (p q : α → Bool) (l : List α)
    (h : ∀ x, p x = true → q x = true) : (l.filter q).find? p = l.find? p := by
  induction l with
  | nil => rfl
  | cons x l ih =>
    by_cases hq : q x = true
    · rw [List.filter_cons_of_pos hq]
      by_cases hp : p x = true
      · simp [List.find?, hp]
      · simp only [List.find?, hp, ih]
    · have hp : p x = false := by
        by_contra hp
        exact hq (h x (by simpa using hp))
      rw [List.filter_cons_of_neg hq, ih]
      simp [List.find?, hp]

theorem enum_step_no_slash (m : Mem) (acc : List (Nat × Nat)) (l : List Nat) (h : 47 ∉ l) :
    enum_step m acc l = acc := by
  simp [enum_step, h]

theorem foldl_enum_step_filter (m : Mem) (lines : List (List Nat)) :
    ∀ acc : List (Nat × Nat),
      (lines.filter (fun l => decide (47 ∈ l))).foldl (enum_step m) acc =
        lines.foldl (enum_step m) acc := by
  induction lines with
  | nil => intro acc; rfl
  | cons l lines ih =>
    intro acc
    by_cases h : 47 ∈ l
    · rw [List.filter_cons_of_pos (by simpa using h), List.foldl_cons, List.foldl_cons, ih]
    · rw [List.filter_cons_of_neg (by simpa using h), List.foldl_cons,
        enum_step_no_slash m acc l h, ih]

theorem line_matches_slash {m : Mem} {hash : Nat} {l : List Nat}
    (h : line_matches m hash l = true) : decide (47 ∈ l) = true := by
  by_contra hno
  have : 47 ∉ l := by simpa using hno
  simp [line_matches, this] at h

/-- On a listing, the records of the first `cnt` slots of the table. -/
theorem enum_modules_records (m : Mem) (fd : Int) (ls : List (List Nat)) (t g : List Nat)
    (ctx : nebula_ctx_t) (hfd : 0 ≤ fd) (hls : ∀ l ∈ ls, is_line l) (ht : is_line t)
    (hlen : ctx.mods.length = MAX_MODULES) :
    ∀ k, k < (_enum_modules ⟨fd, (listing_text ls t).length, listing_text ls t ++ g⟩ m ctx).2 →
      ∃ l e, l ∈ listing_lines ls t ∧ is_line l ∧ 47 ∈ l ∧ _is_elf m (line_base l) = true ∧
        is_end e ∧
        (_enum_modules ⟨fd, (listing_text ls t).length, listing_text ls t ++ g⟩ m
          ctx).1.mods.getD k zero_mod = line_record (ctx.mods.getD k zero_mod) l e := by
  unfold _enum_modules
  simp only [not_lt.mpr hfd, if_false]
  by_cases hn : ((listing_text ls t).length : Int) ≤ 0
  · intro k hk
    simp [hn] at hk
  · rw [if_neg hn]
    simp only [set_terminator]
    have hlines : (listing_lines ls t).length ≤ (listing_text ls t ++ g).length + 1 := by
      have := listing_lines_length_le ls t
      simp only [List.length_append]; omega
    intro k hk
    exact (enum_loop_records m ls t (g.set 0 0) hls ht (deref_set_zero g) _ ctx.mods 0 hlines
      hlen (Nat.zero_le _)).2 k (Nat.zero_le _) hk

/-! ## Lemmas: the permission field -/

theorem perm_bits_eq_spec (p : List Nat) : perm_bits p = perms_spec p := by
  unfold perm_bits perms_spec
  split_ifs <;> rfl

theorem perm_bits_le (p : List Nat) : perm_bits p ≤ 7 := by
  rw [perm_bits_eq_spec]
  unfold perms_spec
  split <;> split <;> split <;> omega

theorem perms_spec_append (y e : List Nat) (h : 3 ≤ y.length) :
    perms_spec (y ++ e) = perms_spec y := by
  unfold perms_spec
  simp only [List.getD_eq_getElem?_getD]
  rw [List.getElem?_append_left (by omega), List.getElem?_append_left (by omega),
    List.getElem?_append_left (by omega)]

theorem perms_spec_takeWhile (y : List Nat) (p : Nat → Bool) (h : 3 ≤ (y.takeWhile p).length) :
    perms_spec (y.takeWhile p) = perms_spec y := by
  have hy : y = y.takeWhile p ++ y.dropWhile p := (List.takeWhile_append_dropWhile p y).symm
  conv_rhs => rw [hy]
  rw [perms_spec_append _ _ h]

theorem skip_to_space_line_append {l e : List Nat} (hl : is_line l) (h : 32 ∈ l) :
    skip_to_space (l ++ e) = l.dropWhile (fun c => c ≠ 32) ++ e := by
  induction l with
  | nil => simp at h
  | cons c r ih =>
    have hc0 : c ≠ 0 := (hl c (List.mem_cons_self _ _)).1
    rw [List.cons_append, skip_to_space]
    by_cases hc : c = 32
    · rw [if_neg (by simp [hc]), List.dropWhile_cons_of_neg (by simp [hc])]
      rfl
    · rw [if_pos ⟨hc0, hc⟩, List.dropWhile_cons_of_pos (by simp [hc])]
      exact ih (is_line_tail hl) (by
        rcases List.mem_cons.mp h with h | h
        · exact absurd h.symm hc
        · exact h)

theorem skip_spaces_append {x e : List Nat} (h : x.dropWhile (fun c => c = 32) ≠ []) :
    skip_spaces (x ++ e) = x.dropWhile (fun c => c = 32) ++ e := by
  induction x with
  | nil => simp at h
  | cons c r ih =>
    rw [List.cons_append, skip_spaces]
    by_cases hc : c = 32
    · rw [if_pos hc, List.dropWhile_cons_of_pos (by simp [hc])]
      rw [List.dropWhile_cons_of_pos (by simp [hc])] at h
      exact ih h
    · rw [if_neg hc, List.dropWhile_cons_of_neg (by simp [hc])]
      rfl

/-- The permission value of a line whose three characters after the first run
of spaces are on the line. -/
theorem line_perms (l e : List Nat) (hl : is_line l) (h : 3 ≤ (after_spaces l).length) :
    perm_bits (skip_spaces (skip_to_space (l ++ e))) = perms_spec (after_spaces l) := by
  have hne : after_spaces l ≠ [] := by
    intro hnil
    rw [hnil] at h
    simp at h
  have h32 : 32 ∈ l := by
    by_contra hno
    apply hne
    unfold after_spaces
    have : l.dropWhile (fun c => decide (c ≠ 32)) = [] := by
      rw [List.dropWhile_eq_nil_iff]
      intro x hx
      simpa using fun hx32 : x = 32 => hno (hx32 ▸ hx)
    rw [this]
    rfl
  rw [skip_to_space_line_append hl h32, skip_spaces_append hne, perm_bits_eq_spec]
  exact perms_spec_append _ _ h

theorem fill_mod_perms (old : nebula_mod_t) (base hash perms : Nat) (path_start q : List Nat) :
    (fill_mod old base hash perms path_start q).perms = perms := rfl

/-! ## Lemmas: the compile-time hash -/

/-- The macro `H32` hashes the 32 bytes from index `i` on, last byte first. -/
theorem H32_eq_foldl (s : Nat → Nat) (i h : Nat) :
    H32 s i h = ((List.range 32).reverse.map (fun j => s (i + j))).foldl _CT_HASH_BYTE h := by
  simp only [H32, H16, H8, H4, H2, H1, Nat.add_assoc, Nat.reduceAdd]
  rfl

theorem H_lit_nil (beyond : Nat → Nat) : H_lit [] beyond = HASH_FNV1A_SEED := by
  unfold H_lit H
  rw [if_neg (by decide)]
  rfl

/-- On a literal of at least 31 characters every index used by `H` is inside
the array of the literal. -/
theorem H_lit_long (l : List Nat) (beyond : Nat → Nat) (h : 31 ≤ l.length) :
    H_lit l beyond =
      (((List.range 32).reverse.map (fun j => (l ++ [0]).getD j 0)).foldl _CT_HASH_BYTE
        HASH_FNV1A_SEED) % 2^32 := by
  unfold H_lit H
  rw [if_pos (by omega), H32_eq_foldl]
  congr 2
  apply List.map_congr_left
  intro j hj
  have hj32 : j < 32 := by simpa using hj
  simp only [Nat.zero_add]
  rw [if_pos (by omega)]

/-! ## Lemmas: the two djb2 functions -/

theorem djb2_step_eq (h c : Nat) : djb2_step h c = (33 * h + c) % 2^32 := by
  unfold djb2_step
  rw [Nat.shiftLeft_eq]
  norm_num
  omega

theorem djb2n_loop_eq_foldl :
    ∀ (n : Nat) (s : List Nat) (h : Nat), n ≤ s.length → (∀ c ∈ s, c < 256) →
      djb2n_loop n s h = (s.take n).foldl (fun h c => (33 * h + c) % 2^32) h := by
  intro n
  induction n with
  | zero => intro s h _ _; rfl
  | succ n ih =>
    intro s h hn hs
    cases s with
    | nil => simp at hn
    | cons c r =>
      have hc : c % 256 = c := Nat.mod_eq_of_lt (hs c (List.mem_cons_self _ _))
      unfold djb2n_loop
      rw [List.headD_cons, List.tail_cons, List.take_succ_cons, List.foldl_cons, hc,
        djb2_step_eq]
      exact ih r _ (by simpa using hn) (fun x hx => hs x (List.mem_cons_of_mem _ hx))

theorem strlen_le_length : ∀ s : List Nat, _strlen s ≤ s.length := by
  intro s
  induction s with
  | nil => simp [_strlen]
  | cons c r ih =>
    unfold _strlen
    split
    · simp only [List.length_cons]; omega
    · omega

theorem strlen_of_line {s : List Nat} (hs : is_line s) : _strlen s = s.length := by
  induction s with
  | nil => rfl
  | cons c r ih =>
    unfold _strlen
    rw [if_pos (hs c (List.mem_cons_self _ _)).1,
      ih (fun x hx => hs x (List.mem_cons_of_mem _ hx)), List.length_cons]

theorem djb2_from_eq_djb2n :
    ∀ (s : List Nat) (h : Nat), (∀ c ∈ s, c < 256) →
      djb2_from s h = djb2n_loop (_strlen s) s h := by
  intro s
  induction s with
  | nil => intro h _; rfl
  | cons c r ih =>
    intro h hs
    have hc : c % 256 = c := Nat.mod_eq_of_lt (hs c (List.mem_cons_self _ _))
    unfold djb2_from _strlen
    rw [hc]
    by_cases h0 : c = 0
    · rw [if_neg (by simpa using h0), if_neg (by simpa using h0)]
      rfl
    · rw [if_pos h0, if_pos h0]
      unfold djb2n_loop
      rw [List.headD_cons, List.tail_cons, hc]
      exact ih _ (fun x hx => hs x (List.mem_cons_of_mem _ hx))

/-- The hash that `resolve_mod` and `_enum_modules` compute for a line with a
`/` standing in the buffer. -/
theorem name_hash_line {l e : List Nat} (hl : is_line l) (he : is_end e) (h47 : 47 ∈ l) :
    djb2n (scan_name (skip_to_slash (l ++ e)) (skip_to_slash (l ++ e))).1
      (line_len (scan_name (skip_to_slash (l ++ e)) (skip_to_slash (l ++ e))).1) =
      line_hash l := by
  rw [skip_to_slash_line_append hl he, scan_name_line_append (is_line_path_of hl) he,
    if_pos (mem_path_of.mpr h47), last_comp_path_of h47]
  simp only
  rw [line_len_line_append (is_line_last_comp hl) he]
  unfold line_hash djb2n
  rw [djb2n_loop_append _ _ _ _ (le_refl _)]

/-! ## Lemmas: the range of the symbol scan -/

theorem cut_after_of_none (p : Nat → Bool) (l : List Nat) (h : ∀ a ∈ l, p a = false) :
    cut_after p l = l := by
  induction l with
  | nil => rfl
  | cons a r ih =>
    unfold cut_after
    rw [if_neg (by simp [h a (List.mem_cons_self _ _)]),
      ih (fun x hx => h x (List.mem_cons_of_mem _ hx))]

theorem sym_scan_tr_examined (m : Mem) (base hash strtab strsz : Nat) (n : Nat) :
    ∀ (fuel s : Nat), (strtab - s + 23) / 24 = n → n ≤ fuel →
      (sym_scan_tr m base hash strtab strsz fuel s).2.examined =
        cut_after (sym_stop m strtab strsz hash) (sym_addrs s strtab) := by
  induction n with
  | zero =>
    intro fuel s hn _
    have hle : strtab ≤ s := by omega
    rw [sym_addrs_nil hle]
    cases fuel with
    | zero => rfl
    | succ f => simp [sym_scan_tr, Nat.not_lt.mpr hle, cut_after]
  | succ n ih =>
    intro fuel s hn hfuel
    have hlt : s < strtab := by omega
    cases fuel with
    | zero => omega
    | succ f =>
      have hrest := ih f (s + 24) (by omega) (by omega)
      rw [sym_addrs_step hlt, cut_after, sym_scan_tr, if_pos hlt]
      by_cases h1 : st_name m s = 0 ∨ st_value m s = 0 ∨ st_name m s ≥ strsz
      · have hok : sym_ok m strsz s = false := by
          unfold sym_ok
          rcases h1 with h | h | h
          · simp [h]
          · simp [h]
          · simp [Nat.not_lt.mpr h]
        rw [if_pos h1, if_neg (by simp [sym_stop, hok])]
        simp only
        rw [hrest]
      · rw [if_neg h1]
        by_cases h2 : ELF64_ST_TYPE (st_info m s) ≠ STT_FUNC ∧
            ELF64_ST_TYPE (st_info m s) ≠ STT_OBJECT
        · have hok : sym_ok m strsz s = false := by
            unfold sym_ok
            simp [h2.1, h2.2]
          rw [if_pos h2, if_neg (by simp [sym_stop, hok])]
          simp only
          rw [hrest]
        · have hok : sym_ok m strsz s = true := by
            unfold sym_ok
            have a1 : st_name m s ≠ 0 := fun h => h1 (Or.inl h)
            have a2 : st_value m s ≠ 0 := fun h => h1 (Or.inr (Or.inl h))
            have a3 : st_name m s < strsz := by
              by_contra h
              exact h1 (Or.inr (Or.inr (Nat.not_lt.mp h)))
            have a4 : ELF64_ST_TYPE (st_info m s) = STT_FUNC ∨
                ELF64_ST_TYPE (st_info m s) = STT_OBJECT := by
              by_contra h
              exact h2 ⟨fun x => h (Or.inl x), fun x => h (Or.inr x)⟩
            simp only [a1, a2, a3, ne_eq, not_false_eq_true, decide_True, Bool.and_self,
              Bool.true_and, Bool.or_eq_true, decide_eq_true_eq]
            exact a4
          rw [if_neg h2, djb2_at_tr_fst]
          unfold sym_stop
          rw [hok, Bool.true_and]
          cases hd : djb2_at m (strtab + st_name m s) with
          | none => simp
          | some h =>
            by_cases hh : h = hash
            · simp [hh]
            · simp only [hh, if_false, beq_iff_eq, Bool.false_eq_true]
              rw [hrest]
              rfl

/-! ## Lemmas: the hexadecimal token -/

theorem hex_shift_or (v d : Nat) (hv : v < 2^60) (hd : d < 16) :
    ((v <<< 4) % 2^64) ||| d = 16 * v + d := by
  rw [Nat.shiftLeft_eq, Nat.mod_eq_of_lt (by omega), Nat.mul_comm]
  exact (Nat.mul_add_lt_is_or (show d < 2^4 by omega) v).symm

theorem hex_token_nil (k : Nat) : hex_token [] k = [] := by
  simp [hex_token]

theorem hex_token_zero (s : List Nat) : hex_token s 0 = [] := by
  simp [hex_token]

theorem hex_token_cons_digit (c : Nat) (s : List Nat) (k : Nat) (h : is_hex_digit c = true) :
    hex_token (c :: s) (k + 1) = c :: hex_token s k := by
  simp [hex_token, List.takeWhile, h]

theorem hex_token_cons_other (c : Nat) (s : List Nat) (k : Nat) (h : is_hex_digit c = false) :
    hex_token (c :: s) (k + 1) = [] := by
  simp [hex_token, List.takeWhile, h]

theorem hex2u64_loop_eq :
    ∀ (k : Nat) (s : List Nat) (v j : Nat), v < 16^j → j + k ≤ 16 →
      _hex2u64_loop k s v = (hex_token s k).foldl (fun v c => 16 * v + hex_digit_val c) v := by
  intro k
  induction k with
  | zero => intro s v j _ _; rw [hex_token_zero]; rfl
  | succ k ih =>
    intro s v j hv hj
    cases s with
    | nil => rw [hex_token_nil]; rfl
    | cons c s =>
      have hv60 : v < 2^60 := by
        have h1 : (16:Nat)^j ≤ 16^15 := Nat.pow_le_pow_right (by omega) (by omega)
        have h2 : (16:Nat)^15 = 2^60 := by norm_num
        omega
      have hnext : ∀ d, d < 16 → 16 * v + d < 16^(j + 1) := by
        intro d hd
        rw [Nat.pow_succ]
        omega
      unfold _hex2u64_loop
      by_cases h0 : c = 0
      · rw [if_pos h0, hex_token_cons_other c s k (by subst h0; decide)]
        rfl
      · rw [if_neg h0]
        by_cases h1 : 48 ≤ c ∧ c ≤ 57
        · have hd : is_hex_digit c = true := by simp [is_hex_digit, h1]
          have hval : hex_digit_val c = c - 48 := by simp [hex_digit_val, h1.2]
          rw [if_pos h1, hex_token_cons_digit c s k hd, List.foldl_cons, hval,
            hex_shift_or v (c - 48) hv60 (by omega)]
          exact ih s _ (j + 1) (hnext _ (by omega)) (by omega)
        · rw [if_neg h1]
          by_cases h2 : 97 ≤ c ∧ c ≤ 102
          · have hd : is_hex_digit c = true := by simp [is_hex_digit, h2]
            have hval : hex_digit_val c = c - 97 + 10 := by
              unfold hex_digit_val
              rw [if_neg (by omega), if_neg (by omega)]
              omega
            rw [if_pos h2, hex_token_cons_digit c s k hd, List.foldl_cons, hval,
              hex_shift_or v (c - 97 + 10) hv60 (by omega)]
            exact ih s _ (j + 1) (hnext _ (by omega)) (by omega)
          · rw [if_neg h2]
            by_cases h3 : 65 ≤ c ∧ c ≤ 70
            · have hd : is_hex_digit c = true := by simp [is_hex_digit, h3]
              have hval : hex_digit_val c = c - 65 + 10 := by
                unfold hex_digit_val
                rw [if_neg (by omega), if_pos (by omega)]
                omega
              rw [if_pos h3, hex_token_cons_digit c s k hd, List.foldl_cons, hval,
                hex_shift_or v (c - 65 + 10) hv60 (by omega)]
              exact ih s _ (j + 1) (hnext _ (by omega)) (by omega)
            · rw [if_neg h3, hex_token_cons_other c s k (by simp [is_hex_digit, h1, h2, h3])]
              rfl

theorem hex2u64_eq_value (s : List Nat) (max : Nat) (h : max ≤ 16) :
    _hex2u64 s max = hex_value (hex_token s max) :=
  hex2u64_loop_eq max s 0 0 (by norm_num) (by omega)

theorem line_base_no_digit (l : List Nat) (h : starts_hex l = false) :
    line_base l = 0 := by
  unfold line_base
  rw [hex2u64_eq_value l 16 (by omega)]
  cases l with
  | nil => rw [hex_token_nil]; rfl
  | cons c s =>
    rw [hex_token_cons_other c s 15 (by simpa [starts_hex] using h)]
    rfl

theorem line_matches_base_zero {m : Mem} {hash : Nat} {l : List Nat} (h : line_base l = 0) :
    line_matches m hash l = false := by
  simp [line_matches, h, is_elf_zero]

theorem enum_step_base_zero (m : Mem) (acc : List (Nat × Nat)) (l : List Nat)
    (h : line_base l = 0) : enum_step m acc l = acc := by
  simp [enum_step, h, is_elf_zero]

theorem foldl_enum_step_filter_of (m : Mem) (p : List Nat → Bool)
    (hp : ∀ l, p l = false → ∀ acc, enum_step m acc l = acc) (lines : List (List Nat)) :
    ∀ acc : List (Nat × Nat),
      (lines.filter p).foldl (enum_step m) acc = lines.foldl (enum_step m) acc := by
  induction lines with
  | nil => intro acc; rfl
  | cons l lines ih =>
    intro acc
    by_cases h : p l = true
    · rw [List.filter_cons_of_pos h, List.foldl_cons, List.foldl_cons, ih]
    · rw [List.filter_cons_of_neg h, List.foldl_cons, hp l (by simpa using h) acc, ih]

/-! ## Lemmas: the table and the single lookup agree -/

theorem find?_take_of_isSome {α : Type} (p : α → Bool) (l : List α) (k : Nat)
    (h : ((l.take k).find? p).isSome = true) : l.find? p = (l.take k).find? p := by
  have hsplit : l.find? p = ((l.take k) ++ (l.drop k)).find? p := by
    rw [List.take_append_drop]
  rw [hsplit, List.find?_append]
  cases hf : (l.take k).find? p with
  | none => rw [hf] at h; exact Bool.noConfusion h
  | some x => rfl

theorem enum_step_length_le (m : Mem) (acc : List (Nat × Nat)) (l : List Nat) :
    acc.length ≤ (enum_step m acc l).length := by
  unfold enum_step
  split
  · simp
  · exact le_refl _

theorem foldl_enum_step_length_le (m : Mem) (lines : List (List Nat)) :
    ∀ acc : List (Nat × Nat), acc.length ≤ (lines.foldl (enum_step m) acc).length := by
  induction lines with
  | nil => intro acc; exact le_refl _
  | cons l lines ih =>
    intro acc
    rw [List.foldl_cons]
    exact (enum_step_length_le m acc l).trans (ih _)

/-- When fewer than `MAX_MODULES` records result, every line with a `/` and a
valid base has its hash in the table. -/
theorem foldl_enum_step_covers (m : Mem) (lines : List (List Nat)) :
    ∀ acc : List (Nat × Nat), (lines.foldl (enum_step m) acc).length < MAX_MODULES →
      ∀ l ∈ lines, 47 ∈ l → _is_elf m (line_base l) = true →
        ∃ r ∈ lines.foldl (enum_step m) acc, r.1 = line_hash l := by
  induction lines with
  | nil => intro acc _ l hl; simp at hl
  | cons l0 rest ih =>
    intro acc hlen l hl h47 helf
    rw [List.foldl_cons] at hlen ⊢
    rcases List.mem_cons.mp hl with rfl | hl
    · have hacc : acc.length < MAX_MODULES :=
        lt_of_le_of_lt ((enum_step_length_le m acc l).trans
          (foldl_enum_step_length_le m rest _)) hlen
      have hstep : ∃ r ∈ enum_step m acc l, r.1 = line_hash l := by
        by_cases hseen : ∃ r ∈ acc, r.1 = line_hash l
        · obtain ⟨r, hr, hrh⟩ := hseen
          exact ⟨r, enum_step_mono m acc l r hr, hrh⟩
        · refine ⟨(line_hash l, line_base l), ?_, rfl⟩
          unfold enum_step
          rw [if_pos ⟨hacc, h47, fun r hr hrh => hseen ⟨r, hr, hrh⟩, helf⟩]
          simp
      obtain ⟨r, hr, hrh⟩ := hstep
      exact ⟨r, foldl_enum_step_mono m rest _ r hr, hrh⟩
    · exact ih _ hlen l hl h47 helf

theorem enum_spec_first (m : Mem) (lines : List (List Nat)) :
    ∀ r ∈ enum_spec m lines,
      ∃ l, lines.find? (line_matches m r.1) = some l ∧ line_base l = r.2 := by
  intro r hr
  have := foldl_enum_step_first m lines [] [] (by simp) (by simp) r hr
  simpa using this

/-- A record whose hash has a matching line among the first 64 is what the
single lookup returns for that hash. -/
theorem resolve_mod_spec_record (m : Mem) (lines : List (List Nat)) (r : Nat × Nat)
    (hr : r ∈ enum_spec m lines)
    (h64 : ∃ l ∈ lines.take 64, line_matches m r.1 l = true) :
    resolve_mod_spec m r.1 64 lines = r.2 := by
  obtain ⟨l0, hfind, hbase⟩ := enum_spec_first m lines r hr
  have hsome : ((lines.take 64).find? (line_matches m r.1)).isSome = true := by
    rw [List.find?_isSome]
    exact h64
  unfold resolve_mod_spec
  rw [← find?_take_of_isSome _ _ _ hsome, hfind]
  exact hbase

/-- A non-zero result of the single lookup is in the table when fewer than
`MAX_MODULES` records were made, and is the only base recorded for that hash. -/
theorem enum_spec_of_resolve (m : Mem) (lines : List (List Nat)) (h b : Nat)
    (hres : resolve_mod_spec m h 64 lines = b) (hb : b ≠ 0)
    (hroom : (enum_spec m lines).length < MAX_MODULES) :
    (h, b) ∈ enum_spec m lines ∧ ∀ r ∈ enum_spec m lines, r.1 = h → r.2 = b := by
  unfold resolve_mod_spec at hres
  cases hf : (lines.take 64).find? (line_matches m h) with
  | none => rw [hf] at hres; exact absurd hres.symm hb
  | some l =>
    rw [hf] at hres
    simp only at hres
    have hm : line_matches m h l = true := List.find?_some hf
    have hl : l ∈ lines := (List.take_sublist _ _).subset (List.mem_of_find?_eq_some hf)
    have hfull : lines.find? (line_matches m h) = some l := by
      rw [find?_take_of_isSome _ _ 64 (by rw [hf]; rfl), hf]
    have hparts : 47 ∈ l ∧ line_hash l = h ∧ _is_elf m (line_base l) = true := by
      have : (47 ∈ l ∧ line_hash l = h) ∧ _is_elf m (line_base l) = true := by
        simpa [line_matches] using hm
      exact ⟨this.1.1, this.1.2, this.2⟩
    have honly : ∀ r ∈ enum_spec m lines, r.1 = h → r.2 = b := by
      intro r hr hrh
      obtain ⟨l0, hfind, hbase⟩ := enum_spec_first m lines r hr
      rw [hrh, hfull] at hfind
      rw [← hbase, ← Option.some.inj hfind, hres]
    obtain ⟨r, hr, hrh⟩ := foldl_enum_step_covers m lines [] hroom l hl hparts.1 hparts.2.2
    rw [hparts.2.1] at hrh
    have hr2 := honly r hr hrh
    have : r = (h, b) := Prod.ext hrh hr2
    exact ⟨this ▸ hr, honly⟩

/-! ## Lemmas: the two copies of the resolver -/

theorem rc_memcmp_loop_eq (p q : Nat → Nat) :
    ∀ (k i : Nat), ResolveC._memcmp_loop p q i k = _memcmp_loop p q i k := by
  intro k
  induction k with
  | zero => intro i; rfl
  | succ k ih =>
    intro i
    unfold ResolveC._memcmp_loop _memcmp_loop
    rw [ih]

theorem rc_is_elf_eq (m : Mem) (addr : Nat) : ResolveC._is_elf m addr = _is_elf m addr := by
  unfold ResolveC._is_elf _is_elf ResolveC._memcmp _memcmp
  rw [rc_memcmp_loop_eq]
  rfl

theorem rc_hex2u64_loop_eq :
    ∀ (k : Nat) (s : List Nat) (v : Nat),
      ResolveC._hex2u64_loop k s v = _hex2u64_loop k s v := by
  intro k
  induction k with
  | zero => intro s v; rfl
  | succ k ih =>
    intro s v
    cases s with
    | nil => rfl
    | cons c s =>
      unfold ResolveC._hex2u64_loop _hex2u64_loop
      simp only [ih]

theorem rc_hex2u64_eq (s : List Nat) (max : Nat) : ResolveC._hex2u64 s max = _hex2u64 s max :=
  rc_hex2u64_loop_eq max s 0

theorem rc_find_dyn_loop_eq (m : Mem) (base p phnum : Nat) :
    ∀ (k i : Nat), ResolveC._find_dyn_loop m base p phnum k i = _find_dyn_loop m base p phnum k i := by
  intro k
  induction k with
  | zero => intro i; rfl
  | succ k ih =>
    intro i
    unfold ResolveC._find_dyn_loop _find_dyn_loop
    simp only [ih]

theorem rc_find_dyn_eq (m : Mem) (base : Nat) : ResolveC._find_dyn m base = _find_dyn m base :=
  rc_find_dyn_loop_eq m base _ _ ITER_MAX 0

theorem rc_resolve_mod_loop_eq (m : Mem) (hash : Nat) :
    ∀ (k : Nat) (line : List Nat),
      ResolveC.resolve_mod_loop m hash k line = resolve_mod_loop m hash k line := by
  intro k
  induction k with
  | zero => intro line; rfl
  | succ k ih =>
    intro line
    unfold ResolveC.resolve_mod_loop resolve_mod_loop
    simp only [ih, rc_hex2u64_eq, rc_is_elf_eq]

theorem rc_dyn_walk_eq (m : Mem) :
    ∀ (k dyn : Nat) (st : dyn_info_t), ResolveC.dyn_walk m k dyn st = dyn_walk m k dyn st := by
  intro k
  induction k with
  | zero => intro dyn st; rfl
  | succ k ih =>
    intro dyn st
    unfold ResolveC.dyn_walk dyn_walk
    simp only [ih]
    rfl

theorem rc_sym_scan_eq (m : Mem) (base hash strtab strsz : Nat) :
    ∀ (k s : Nat),
      ResolveC.sym_scan m base hash strtab strsz k s = sym_scan m base hash strtab strsz k s := by
  intro k
  induction k with
  | zero => intro s; rfl
  | succ k ih =>
    intro s
    unfold ResolveC.sym_scan sym_scan
    simp only [ih]

/-! ## Lemmas: the permission reads -/

theorem enum_loop_tr_fst (m : Mem) (len : Nat) :
    ∀ (k : Nat) (line : List Nat) (mods : List nebula_mod_t) (cnt : Nat),
      (_enum_modules_loop_tr m len k line mods cnt).1 = _enum_modules_loop m k line mods cnt := by
  intro k
  induction k with
  | zero => intro line mods cnt; rfl
  | succ k ih =>
    intro line mods cnt
    unfold _enum_modules_loop_tr _enum_modules_loop
    simp only
    split
    · split
      · split
        · exact ih _ _ _
        · exact ih _ _ _
      · exact ih _ _ _
    · rfl

theorem enum_modules_tr_fst (f : file_read_t) (m : Mem) (ctx : nebula_ctx_t) :
    (_enum_modules_tr f m ctx).1 = _enum_modules f m ctx := by
  unfold _enum_modules_tr _enum_modules
  split
  · rfl
  · split
    · rfl
    · simp only [enum_loop_tr_fst]

/-- One round of the instrumented loop: its three permission reads, then the
reads of the rest of the loop, entered with the state that one round of
`_enum_modules` leaves. -/
theorem enum_loop_tr_reads_step (m : Mem) (len k : Nat) (line : List Nat)
    (mods : List nebula_mod_t) (cnt : Nat) (h0 : deref line ≠ 0) (hc : cnt < MAX_MODULES) :
    (_enum_modules_loop_tr m len (k + 1) line mods cnt).2 =
      perm_reads len (skip_spaces (skip_to_space line)) ++
        (_enum_modules_loop_tr m len k (next_line line)
          (_enum_modules_loop m 1 line mods cnt).1 (_enum_modules_loop m 1 line mods cnt).2).2 := by
  rw [_enum_modules_loop_tr, _enum_modules_loop]
  simp only [h0, hc, ne_eq, not_false_eq_true, and_self, if_true]
  split
  · split
    · rfl
    · rfl
  · rfl

theorem skip_to_space_no_space {t r : List Nat} (ht : is_line t) (hsp : 32 ∉ t)
    (hr : deref r = 0) : skip_spaces (skip_to_space (t ++ r)) = r := by
  induction t with
  | nil =>
    cases r with
    | nil => rfl
    | cons c r' =>
      have hc : c = 0 := hr
      subst hc
      rfl
  | cons c t' ih =>
    have hc0 : c ≠ 0 := (ht c (List.mem_cons_self _ _)).1
    have hc32 : c ≠ 32 := fun h => hsp (h ▸ List.mem_cons_self _ _)
    rw [List.cons_append, skip_to_space, if_pos ⟨hc0, hc32⟩]
    exact ih (is_line_tail ht) (fun h => hsp (List.mem_cons_of_mem _ h))

/-- On a listing whose last line has no newline and no space, and whose whole
lines leave room in the table, the loop reads the permission characters at the
terminator and at the two bytes after it. -/
theorem enum_loop_tr_last (m : Mem) (len : Nat) (ls : List (List Nat)) (t r : List Nat)
    (hls : ∀ l ∈ ls, is_line l) (ht : is_line t) (htn : t ≠ []) (hsp : 32 ∉ t)
    (hr : deref r = 0) :
    ∀ (fuel : Nat) (mods : List nebula_mod_t) (cnt : Nat),
      (listing_lines ls t).length ≤ fuel → mods.length = MAX_MODULES → cnt ≤ MAX_MODULES →
      (ls.foldl (enum_step m) (table_of mods cnt)).length < MAX_MODULES →
      ∀ i ∈ perm_reads len r,
        i ∈ (_enum_modules_loop_tr m len fuel (listing_text ls t ++ r) mods cnt).2 := by
  induction ls with
  | nil =>
    intro fuel mods cnt hfuel hlen hcnt hroom i hi
    have hc : cnt < MAX_MODULES := by
      rw [List.foldl_nil, table_of_length (by omega)] at hroom
      exact hroom
    have hlines : listing_lines [] t = [t] := by simp [listing_lines, htn]
    rw [hlines] at hfuel
    cases fuel with
    | zero => simp at hfuel
    | succ k =>
      rw [listing_text_nil,
        enum_loop_tr_reads_step m len k _ mods cnt (deref_line_append ht (Or.inr htn)) hc,
        skip_to_space_no_space ht hsp hr]
      exact List.mem_append_left _ hi
  | cons l ls ih =>
    intro fuel mods cnt hfuel hlen hcnt hroom i hi
    have hl : is_line l := hls l (by simp)
    have hls' : ∀ x ∈ ls, is_line x := fun x hx => hls x (by simp [hx])
    have hc : cnt < MAX_MODULES := by
      have h1 := foldl_enum_step_length_le m (l :: ls) (table_of mods cnt)
      rw [table_of_length (by omega)] at h1
      omega
    rw [listing_lines_length_cons] at hfuel
    cases fuel with
    | zero => simp at hfuel
    | succ k =>
      have he : is_end (10 :: (listing_text ls t ++ r)) := Or.inr rfl
      obtain ⟨mods', cnt', hstep, htab, hlen', _, hle', _⟩ :=
        enum_round m 0 mods cnt hl he (Or.inl rfl) hc hlen
      have hstate : _enum_modules_loop m 1 (l ++ 10 :: (listing_text ls t ++ r)) mods cnt =
          (mods', cnt') := hstep
      have h0 : deref (l ++ 10 :: (listing_text ls t ++ r)) ≠ 0 :=
        deref_line_append hl (Or.inl rfl)
      rw [listing_text_cons, List.append_assoc, List.cons_append,
        enum_loop_tr_reads_step m len k _ mods cnt h0 hc, hstate, next_line_line_append hl he]
      simp only [deref_cons, ne_eq, OfNat.ofNat_ne_zero, not_false_eq_true, if_true,
        List.tail_cons]
      apply List.mem_append_right
      apply ih hls' k mods' cnt' (by simpa using hfuel) hlen' hle' _ i hi
      rw [htab]
      exact hroom

/-- Function `_enum_modules` on such a listing of `n` bytes reads at the indices `n`,
`n + 1` and `n + 2` of the buffer. -/
theorem enum_modules_tr_last (m : Mem) (fd : Int) (ls : List (List Nat)) (t g : List Nat)
    (ctx : nebula_ctx_t) (hfd : 0 ≤ fd) (hls : ∀ l ∈ ls, is_line l) (ht : is_line t)
    (htn : t ≠ []) (hsp : 32 ∉ t) (hlen : ctx.mods.length = MAX_MODULES)
    (hroom : (enum_spec m ls).length < MAX_MODULES) :
    ∀ j, j < 3 →
      (listing_text ls t).length + j ∈
        (_enum_modules_tr ⟨fd, (listing_text ls t).length, listing_text ls t ++ g⟩ m ctx).2 := by
  intro j hj
  have hpos : ¬((listing_text ls t).length : Int) ≤ 0 := by
    have : listing_text ls t ≠ [] := fun h => htn (listing_text_eq_nil.mp h).2
    have := List.length_pos.mpr this
    omega
  unfold _enum_modules_tr
  simp only [not_lt.mpr hfd, if_false, hpos, set_terminator]
  have hlines : (listing_lines ls t).length ≤ (listing_text ls t ++ g).length + 1 := by
    have := listing_lines_length_le ls t
    simp only [List.length_append]; omega
  apply enum_loop_tr_last m _ ls t (g.set 0 0) hls ht htn hsp (deref_set_zero g) _ ctx.mods 0
    hlines hlen (Nat.zero_le _) (by simpa [table_of, enum_spec] using hroom)
  simp only [perm_reads, List.length_append, List.length_set, List.mem_cons, List.mem_singleton,
    List.not_mem_nil, or_false]
  omega

theorem listing_text_replicate_length (l t : List Nat) :
    ∀ k, (listing_text (List.replicate k l) t).length = k * (l.length + 1) + t.length := by
  intro k
  induction k with
  | zero => simp [listing_text_nil]
  | succ k ih =>
    rw [List.replicate_succ, listing_text_cons, List.length_append, List.length_cons, ih]
    ring

theorem foldl_enum_step_invalid (m : Mem) (lines : List (List Nat))
    (h : ∀ l ∈ lines, _is_elf m (line_base l) = false) :
    ∀ acc : List (Nat × Nat), lines.foldl (enum_step m) acc = acc := by
  induction lines with
  | nil => intro acc; rfl
  | cons l lines ih =>
    intro acc
    have hl : enum_step m acc l = acc := by
      simp [enum_step, h l (List.mem_cons_self _ _)]
    rw [List.foldl_cons, hl]
    exact ih (fun x hx => h x (List.mem_cons_of_mem _ hx)) acc

theorem maps_cut_text_length : (listing_text lines_cut tail_cut).length = 4095 := by
  unfold lines_cut
  rw [listing_text_replicate_length]
  decide

/-! ## Lemmas: the checksum -/

theorem crc32_bit_eq_spec (crc : Nat) : crc32_bit crc = crc32_step_spec crc := by
  unfold crc32_bit crc32_step_spec
  rw [Nat.and_one_is_mod]
  rcases Nat.mod_two_eq_zero_or_one crc with h | h
  · rw [h, if_neg (by decide)]
    have : (0xedb88320 &&& ((2^32 - 0) % 2^32)) = 0 := by decide
    rw [this, Nat.xor_zero]
  · rw [h, if_pos rfl]
    have : (0xedb88320 &&& ((2^32 - 1) % 2^32)) = 0xEDB88320 := by decide
    rw [this]

theorem crc32_bit_lt (crc : Nat) (h : crc < 2^32) : crc32_bit crc < 2^32 := by
  rw [crc32_bit_eq_spec]
  unfold crc32_step_spec
  have hs : crc >>> 1 < 2^32 := by
    rw [Nat.shiftRight_eq_div_pow]
    omega
  split
  · exact Nat.xor_lt_two_pow hs (by decide)
  · exact hs

theorem crc32_bit_iterate_lt (k crc : Nat) (h : crc < 2^32) : crc32_bit^[k] crc < 2^32 := by
  induction k generalizing crc with
  | zero => exact h
  | succ k ih =>
    rw [Function.iterate_succ_apply]
    exact ih _ (crc32_bit_lt crc h)

theorem crc32_byte_lt (crc b : Nat) (h : crc < 2^32) (hb : b < 256) :
    crc32_byte crc b < 2^32 :=
  crc32_bit_iterate_lt 8 _ (Nat.xor_lt_two_pow h (by omega))

theorem crc32_loop_lt (m : Mem) :
    ∀ (k p crc : Nat), crc < 2^32 → crc32_loop m k p crc < 2^32 := by
  intro k
  induction k with
  | zero => intro p crc h; exact h
  | succ k ih =>
    intro p crc h
    unfold crc32_loop
    exact ih _ _ (crc32_byte_lt crc _ h (rd8_lt m p))

theorem bytes_at_succ (m : Mem) (data k : Nat) :
    bytes_at m data (k + 1) = rd8 m data :: bytes_at m (data + 1) k := by
  unfold bytes_at
  rw [List.range_succ_eq_map, List.map_cons, List.map_map]
  congr 1
  apply List.map_congr_left
  intro i _
  simp only [Function.comp, Nat.succ_eq_add_one]
  congr 1
  omega

theorem crc32_loop_eq_foldl (m : Mem) :
    ∀ (k p crc : Nat),
      crc32_loop m k p crc =
        (bytes_at m p k).foldl (fun crc b => crc32_step_spec^[8] (crc ^^^ b)) crc := by
  have hfun : crc32_bit = crc32_step_spec := funext crc32_bit_eq_spec
  intro k
  induction k with
  | zero => intro p crc; rfl
  | succ k ih =>
    intro p crc
    unfold crc32_loop
    rw [bytes_at_succ, List.foldl_cons, ih, crc32_byte, hfun]

/-- The complement `~crc` of a 32-bit value is its xor with `0xFFFFFFFF`. -/
theorem not_u32_eq_xor (x : Nat) (h : x < 2^32) : 0xffffffff - x = x ^^^ 0xFFFFFFFF := by
  have h1 : 0xffffffff - x = 2^32 - (x + 1) := by omega
  have h2 : (0xFFFFFFFF : Nat) = 2^32 - 1 := by norm_num
  rw [h1, h2]
  apply Nat.eq_of_testBit_eq
  intro i
  rw [Nat.testBit_two_pow_sub_succ h, Nat.testBit_xor, Nat.testBit_two_pow_sub_one]
  by_cases hi : i < 32
  · simp [hi]
  · have hx : x.testBit i = false :=
      Nat.testBit_lt_two_pow (lt_of_lt_of_le h (Nat.pow_le_pow_right (by omega) (by omega)))
    simp [hi, hx]

theorem bytes_at_memOf (org : Nat) (l : List Nat) (h : ∀ c ∈ l, c < 256) :
    bytes_at (memOf org l) org l.length = l := by
  apply List.ext_getElem
  · simp [bytes_at]
  · intro i h1 h2
    have hi : i < l.length := h2
    simp only [bytes_at, List.getElem_map, List.getElem_range, rd8, memOf]
    rw [if_neg (by omega), Nat.add_sub_cancel_left, List.getD_eq_getElem _ _ hi]
    exact Nat.mod_eq_of_lt (h _ (List.getElem_mem _))

/-- The check value of the standard CRC-32: the register after each of the
bytes `1`, ..., `9`, and the complemented result. -/
theorem crc32_spec_check : crc32_spec (lit "123456789") = 0xCBF43926 := by
  have hl : lit "123456789" = [49, 50, 51, 52, 53, 54, 55, 56, 57] := by decide
  have h1 : crc32_step_spec^[8] (0xFFFFFFFF ^^^ 49) = 0x7c231048 := by decide
  have h2 : crc32_step_spec^[8] (0x7c231048 ^^^ 50) = 0xb0acbb32 := by decide
  have h3 : crc32_step_spec^[8] (0xb0acbb32 ^^^ 51) = 0x77b79c2d := by decide
  have h4 : crc32_step_spec^[8] (0x77b79c2d ^^^ 52) = 0x641c1f5c := by decide
  have h5 : crc32_step_spec^[8] (0x641c1f5c ^^^ 53) = 0x340ac5e3 := by decide
  have h6 : crc32_step_spec^[8] (0x340ac5e3 ^^^ 54) = 0xf68d2c9e := by decide
  have h7 : crc32_step_spec^[8] (0xf68d2c9e ^^^ 55) = 0xaffc9660 := by decide
  have h8 : crc32_step_spec^[8] (0xaffc9660 ^^^ 56) = 0x651f2550 := by decide
  have h9 : crc32_step_spec^[8] (0x651f2550 ^^^ 57) = 0x340bc6d9 := by decide
  unfold crc32_spec crc32_reg_spec
  rw [hl]
  simp only [List.foldl_cons, List.foldl_nil]
  rw [h1, h2, h3, h4, h5, h6, h7, h8, h9]
  decide

/-! ## Lemmas: what the structural walks of `resolve_sym` touch -/

theorem find_dyn_tr_fst (m : Mem) (base : Nat) : (_find_dyn_tr m base).1 = _find_dyn m base :=
  find_dyn_loop_tr_fst m base _ _ ITER_MAX 0

theorem resolve_sym_wtr_fst (m : Mem) (base hash : Nat) :
    (resolve_sym_wtr m base hash).1 = resolve_sym m base hash := by
  unfold resolve_sym_wtr resolve_sym
  split
  · rfl
  · simp only [find_dyn_tr_fst, dyn_walk_tr_fst]
    split
    · rfl
    · split
      · rfl
      · rfl

theorem cut_after_prefix (p : Nat → Bool) : ∀ l : List Nat, cut_after p l <+: l := by
  intro l
  induction l with
  | nil => exact List.nil_prefix
  | cons a r ih =>
    unfold cut_after
    split
    · exact ⟨r, rfl⟩
    · exact (List.prefix_cons_inj a).mpr ih

/-- The program headers examined by the loop of `_find_dyn`: the indices from
`i` on, below `phnum` and within the remaining rounds, up to the first header
of type `PT_DYNAMIC`. -/
theorem find_dyn_loop_tr_snd (m : Mem) (base p phnum : Nat) :
    ∀ (k i : Nat), (_find_dyn_loop_tr m base p phnum k i).2 =
      cut_after (fun j => decide (p_type m (p + SIZEOF_PHDR * j) = PT_DYNAMIC))
        (List.range' i (min phnum (i + k) - i)) := by
  intro k
  induction k with
  | zero =>
    intro i
    have h0 : min phnum (i + 0) - i = 0 := by omega
    rw [h0]
    rfl
  | succ k ih =>
    intro i
    unfold _find_dyn_loop_tr
    by_cases hi : i < phnum
    · have hlen : min phnum (i + (k + 1)) - i = (min phnum (i + 1 + k) - (i + 1)) + 1 := by omega
      rw [if_pos hi, hlen, List.range'_succ, cut_after]
      by_cases hp : p_type m (p + SIZEOF_PHDR * i) = PT_DYNAMIC
      · rw [if_pos hp, if_pos (by simpa using hp)]
      · rw [if_neg hp, if_neg (by simpa using hp)]
        simp only
        rw [ih (i + 1)]
    · have h0 : min phnum (i + (k + 1)) - i = 0 := by omega
      rw [if_neg hi, h0]
      rfl

theorem find_dyn_tr_snd (m : Mem) (base : Nat) :
    (_find_dyn_tr m base).2 =
      cut_after (fun j =>
          decide (p_type m ((base + e_phoff m base) % 2^64 + SIZEOF_PHDR * j) = PT_DYNAMIC))
        (List.range (min (e_phnum m base) ITER_MAX)) := by
  unfold _find_dyn_tr
  rw [find_dyn_loop_tr_snd, List.range_eq_range']
  simp

/-- The dynamic entries recorded by the walk: the entries from `dyn` on, within
the remaining rounds, before the first `DT_NULL`. -/
theorem dyn_walk_tr_snd (m : Mem) :
    ∀ (k dyn : Nat) (st : dyn_info_t), (dyn_walk_tr m k dyn st).2 =
      ((List.range k).map (fun i => dyn + 16 * i)).takeWhile
        (fun a => decide (d_tag m a ≠ DT_NULL)) := by
  intro k
  induction k with
  | zero => intro dyn st; rfl
  | succ k ih =>
    intro dyn st
    have hmap : (List.range (k + 1)).map (fun i => dyn + 16 * i) =
        dyn :: (List.range k).map (fun i => dyn + SIZEOF_DYN + 16 * i) := by
      rw [List.range_succ_eq_map, List.map_cons, List.map_map]
      congr 1
      apply List.map_congr_left
      intro i _
      show dyn + 16 * (i + 1) = dyn + 16 + 16 * i
      omega
    unfold dyn_walk_tr
    rw [hmap]
    by_cases h : d_tag m dyn ≠ DT_NULL
    · rw [if_pos h, List.takeWhile_cons_of_pos (by simpa using h)]
      simp only
      rw [ih]
    · rw [if_neg h, List.takeWhile_cons_of_neg (by simpa using h)]

theorem resolve_sym_wtr_headers_prefix (m : Mem) (base hash : Nat) :
    (resolve_sym_wtr m base hash).2.headers <+: List.range (min (e_phnum m base) ITER_MAX) := by
  have hp : (_find_dyn_tr m base).2 <+: List.range (min (e_phnum m base) ITER_MAX) := by
    rw [find_dyn_tr_snd]
    exact cut_after_prefix _ _
  unfold resolve_sym_wtr
  split
  · exact List.nil_prefix
  · simp only
    split
    · exact hp
    · split
      · exact hp
      · exact hp

theorem resolve_sym_wtr_entries_prefix (m : Mem) (base hash : Nat) :
    (resolve_sym_wtr m base hash).2.entries <+:
      (List.range ITER_MAX).map (fun i => _find_dyn m base + 16 * i) := by
  have hp : (dyn_walk_tr m ITER_MAX (_find_dyn_tr m base).1 ⟨0, 0, 0⟩).2 <+:
      (List.range ITER_MAX).map (fun i => _find_dyn m base + 16 * i) := by
    rw [dyn_walk_tr_snd, find_dyn_tr_fst]
    exact List.takeWhile_prefix _
  unfold resolve_sym_wtr
  split
  · exact List.nil_prefix
  · simp only
    split
    · exact List.nil_prefix
    · split
      · exact hp
      · exact hp

/-- The headers examined when the guards of `resolve_sym` pass. -/
theorem resolve_sym_wtr_headers (m : Mem) (base hash : Nat) (hb : base ≠ 0) (hh : hash ≠ 0)
    (hv : _is_elf m base = true) :
    (resolve_sym_wtr m base hash).2.headers =
      cut_after (fun j =>
          decide (p_type m ((base + e_phoff m base) % 2^64 + SIZEOF_PHDR * j) = PT_DYNAMIC))
        (List.range (min (e_phnum m base) ITER_MAX)) := by
  unfold resolve_sym_wtr
  rw [if_neg (by simp [hb, hh, hv])]
  simp only
  split
  · exact find_dyn_tr_snd m base
  · split
    · exact find_dyn_tr_snd m base
    · exact find_dyn_tr_snd m base

/-- The entries recorded when the guards pass and a dynamic table is found. -/
theorem resolve_sym_wtr_entries (m : Mem) (base hash : Nat) (hb : base ≠ 0) (hh : hash ≠ 0)
    (hv : _is_elf m base = true) (hd : _find_dyn m base ≠ 0) :
    (resolve_sym_wtr m base hash).2.entries =
      ((List.range ITER_MAX).map (fun i => _find_dyn m base + 16 * i)).takeWhile
        (fun a => decide (d_tag m a ≠ DT_NULL)) := by
  unfold resolve_sym_wtr
  rw [if_neg (by simp [hb, hh, hv])]
  simp only
  rw [if_neg (by rw [find_dyn_tr_fst]; exact hd)]
  split
  · rw [dyn_walk_tr_snd, find_dyn_tr_fst]
  · rw [dyn_walk_tr_snd, find_dyn_tr_fst]

theorem mem_nophdr_no_dynamic (i : Nat) :
    p_type mem_nophdr (0x1000 + SIZEOF_PHDR * i) ≠ PT_DYNAMIC := by
  rcases i with _ | _ | i
  · decide
  · decide
  · have h : p_type mem_nophdr (0x1000 + SIZEOF_PHDR * (i + 1 + 1)) = 0 := by
      unfold p_type mem_nophdr
      apply rd32_memOf_beyond
      have hlen : ([0x7f, 69, 76, 70, 2] ++ List.replicate 51 0 ++ [0xff, 0xff] : List Nat).length
          = 58 := by decide
      rw [hlen]
      show 0x1000 + 58 ≤ 0x1000 + 56 * (i + 1 + 1)
      omega
    rw [h]
    decide

theorem mem_nophdr_headers (hash : Nat) (hh : hash ≠ 0) :
    (resolve_sym_wtr mem_nophdr 0x1000 hash).2.headers = List.range ITER_MAX := by
  have hp : (0x1000 + e_phoff mem_nophdr 0x1000) % 2^64 = 0x1000 := by decide
  have hn : min (e_phnum mem_nophdr 0x1000) ITER_MAX = ITER_MAX := by decide
  rw [resolve_sym_wtr_headers mem_nophdr 0x1000 hash (by decide) hh (by decide), hp, hn]
  apply cut_after_of_none
  intro a _
  simpa using mem_nophdr_no_dynamic a

theorem mem_noterm_entries (hash : Nat) (hh : hash ≠ 0) :
    (resolve_sym_wtr mem_noterm 0x1000 hash).2.entries =
      (List.range ITER_MAX).map (fun i => 0x1000 + 192 + 16 * i) := by
  have hd : _find_dyn mem_noterm 0x1000 = 0x1000 + 192 := by decide
  rw [resolve_sym_wtr_entries mem_noterm 0x1000 hash (by decide) hh (by decide)
    (by rw [hd]; decide), hd, List.takeWhile_eq_self_iff.mpr]
  intro a ha
  obtain ⟨i, hi, rfl⟩ := List.mem_map.mp ha
  simpa using mem_noterm_no_null i (List.mem_range.mp hi)

/-! ## Lemmas: the reads of every hashed name -/

theorem sym_scan_ntr_fst (m : Mem) (base hash strtab strsz : Nat) :
    ∀ (k s : Nat), (sym_scan_ntr m base hash strtab strsz k s).1 =
      sym_scan m base hash strtab strsz k s := by
  intro k
  induction k with
  | zero => intro s; rfl
  | succ k ih =>
    intro s
    unfold sym_scan_ntr sym_scan
    rw [djb2_at_tr_fst]
    split
    · split
      · exact ih _
      · split
        · exact ih _
        · cases djb2_at m (strtab + st_name m s) with
          | none => rfl
          | some h =>
            simp only
            split
            · rfl
            · exact ih _
    · rfl

theorem resolve_sym_ntr_fst (m : Mem) (base hash : Nat) :
    (resolve_sym_ntr m base hash).1 = resolve_sym m base hash := by
  unfold resolve_sym_ntr resolve_sym
  split
  · rfl
  · simp only
    split
    · rfl
    · split
      · rfl
      · exact sym_scan_ntr_fst m base hash _ _ _ _

theorem sym_scan_ntr_flatten (m : Mem) (base hash strtab strsz : Nat) :
    ∀ (k s : Nat), (sym_scan_ntr m base hash strtab strsz k s).2.flatten =
      (sym_scan_tr m base hash strtab strsz k s).2.name_reads := by
  intro k
  induction k with
  | zero => intro s; rfl
  | succ k ih =>
    intro s
    unfold sym_scan_ntr sym_scan_tr
    split
    · split
      · exact ih _
      · split
        · exact ih _
        · cases (djb2_at_tr m (strtab + st_name m s)).1 with
          | none => simp
          | some h =>
            simp only
            split
            · simp
            · simp only [List.flatten_cons, ih]
    · rfl

theorem resolve_sym_ntr_flatten (m : Mem) (base hash : Nat) :
    (resolve_sym_ntr m base hash).2.flatten = (resolve_sym_tr m base hash).2.name_reads := by
  unfold resolve_sym_ntr resolve_sym_tr
  split
  · rfl
  · simp only
    split
    · rfl
    · split
      · rfl
      · exact sym_scan_ntr_flatten m base hash _ _ _ _

/-- The first byte read by `djb2(s)` is the byte at `s`. -/
theorem djb2_at_tr_head (m : Mem) (s : Nat) : (djb2_at_tr m s).2.head? = some s := by
  have h64 : (2:Nat)^64 = (2^64 - 1) + 1 := by norm_num
  unfold djb2_at_tr
  rw [h64, djb2_loop_tr]
  split
  · rfl
  · rfl

/-- Every name hashed by the scan belongs to an entry below `strtab` whose name
offset is below `strsz`, and its reads start at `strtab + st_name`. -/
theorem sym_scan_ntr_heads (m : Mem) (base hash strtab strsz : Nat) :
    ∀ (k s : Nat), ∀ g ∈ (sym_scan_ntr m base hash strtab strsz k s).2,
      ∃ e, e < strtab ∧ st_name m e ≠ 0 ∧ st_name m e < strsz ∧
        g = (djb2_at_tr m (strtab + st_name m e)).2 := by
  intro k
  induction k with
  | zero => intro s g hg; simp [sym_scan_ntr] at hg
  | succ k ih =>
    intro s g hg
    unfold sym_scan_ntr at hg
    by_cases hlt : s < strtab
    · rw [if_pos hlt] at hg
      by_cases h1 : st_name m s = 0 ∨ st_value m s = 0 ∨ st_name m s ≥ strsz
      · rw [if_pos h1] at hg
        exact ih _ g hg
      · rw [if_neg h1] at hg
        have hn0 : st_name m s ≠ 0 := fun h => h1 (Or.inl h)
        have hnlt : st_name m s < strsz := by
          by_contra h
          exact h1 (Or.inr (Or.inr (Nat.not_lt.mp h)))
        by_cases h2 : ELF64_ST_TYPE (st_info m s) ≠ STT_FUNC ∧
            ELF64_ST_TYPE (st_info m s) ≠ STT_OBJECT
        · rw [if_pos h2] at hg
          exact ih _ g hg
        · rw [if_neg h2] at hg
          cases hd : (djb2_at_tr m (strtab + st_name m s)).1 with
          | none =>
            rw [hd] at hg
            simp only [List.mem_singleton] at hg
            exact ⟨s, hlt, hn0, hnlt, hg⟩
          | some h =>
            rw [hd] at hg
            simp only at hg
            by_cases hh : h = hash
            · rw [if_pos hh] at hg
              simp only [List.mem_singleton] at hg
              exact ⟨s, hlt, hn0, hnlt, hg⟩
            · rw [if_neg hh] at hg
              simp only [List.mem_cons] at hg
              rcases hg with hg | hg
              · exact ⟨s, hlt, hn0, hnlt, hg⟩
              · exact ih _ g hg
    · rw [if_neg hlt] at hg
      simp at hg

/-! ## The claims -/

set_option maxRecDepth 100000

/-- C1 (amended). For every valid 64-bit image at a non-zero base that has one
`PT_DYNAMIC` program header among the first `ITER_MAX`, whose dynamic table (at
a non-zero address, with at most `ITER_MAX` entries before `DT_NULL`) declares
`DT_SYMTAB` (non-zero), `DT_STRTAB` and `DT_STRSZ`, and whose symbol array holds
one exported function symbol named `n` with value `v`: if `djb2 n ≠ 0`,
`resolve_sym(base, djb2 n)` returns `base + v` (in `u64`), and
`resolve_sym(base, h)` returns 0 for every `h` different from `djb2 n`. -/
theorem C1_resolve_sym_one_symbol (m : Mem) (base : Nat) (n : List Nat) (v i : Nat)
    (ents : List (Nat × Nat)) (symtab strtab strsz s : Nat)
    (hx : exports_symbol m base n v i ents symtab strtab strsz s)
    (hc : within_caps m base i ents symtab) :
    (djb2 n ≠ 0 → resolve_sym m base (djb2 n) = some ((base + v) % 2^64)) ∧
    ∀ h, h ≠ djb2 n → resolve_sym m base h = some 0 := by
  constructor
  · intro hh
    rw [resolve_sym_exports m base n v i ents symtab strtab strsz s hx hc _ hh, if_pos rfl]
  · intro h hne
    by_cases h0 : h = 0
    · simp [resolve_sym, h0]
    · rw [resolve_sym_exports m base n v i ents symtab strtab strsz s hx hc _ h0, if_neg hne]

/-- Witness for C1: the image of `mem_libc`, which exports `write`. -/
theorem C1_witness :
    resolve_sym mem_libc 0x1000 (djb2 (lit "write")) = some ((0x1000 + 0x500) % 2^64) ∧
    resolve_sym mem_libc 0x1000 (djb2 (lit "read")) = some 0 :=
  ⟨(C1_resolve_sym_one_symbol mem_libc 0x1000 (lit "write") 0x500 0 _ _ _ _ _ mem_libc_exports
      mem_libc_caps).1 (by decide),
   (C1_resolve_sym_one_symbol mem_libc 0x1000 (lit "write") 0x500 0 _ _ _ _ _ mem_libc_exports
      mem_libc_caps).2 _ (by decide)⟩

/-- Counterexample to C1 as stated: an image whose one exported function
symbol is called `6PC61CH`, a name with `djb2` hash 0; `resolve_sym` returns 0
for that hash, not `base + st_value`. -/
theorem C1_counterexample :
    exports_symbol mem_zero_hash 0x1000 (lit "6PC61CH") 0x500 0
      (tiny_dyn 0x1000 (lit "6PC61CH")) (0x1000 + 192) (0x1000 + 240) 9 (0x1000 + 216) ∧
    djb2 (lit "6PC61CH") = 0 ∧
    resolve_sym mem_zero_hash 0x1000 (djb2 (lit "6PC61CH")) = some 0 ∧
    (0x1000 + 0x500) % 2^64 ≠ 0 :=
  ⟨{ tables :=
      { valid := by decide
        ph_index := by decide
        ph_dynamic := by decide
        ph_others := by decide
        table := by decide
        decl_symtab := by decide
        decl_strtab := by decide
        decl_strsz := by decide }
     sym_mem := by decide
     name_pos := by decide
     name_lt := by decide
     value_eq := by decide
     value_pos := by decide
     is_func := by decide
     name_eq := by decide
     sym_others := by decide },
   by decide, by decide, by decide⟩

/-- C2. For every image that passes `_is_elf`, has a dynamic segment and decodes
to non-zero `symtab`, `strtab` and `strsz`, and every non-zero hash:
`resolve_sym(base, hash)` is `base + st_value` (in `u64`) of the first record,
in the order `symtab`, `symtab + 24`, ... of the records whose address is below
`strtab`, that has `st_name ≠ 0`, `st_value ≠ 0`, `st_name < strsz`, type
`STT_FUNC` or `STT_OBJECT` and a name at `strtab + st_name` whose `djb2` is
`hash`; it is 0 when there is no such record.  The names of the records that
pass the filters are NUL-terminated. -/
theorem C2_resolve_sym_first_match (m : Mem) (base hash : Nat)
    (hv : _is_elf m base = true) (hh : hash ≠ 0) (hd : _find_dyn m base ≠ 0)
    (h1 : (dyn_walk m ITER_MAX (_find_dyn m base) ⟨0, 0, 0⟩).symtab ≠ 0)
    (h2 : (dyn_walk m ITER_MAX (_find_dyn m base) ⟨0, 0, 0⟩).strtab ≠ 0)
    (h3 : (dyn_walk m ITER_MAX (_find_dyn m base) ⟨0, 0, 0⟩).strsz ≠ 0)
    (hterm : ∀ a ∈ sym_addrs (dyn_walk m ITER_MAX (_find_dyn m base) ⟨0, 0, 0⟩).symtab
        (dyn_walk m ITER_MAX (_find_dyn m base) ⟨0, 0, 0⟩).strtab,
      sym_ok m (dyn_walk m ITER_MAX (_find_dyn m base) ⟨0, 0, 0⟩).strsz a = true →
      (djb2_at m ((dyn_walk m ITER_MAX (_find_dyn m base) ⟨0, 0, 0⟩).strtab + st_name m a)).isSome
        = true) :
    resolve_sym m base hash =
      some (match (sym_addrs (dyn_walk m ITER_MAX (_find_dyn m base) ⟨0, 0, 0⟩).symtab
            (dyn_walk m ITER_MAX (_find_dyn m base) ⟨0, 0, 0⟩).strtab).find?
          (fun s =>
            sym_ok m (dyn_walk m ITER_MAX (_find_dyn m base) ⟨0, 0, 0⟩).strsz s &&
            (djb2_at m ((dyn_walk m ITER_MAX (_find_dyn m base) ⟨0, 0, 0⟩).strtab + st_name m s)
              == some hash)) with
        | some s => (base + st_value m s) % 2^64
        | none => 0) :=
  resolve_sym_eq_spec m base hash hv hh hd h1 h2 h3 hterm

/-- Witness for C2: `write` in the image of `mem_libc`. -/
theorem C2_witness : resolve_sym mem_libc 0x1000 (djb2 (lit "write")) = some 0x1500 :=
  (C2_resolve_sym_first_match mem_libc 0x1000 (djb2 (lit "write")) (by decide) (by decide)
    (by decide) (by decide) (by decide) (by decide) (by decide)).trans (by decide)

/-- C3 (amended). For every mapping listing delivered by a successful read (the
newline-terminated lines `ls` and a last line `t` without newline) and every
hash, `resolve_mod(hash)` returns the leading hexadecimal base address of the
first line, among the first 64 lines of the listing, that contains a `/`, whose
final path component (the text after its last `/`) has `djb2n` equal to `hash`,
and whose base passes `_is_elf`; it returns 0 when none of the first 64 lines
qualifies. -/
theorem C3_resolve_mod_first_match (m : Mem) (hash : Nat) (fd : Int) (ls : List (List Nat))
    (t g : List Nat) (hfd : 0 ≤ fd) (hls : ∀ l ∈ ls, is_line l) (ht : is_line t) :
    resolve_mod ⟨fd, (listing_text ls t).length, listing_text ls t ++ g⟩ m hash =
      match ((listing_lines ls t).take 64).find? (fun l =>
          decide (47 ∈ l) && (djb2n (last_comp l) (last_comp l).length == hash) &&
            _is_elf m (_hex2u64 l 16)) with
      | some l => _hex2u64 l 16
      | none => 0 :=
  resolve_mod_listing m hash fd ls t g hfd hls ht

/-- Witness for C3: the one-line listing of `libc.so.6`. -/
theorem C3_witness :
    resolve_mod ⟨3, 50, lit "1000-2000 r-xp 00000000 08:01 1234 /lib/libc.so.6\n"⟩ mem_libc
      (djb2 (lit "libc.so.6")) = 0x1000 :=
  (C3_resolve_mod_first_match mem_libc (djb2 (lit "libc.so.6")) 3
    [lit "1000-2000 r-xp 00000000 08:01 1234 /lib/libc.so.6"] [] [] (by decide) (by decide)
    (by decide)).trans (by decide)

/-- Counterexample to C3 as stated: in a listing of 64 empty lines followed by a
qualifying line for `/x` at `0x1000`, the first qualifying line of the listing
has base `0x1000`, but `resolve_mod` returns 0. -/
theorem C3_counterexample :
    resolve_mod_spec mem_libc (djb2 (lit "x")) lines_65.length (listing_lines lines_65 []) = 0x1000 ∧
    resolve_mod (read_lines lines_65) mem_libc (djb2 (lit "x")) = 0 := by
  decide

/-- C4 (amended). For any mapping listing, delivered by a successful read, that
contains exactly one line `l` with a `/` whose final path component hashes to
`h`, that line's base passing `_is_elf`: `resolve_mod(h)` returns that line's
base address if the line is among the first 64 lines, and the table built by
`_enum_modules` contains a record with that hash and base if fewer than
`MAX_MODULES` records were made from the lines before it; for a hash that
matches no line, `resolve_mod` returns 0. -/
theorem C4_unique_line (m : Mem) (fd : Int) (ls : List (List Nat)) (t g : List Nat)
    (ctx : nebula_ctx_t) (pre post : List (List Nat)) (l : List Nat)
    (hfd : 0 ≤ fd) (hls : ∀ x ∈ ls, is_line x) (ht : is_line t)
    (hlen : ctx.mods.length = MAX_MODULES)
    (hsplit : listing_lines ls t = pre ++ l :: post)
    (h47 : 47 ∈ l) (helf : _is_elf m (line_base l) = true)
    (huniq : ∀ x ∈ pre ++ post, 47 ∈ x → line_hash x ≠ line_hash l) :
    (pre.length < 64 →
      resolve_mod ⟨fd, (listing_text ls t).length, listing_text ls t ++ g⟩ m (line_hash l) =
        line_base l) ∧
    ((enum_spec m pre).length < MAX_MODULES →
      ∃ k, k < (_enum_modules ⟨fd, (listing_text ls t).length, listing_text ls t ++ g⟩ m ctx).2 ∧
        ((_enum_modules ⟨fd, (listing_text ls t).length, listing_text ls t ++ g⟩ m
          ctx).1.mods.getD k zero_mod).hash = line_hash l ∧
        ((_enum_modules ⟨fd, (listing_text ls t).length, listing_text ls t ++ g⟩ m
          ctx).1.mods.getD k zero_mod).base = line_base l) ∧
    (∀ h', (∀ x ∈ listing_lines ls t, 47 ∈ x → line_hash x ≠ h') →
      resolve_mod ⟨fd, (listing_text ls t).length, listing_text ls t ++ g⟩ m h' = 0) := by
  refine ⟨fun hk => ?_, fun hroom => ?_, fun h' hno => ?_⟩
  · rw [resolve_mod_listing m _ fd ls t g hfd hls ht, hsplit]
    apply resolve_mod_spec_split m _ 64 pre post l hk
    · intro x hx
      exact line_matches_false_of_hash (fun hx47 => huniq x (List.mem_append_left _ hx) hx47)
    · simp [line_matches, h47, helf]
  · have hmem := enum_spec_unique_line m pre post l h47 helf
      (fun x hx hx47 => huniq x (List.mem_append_left _ hx) hx47) hroom
    rw [← hsplit, ← enum_modules_listing m fd ls t g ctx hfd hls ht hlen] at hmem
    exact table_of_index hmem
  · rw [resolve_mod_listing m _ fd ls t g hfd hls ht]
    exact resolve_mod_spec_none m h' 64 _
      (fun x hx => line_matches_false_of_hash (hno x hx))

/-- Witness for C4: the one-line listing of `libc.so.6`. -/
theorem C4_witness :
    resolve_mod ⟨3, 50, lit "1000-2000 r-xp 00000000 08:01 1234 /lib/libc.so.6\n"⟩ mem_libc
      (line_hash (lit "1000-2000 r-xp 00000000 08:01 1234 /lib/libc.so.6")) =
      line_base (lit "1000-2000 r-xp 00000000 08:01 1234 /lib/libc.so.6") :=
  (C4_unique_line mem_libc 3 [lit "1000-2000 r-xp 00000000 08:01 1234 /lib/libc.so.6"] [] []
    zero_ctx [] [] (lit "1000-2000 r-xp 00000000 08:01 1234 /lib/libc.so.6") (by decide)
    (by decide) (by decide) (by decide) (by decide) (by decide) (by decide) (by decide)).1
    (by decide)

/-- Counterexample to C4 as stated: in a listing of 33 lines with different
names, all image-backed, exactly one line (the last, for `/z` at `0x20`) has the
hash of `z`; `resolve_mod` returns its base, but the table built by
`_enum_modules` is full after 32 records and has no record with that base. -/
theorem C4_counterexample :
    lines_33.filter (fun l => decide (47 ∈ l) && (line_hash l == djb2 (lit "z")))
      = [lit "20 r-xp /z"] ∧
    line_matches mem_two_hdr (djb2 (lit "z")) (lit "20 r-xp /z") = true ∧
    resolve_mod (read_lines lines_33) mem_two_hdr (djb2 (lit "z")) = 0x20 ∧
    (_enum_modules (read_lines lines_33) mem_two_hdr zero_ctx).2 = 32 ∧
    ∀ k, k < 32 →
      ((_enum_modules (read_lines lines_33) mem_two_hdr zero_ctx).1.mods.getD k zero_mod).base
        ≠ 0x20 := by
  decide

/-- C5 (amended). End to end: for every process state whose mapping listing is
read successfully and in which the probes find the base `B` (the base of the
first matching line, among the first 64 lines, of the first bootstrap candidate
in probe order that has one), where `B` holds a valid image whose tables lie
within the iteration caps, whose exported symbols have NUL-terminated names and
in which `write` is the first symbol with that hash, a function of value `off`
with `B + off < 2^64`: `nebula_init` returns true, sets `ready = true`, and
sets `libc.base = B` and `libc.write = B + off`. -/
theorem C5_init_end_to_end (w : World) (c0 : nebula_ctx_t) (base : Nat) (fd : Int)
    (ls : List (List Nat)) (t g : List Nat) (B off i : Nat) (ents : List (Nat × Nat))
    (symtab strtab strsz s : Nat)
    (hmaps : w.maps = ⟨fd, (listing_text ls t).length, listing_text ls t ++ g⟩)
    (hfd : 0 ≤ fd) (hls : ∀ l ∈ ls, is_line l) (ht : is_line t)
    (hB : libc_base_spec w.mem (listing_lines ls t) = B) (hB0 : B ≠ 0)
    (hx : exports_first w.mem B (lit "write") off i ents symtab strtab strsz s)
    (hc : within_caps w.mem B i ents symtab) (hlt : B + off < 2^64) :
    ∃ c, nebula_init w (some c0) base = some (true, some c) ∧ c.ready = true ∧
      c.libc.base = B ∧ c.libc.write = B + off := by
  have hprobe : probe_libc w = B := by
    rw [probe_libc_eq, ← hB, libc_base_spec]
    congr 1
    apply List.map_congr_left
    intro n _
    rw [hmaps]
    exact resolve_mod_listing w.mem _ fd ls t g hfd hls ht
  have hw := resolve_sym_first w.mem B (lit "write") off i ents symtab strtab strsz s hx hc
    (by decide)
  rw [Nat.mod_eq_of_lt hlt] at hw
  obtain ⟨rd, h1⟩ := resolve_sym_first_some w.mem B _ off i ents symtab strtab strsz s hx hc
    (djb2 (lit "read"))
  obtain ⟨mm, h2⟩ := resolve_sym_first_some w.mem B _ off i ents symtab strtab strsz s hx hc
    (djb2 (lit "mmap"))
  obtain ⟨mp, h3⟩ := resolve_sym_first_some w.mem B _ off i ents symtab strtab strsz s hx hc
    (djb2 (lit "mprotect"))
  obtain ⟨mu, h4⟩ := resolve_sym_first_some w.mem B _ off i ents symtab strtab strsz s hx hc
    (djb2 (lit "munmap"))
  obtain ⟨ex, h5⟩ := resolve_sym_first_some w.mem B _ off i ents symtab strtab strsz s hx hc
    (djb2 (lit "exit"))
  have hoff : B + off ≠ 0 := by have := hx.value_pos; omega
  rw [← hprobe] at hw h1 h2 h3 h4 h5 hB0
  obtain ⟨c, hc1, hc2, hc3⟩ :=
    nebula_init_write_ok w c0 base hB0 _ rd mm mp mu ex (by rw [hprobe]; exact hoff)
      hw h1 h2 h3 h4 h5
  exact ⟨c, hc1, hc2, by rw [hc3, hprobe], by rw [hc3, hprobe]⟩

/-- Witness for C5: the process with `libc.so.6` at `0x1000` exporting `write`
at offset `0x500`. -/
theorem C5_witness :
    ∃ c, nebula_init world_libc (some zero_ctx) 0 = some (true, some c) ∧ c.ready = true ∧
      c.libc.base = 0x1000 ∧ c.libc.write = 0x1000 + 0x500 :=
  C5_init_end_to_end world_libc zero_ctx 0 3
    [lit "1000-2000 r-xp 00000000 08:01 1234 /lib/libc.so.6"] [] [] 0x1000 0x500 0
    (tiny_dyn 0x1000 (lit "write")) (0x1000 + 192) (0x1000 + 240) 7 (0x1000 + 216)
    (by rfl) (by decide) (by decide) (by decide) (by decide) (by decide)
    (exports_symbol_first mem_libc_exports) mem_libc_caps (by decide)

/-- Counterexample to C5 as stated: the listing has a line for `libc-2.31.so`,
a bootstrap candidate, at base `0x1000`, which holds a valid image exporting
`write`; it also has a line for `libc.so.6` at `0x1100`, a bare image header.
`nebula_init` takes `0x1100` as `libc.base` and returns false, `ready` false. -/
theorem C5_counterexample :
    listing_lines lines_two [] =
      [lit "1000-1100 r-xp 00000000 08:01 1234 /lib/libc-2.31.so",
       lit "1100-1200 r-xp 00000000 08:01 1235 /lib/libc.so.6"] ∧
    last_comp (lit "1000-1100 r-xp 00000000 08:01 1234 /lib/libc-2.31.so")
      = lit "libc-2.31.so" ∧
    line_base (lit "1000-1100 r-xp 00000000 08:01 1234 /lib/libc-2.31.so") = 0x1000 ∧
    exports_symbol mem_two 0x1000 (lit "write") 0x500 0 (tiny_dyn 0x1000 (lit "write"))
      (0x1000 + 192) (0x1000 + 240) 7 (0x1000 + 216) ∧
    nebula_init world_two (some zero_ctx) 0 =
      some (false, some (ctx_of (nebula_init world_two (some zero_ctx) 0))) ∧
    (ctx_of (nebula_init world_two (some zero_ctx) 0)).ready = false ∧
    (ctx_of (nebula_init world_two (some zero_ctx) 0)).libc.base = 0x1100 :=
  ⟨by decide, by decide, by decide, mem_two_exports, world_two_init, by decide, by decide⟩

/-- C6. A call of `nebula_init` on a non-null context returns whenever its calls
of `resolve_sym` do.  After every call that returns, the context's `ready`
equals the returned flag (so it is false on every failing path), and
`ready = true` implies that `libc.base` and `libc.write` are non-zero, that
`mod_cnt ≤ MAX_MODULES`, and that `mod_cnt` counts the records written by
`_enum_modules`: the table has `MAX_MODULES` slots, each of the first `mod_cnt`
holds a record whose base passes `_is_elf`, and the others are still all-zero. -/
theorem C6_init_ready_invariant (w : World) (c0 : nebula_ctx_t) (base : Nat) :
    ((∀ n ∈ primitive_names, (resolve_sym w.mem (probe_libc w) (djb2 n)).isSome = true) →
      ∃ r c, nebula_init w (some c0) base = some (r, some c)) ∧
    ∀ (r : Bool) (oc : Option nebula_ctx_t), nebula_init w (some c0) base = some (r, oc) →
      ∃ c, oc = some c ∧ c.ready = r ∧
        (c.ready = true →
          c.libc.base ≠ 0 ∧ c.libc.write ≠ 0 ∧ c.mod_cnt ≤ MAX_MODULES ∧
          c.mods.length = MAX_MODULES ∧
          (∀ i, i < c.mod_cnt → _is_elf w.mem (c.mods.getD i zero_mod).base = true) ∧
          (∀ i, c.mod_cnt ≤ i → c.mods.getD i zero_mod = zero_mod) ∧
          (c.mods.filter (fun x => decide (x.base ≠ 0))).length = c.mod_cnt) :=
  ⟨nebula_init_returns w c0 base, fun r oc h => init_ready_invariant w c0 base r oc h⟩

/-- Witness for C6: the process with `libc.so.6` at `0x1000`. -/
theorem C6_witness :
    ∃ c, some (ctx_of (nebula_init world_libc (some zero_ctx) 0)) = some c ∧ c.ready = true ∧
      (c.ready = true →
        c.libc.base ≠ 0 ∧ c.libc.write ≠ 0 ∧ c.mod_cnt ≤ MAX_MODULES ∧
        c.mods.length = MAX_MODULES ∧
        (∀ i, i < c.mod_cnt → _is_elf world_libc.mem (c.mods.getD i zero_mod).base = true) ∧
        (∀ i, c.mod_cnt ≤ i → c.mods.getD i zero_mod = zero_mod) ∧
        (c.mods.filter (fun x => decide (x.base ≠ 0))).length = c.mod_cnt) :=
  (C6_init_ready_invariant world_libc zero_ctx 0).2 true _ world_libc_init

/-- C7. If `resolve_mod` returns 0 for the hash of every bootstrap candidate,
`nebula_init` returns false and leaves `ready = false`, every entry of the
primitive table (base, write, read, mmap, mprotect, munmap, exit) zero and
`mod_cnt = 0`, whatever the context held before the call. -/
theorem C7_init_no_candidate (w : World) (c0 : nebula_ctx_t) (base : Nat)
    (h : ∀ n ∈ bootstrap_names, resolve_mod w.maps w.mem (djb2 n) = 0) :
    ∃ c, nebula_init w (some c0) base = some (false, some c) ∧ c.ready = false ∧
      c.libc = ⟨0, 0, 0, 0, 0, 0, 0⟩ ∧ c.mod_cnt = 0 := by
  have hp : probe_libc w = 0 := by
    rw [probe_libc_eq]
    simp only [bootstrap_names, List.map_cons, List.map_nil,
      h (lit "libc.so.6") (by simp [bootstrap_names]),
      h (lit "libc-2.31.so") (by simp [bootstrap_names]),
      h (lit "libc.musl-aarch64.so.1") (by simp [bootstrap_names])]
    rfl
  refine ⟨probed_ctx w base, ?_, rfl, ?_, rfl⟩
  · rw [nebula_init_eq, if_pos hp]
  · rw [probed_ctx_libc, hp]

/-- Witness for C7: a process whose listing cannot be opened, entered with a
context that claims to be ready. -/
theorem C7_witness :
    ∃ c, nebula_init world_nomaps (some { zero_ctx with ready := true, mod_cnt := 7 }) 0 =
        some (false, some c) ∧ c.ready = false ∧
      c.libc = ⟨0, 0, 0, 0, 0, 0, 0⟩ ∧ c.mod_cnt = 0 :=
  C7_init_no_candidate world_nomaps _ 0 (by decide)

/-- C8. In `nebula_init`, once the probes have found a base `b` (non-zero):
if `write` does not resolve (`resolve_sym` returns 0), the call returns false
and `ready` stays false; if `write` resolves to `wr`, the call returns true with
`ready = true` whatever the five other calls of `resolve_sym` return, and each
entry holds what its call returned, so an entry whose symbol does not resolve is
null. -/
theorem C8_init_write_mandatory (w : World) (c0 : nebula_ctx_t) (base : Nat)
    (hb : probe_libc w ≠ 0) :
    (resolve_sym w.mem (probe_libc w) (djb2 (lit "write")) = some 0 →
      ∃ c, nebula_init w (some c0) base = some (false, some c) ∧ c.ready = false) ∧
    (∀ wr rd mm mp mu ex, wr ≠ 0 →
      resolve_sym w.mem (probe_libc w) (djb2 (lit "write")) = some wr →
      resolve_sym w.mem (probe_libc w) (djb2 (lit "read")) = some rd →
      resolve_sym w.mem (probe_libc w) (djb2 (lit "mmap")) = some mm →
      resolve_sym w.mem (probe_libc w) (djb2 (lit "mprotect")) = some mp →
      resolve_sym w.mem (probe_libc w) (djb2 (lit "munmap")) = some mu →
      resolve_sym w.mem (probe_libc w) (djb2 (lit "exit")) = some ex →
      ∃ c, nebula_init w (some c0) base = some (true, some c) ∧ c.ready = true ∧
        c.libc = ⟨probe_libc w, wr, rd, mm, mp, mu, ex⟩) :=
  ⟨nebula_init_write_fail w c0 base hb,
   fun wr rd mm mp mu ex hwr h0 h1 h2 h3 h4 h5 =>
    nebula_init_write_ok w c0 base hb wr rd mm mp mu ex hwr h0 h1 h2 h3 h4 h5⟩

/-- Witness for C8: in the process with `libc.so.6` at `0x1000`, `write`
resolves and the five other symbols do not. -/
theorem C8_witness :
    ∃ c, nebula_init world_libc (some zero_ctx) 0 = some (true, some c) ∧ c.ready = true ∧
      c.libc = ⟨probe_libc world_libc, 0x1500, 0, 0, 0, 0, 0⟩ :=
  (C8_init_write_mandatory world_libc zero_ctx 0 (by decide)).2 0x1500 0 0 0 0 0 (by decide)
    (by decide) (by decide) (by decide) (by decide) (by decide) (by decide)

/-- C9. `nebula_init` probes the candidates in the order `libc.so.6`,
`libc-2.31.so`, `libc.musl-aarch64.so.1`.  A call returns whenever its calls of
`resolve_sym` do, and after a call that returns `libc.base` is the result of
`resolve_mod` for the first candidate in that order for which the result is
non-zero (and `0` if there is none), so a later candidate is used only when
every earlier one gave 0. -/
theorem C9_init_probe_order (w : World) (c0 : nebula_ctx_t) (base : Nat) :
    ((∀ n ∈ primitive_names, (resolve_sym w.mem (probe_libc w) (djb2 n)).isSome = true) →
      ∃ r c, nebula_init w (some c0) base = some (r, some c)) ∧
    ∀ (r : Bool) (oc : Option nebula_ctx_t), nebula_init w (some c0) base = some (r, oc) →
      bootstrap_names = [lit "libc.so.6", lit "libc-2.31.so", lit "libc.musl-aarch64.so.1"] ∧
      ∃ c, oc = some c ∧
        c.libc.base =
          first_nonzero (bootstrap_names.map (fun n => resolve_mod w.maps w.mem (djb2 n))) :=
  ⟨nebula_init_returns w c0 base, fun r oc h => init_probe_order w c0 base r oc h⟩

/-- Witness for C9: with `libc-2.31.so` at `0x1000` and `libc.so.6` at
`0x1100`, the first candidate decides. -/
theorem C9_witness :
    bootstrap_names = [lit "libc.so.6", lit "libc-2.31.so", lit "libc.musl-aarch64.so.1"] ∧
    ∃ c, some (ctx_of (nebula_init world_two (some zero_ctx) 0)) = some c ∧
      c.libc.base =
        first_nonzero
          (bootstrap_names.map (fun n => resolve_mod world_two.maps world_two.mem (djb2 n))) :=
  (C9_init_probe_order world_two zero_ctx 0).2 false _ world_two_init

/-- C10. `_is_elf(addr)` is true exactly when `addr` is non-zero, the four bytes
at `addr` are `0x7f 'E' 'L' 'F'` and the byte at `addr + 4` is `ELFCLASS64`; its
result is the same in any two memories that agree on those five bytes. -/
theorem C10_is_elf_spec (m : Mem) (addr : Nat) :
    (_is_elf m addr = true ↔
      addr ≠ 0 ∧ rd8 m addr = 0x7f ∧ rd8 m (addr + 1) = 69 ∧ rd8 m (addr + 2) = 76 ∧
        rd8 m (addr + 3) = 70 ∧ rd8 m (addr + 4) = ELFCLASS64) ∧
    ∀ m' : Mem, (∀ i, i < 5 → rd8 m' (addr + i) = rd8 m (addr + i)) →
      _is_elf m' addr = _is_elf m addr := by
  refine ⟨is_elf_iff m addr, fun m' h => ?_⟩
  rw [Bool.eq_iff_iff, is_elf_iff, is_elf_iff]
  have h0 := h 0 (by decide)
  have h1 := h 1 (by decide)
  have h2 := h 2 (by decide)
  have h3 := h 3 (by decide)
  have h4 := h 4 (by decide)
  simp only [Nat.add_zero] at h0
  rw [h0, h1, h2, h3, h4]

/-- Witness for C10: overwriting a byte outside the first five of the image
header does not change the result. -/
theorem C10_witness :
    _is_elf (Function.update mem_libc (0x1000 + 5) 0xff) 0x1000 = _is_elf mem_libc 0x1000 :=
  (C10_is_elf_spec mem_libc 0x1000).2 _ (by decide)

/-- C11. `_find_dyn(base)` returns `base + p_vaddr` (in `u64`) of the first
program header of type `PT_DYNAMIC` among the first `min(e_phnum, ITER_MAX)`
headers at `base + e_phoff`, and `NULL` when there is no such header;
`resolve_sym(base, hash)` returns 0 for every hash when `base` is zero, fails
`_is_elf`, or has no such header. -/
theorem C11_find_dyn_first (m : Mem) (base : Nat) :
    (_find_dyn m base =
      match (List.range (min (e_phnum m base) ITER_MAX)).find? (fun i =>
          p_type m ((base + e_phoff m base) % 2^64 + SIZEOF_PHDR * i) == PT_DYNAMIC) with
      | some i => (base + p_vaddr m ((base + e_phoff m base) % 2^64 + SIZEOF_PHDR * i)) % 2^64
      | none => 0) ∧
    ((base = 0 ∨ _is_elf m base = false ∨
        (∀ i, i < min (e_phnum m base) ITER_MAX →
          p_type m ((base + e_phoff m base) % 2^64 + SIZEOF_PHDR * i) ≠ PT_DYNAMIC)) →
      ∀ hash, resolve_sym m base hash = some 0) := by
  refine ⟨find_dyn_eq_spec m base, fun h hash => ?_⟩
  apply resolve_sym_no_dyn
  rcases h with h | h | h
  · exact Or.inl h
  · exact Or.inr (Or.inl h)
  · right; right
    rw [find_dyn_eq_spec, find_dyn_spec]
    have : (List.range (min (e_phnum m base) ITER_MAX)).find? (fun i =>
        p_type m ((base + e_phoff m base) % 2^64 + SIZEOF_PHDR * i) == PT_DYNAMIC) = none := by
      rw [List.find?_eq_none]
      intro i hi
      simpa using h i (List.mem_range.mp hi)
    rw [this]

/-- Witness for C11: the bare image header at `0x1100` of `mem_two` has no
program header, and the image at `0x1000` has its dynamic table at offset 128. -/
theorem C11_witness :
    _find_dyn mem_two 0x1000 = 0x1000 + 128 ∧
    resolve_sym mem_two 0x1100 (djb2 (lit "write")) = some 0 :=
  ⟨((C11_find_dyn_first mem_two 0x1000).1).trans (by decide),
   (C11_find_dyn_first mem_two 0x1100).2 (Or.inr (Or.inr (by decide))) _⟩

/-- C12. If one of the tags `DT_SYMTAB`, `DT_STRTAB`, `DT_STRSZ` does not occur
among the dynamic entries walked (those before the first `DT_NULL` among the
first `ITER_MAX`), `resolve_sym` returns 0 for every hash; and tags other than
these three do not influence the result: what the walk records is what it
records from the walked entries that carry one of the three tags. -/
theorem C12_dyn_tags (m : Mem) (base : Nat) :
    ((∃ tag, (tag = DT_SYMTAB ∨ tag = DT_STRTAB ∨ tag = DT_STRSZ) ∧
        ∀ e ∈ walked m (_find_dyn m base), e.1 ≠ tag) →
      ∀ hash, resolve_sym m base hash = some 0) ∧
    dyn_walk m ITER_MAX (_find_dyn m base) ⟨0, 0, 0⟩ =
      ((walked m (_find_dyn m base)).filter (fun e =>
        decide (e.1 = DT_SYMTAB) || decide (e.1 = DT_STRTAB) || decide (e.1 = DT_STRSZ))).foldl
        record_ent ⟨0, 0, 0⟩ := by
  refine ⟨fun ⟨tag, htag, h⟩ hash => resolve_sym_tag_absent m base hash tag htag h, ?_⟩
  rw [dyn_walk_eq_walked, foldl_record_filter]
  rfl

/-- Witness for C12: an image whose dynamic table lacks `DT_STRSZ`. -/
theorem C12_witness :
    walked mem_no_strsz (_find_dyn mem_no_strsz 0x1000) =
      [(DT_SYMTAB, 0x1000 + 192), (DT_STRTAB, 0x1000 + 240), (1, 7)] ∧
    resolve_sym mem_no_strsz 0x1000 (djb2 (lit "write")) = some 0 :=
  ⟨by
    have h : _find_dyn mem_no_strsz 0x1000 = 0x1000 + 128 := by decide
    rw [h]
    have h4096 : ITER_MAX = 4092 + 1 + 1 + 1 + 1 := rfl
    unfold walked
    rw [h4096, dyn_entries_succ, dyn_entries_succ, dyn_entries_succ, dyn_entries_succ]
    have e0 : d_tag mem_no_strsz (0x1000 + 128) = DT_SYMTAB := by decide
    have e1 : d_tag mem_no_strsz (0x1000 + 128 + 16) = DT_STRTAB := by decide
    have e2 : d_tag mem_no_strsz (0x1000 + 128 + 16 + 16) = 1 := by decide
    have e3 : d_tag mem_no_strsz (0x1000 + 128 + 16 + 16 + 16) = 0 := by decide
    have v0 : d_un mem_no_strsz (0x1000 + 128) = 0x1000 + 192 := by decide
    have v1 : d_un mem_no_strsz (0x1000 + 128 + 16) = 0x1000 + 240 := by decide
    have v2 : d_un mem_no_strsz (0x1000 + 128 + 16 + 16) = 7 := by decide
    simp [List.takeWhile, e0, e1, e2, e3, v0, v1, v2],
   (C12_dyn_tags mem_no_strsz 0x1000).1
    ⟨DT_STRSZ, Or.inr (Or.inr rfl), by
      have h : _find_dyn mem_no_strsz 0x1000 = 0x1000 + 128 := by decide
      rw [h]
      have h4096 : ITER_MAX = 4092 + 1 + 1 + 1 + 1 := rfl
      unfold walked
      rw [h4096, dyn_entries_succ, dyn_entries_succ, dyn_entries_succ, dyn_entries_succ]
      have e0 : d_tag mem_no_strsz (0x1000 + 128) = DT_SYMTAB := by decide
      have e1 : d_tag mem_no_strsz (0x1000 + 128 + 16) = DT_STRTAB := by decide
      have e2 : d_tag mem_no_strsz (0x1000 + 128 + 16 + 16) = 1 := by decide
      have e3 : d_tag mem_no_strsz (0x1000 + 128 + 16 + 16 + 16) = 0 := by decide
      simp [List.takeWhile, e0, e1, e2, e3]⟩ _⟩

/-- C13 (amended). For every image whose dynamic table has no `DT_NULL` within
the first `ITER_MAX` entries, the walk stops after exactly `ITER_MAX` entries
and records the tags of interest among them.  With `st` the recorded values:
`resolve_sym` returns 0 for every hash when one of them is 0, in particular when
one of `DT_SYMTAB`, `DT_STRTAB`, `DT_STRSZ` does not occur among those
`ITER_MAX` entries; otherwise, for a valid image with a dynamic table and a
non-zero hash, it goes on to the symbol scan with the recorded values and
returns the result of that scan, which is the first hit among the records below
`strtab` when the names of the entries that pass the filters are terminated. -/
theorem C13_no_terminator (m : Mem) (base : Nat) (st : dyn_info_t)
    (hno : ∀ i, i < ITER_MAX → d_tag m (_find_dyn m base + 16 * i) ≠ DT_NULL)
    (hst : dyn_walk m ITER_MAX (_find_dyn m base) ⟨0, 0, 0⟩ = st) :
    (walked m (_find_dyn m base)).length = ITER_MAX ∧
    dyn_walk m ITER_MAX (_find_dyn m base) ⟨0, 0, 0⟩ =
      (dyn_entries m (_find_dyn m base) ITER_MAX).foldl record_ent ⟨0, 0, 0⟩ ∧
    ((∃ tag, (tag = DT_SYMTAB ∨ tag = DT_STRTAB ∨ tag = DT_STRSZ) ∧
        ∀ i, i < ITER_MAX → d_tag m (_find_dyn m base + 16 * i) ≠ tag) →
      ∀ hash, resolve_sym m base hash = some 0) ∧
    ((st.symtab = 0 ∨ st.strtab = 0 ∨ st.strsz = 0) →
      ∀ hash, resolve_sym m base hash = some 0) ∧
    (base ≠ 0 → _is_elf m base = true → _find_dyn m base ≠ 0 →
      st.symtab ≠ 0 → st.strtab ≠ 0 → st.strsz ≠ 0 →
      ∀ hash, hash ≠ 0 →
        resolve_sym m base hash =
          sym_scan m base hash st.strtab st.strsz (st.strtab - st.symtab) st.symtab ∧
        ((∀ a ∈ sym_addrs st.symtab st.strtab, sym_ok m st.strsz a = true →
            (djb2_at m (st.strtab + st_name m a)).isSome = true) →
          resolve_sym m base hash =
            some (resolve_sym_spec m base hash st.symtab st.strtab st.strsz))) := by
  have hw := walked_of_no_null m _ hno
  refine ⟨by rw [hw, dyn_entries_length], by rw [dyn_walk_eq_walked, hw], ?_, ?_, ?_⟩
  · rintro ⟨tag, htag, h⟩ hash
    apply resolve_sym_tag_absent m base hash tag htag
    rw [hw]
    intro e he
    unfold dyn_entries at he
    obtain ⟨i, hi, rfl⟩ := List.mem_map.mp he
    exact h i (List.mem_range.mp hi)
  · intro hz hash
    unfold resolve_sym
    split
    · rfl
    · simp only
      split
      · rfl
      · rw [hst, if_pos hz]
  · intro hb hv hd h1 h2 h3 hash hh
    refine ⟨resolve_sym_of_walk m base hash st.symtab st.strtab st.strsz hv hh hd hst h1 h2 h3,
      fun hterm => ?_⟩
    have := resolve_sym_eq_spec m base hash hv hh hd (by rw [hst]; exact h1)
      (by rw [hst]; exact h2) (by rw [hst]; exact h3) (by rw [hst]; exact hterm)
    rw [hst] at this
    exact this

/-- Witness for C13: the unterminated table of `mem_noterm`, whose first three
entries record a symbol table at `0x1080`, a string table at `0x10b0` and the
size 7; `resolve_sym` goes on to the scan with these values. -/
theorem C13_witness :
    (walked mem_noterm (_find_dyn mem_noterm 0x1000)).length = ITER_MAX ∧
    resolve_sym mem_noterm 0x1000 (djb2 (lit "write")) =
      sym_scan mem_noterm 0x1000 (djb2 (lit "write")) (0x1000 + 176) 7
        (0x1000 + 176 - (0x1000 + 128)) (0x1000 + 128) :=
  have h : _find_dyn mem_noterm 0x1000 = 0x1000 + 192 := by decide
  have hthm := C13_no_terminator mem_noterm 0x1000 ⟨0x1000 + 128, 0x1000 + 176, 7⟩
    (by rw [h]; exact mem_noterm_no_null) (by rw [h]; exact mem_noterm_walk)
  ⟨hthm.1, (hthm.2.2.2.2 (by decide) (by decide) (by rw [h]; decide) (by decide) (by decide)
    (by decide) (djb2 (lit "write")) (by decide)).1⟩

/-- Counterexample to C13 as stated: the dynamic table of `mem_noterm` has no
`DT_NULL` within its first `ITER_MAX` entries, its first three entries declare
the symbol table, the string table and its size, and `resolve_sym` returns the
address of `write`, not 0. -/
theorem C13_counterexample :
    (∀ i, i < ITER_MAX → d_tag mem_noterm (_find_dyn mem_noterm 0x1000 + 16 * i) ≠ DT_NULL) ∧
    resolve_sym mem_noterm 0x1000 (djb2 (lit "write")) = some 0x1500 := by
  have h : _find_dyn mem_noterm 0x1000 = 0x1000 + 192 := by decide
  refine ⟨by rw [h]; exact mem_noterm_no_null, ?_⟩
  rw [resolve_sym_of_walk mem_noterm 0x1000 _ (0x1000 + 128) (0x1000 + 176) 7 (by decide)
    (by decide) (by rw [h]; decide) (by rw [h]; exact mem_noterm_walk) (by decide) (by decide)
    (by decide)]
  decide

/-- C14. For every memory, base and hash, `resolve_sym` with its walks
instrumented returns what `resolve_sym` returns; the program-header scan of
`_find_dyn` examines at most `min(e_phnum, ITER_MAX)` headers, the first ones
in order, and the dynamic-table walk of `resolve_sym` records tags from at most
`ITER_MAX` entries, the first ones of the table in order.  Both walks end
whether or not a `PT_DYNAMIC` header or a `DT_NULL` entry is present: on an
image that declares `0xffff` program headers, none of type `PT_DYNAMIC`, exactly
`ITER_MAX` headers are examined and the result is 0; on an image whose table
has no `DT_NULL`, exactly `ITER_MAX` entries are recorded and the call
returns. -/
theorem C14_walks_bounded (m : Mem) (base : Nat) :
    (_find_dyn_tr m base).1 = _find_dyn m base ∧
    (_find_dyn_tr m base).2.length ≤ min (e_phnum m base) ITER_MAX ∧
    (∀ (dyn : Nat) (st : dyn_info_t),
      (dyn_walk_tr m ITER_MAX dyn st).1 = dyn_walk m ITER_MAX dyn st ∧
      (dyn_walk_tr m ITER_MAX dyn st).2.length ≤ ITER_MAX) ∧
    (∀ hash,
      (resolve_sym_wtr m base hash).1 = resolve_sym m base hash ∧
      (resolve_sym_wtr m base hash).2.headers.length ≤ min (e_phnum m base) ITER_MAX ∧
      (resolve_sym_wtr m base hash).2.entries.length ≤ ITER_MAX ∧
      (resolve_sym_wtr m base hash).2.headers <+: List.range (min (e_phnum m base) ITER_MAX) ∧
      (resolve_sym_wtr m base hash).2.entries <+:
        (List.range ITER_MAX).map (fun i => _find_dyn m base + 16 * i)) ∧
    (e_phnum mem_nophdr 0x1000 = 0xffff ∧
      (∀ i, p_type mem_nophdr
        ((0x1000 + e_phoff mem_nophdr 0x1000) % 2^64 + SIZEOF_PHDR * i) ≠ PT_DYNAMIC) ∧
      (resolve_sym_wtr mem_nophdr 0x1000 (djb2 (lit "write"))).2.headers.length = ITER_MAX ∧
      resolve_sym mem_nophdr 0x1000 (djb2 (lit "write")) = some 0) ∧
    ((∀ i, i < ITER_MAX →
        d_tag mem_noterm (_find_dyn mem_noterm 0x1000 + 16 * i) ≠ DT_NULL) ∧
      (resolve_sym_wtr mem_noterm 0x1000 (djb2 (lit "write"))).2.entries.length = ITER_MAX ∧
      (resolve_sym mem_noterm 0x1000 (djb2 (lit "write"))).isSome = true) := by
  have hold : (_find_dyn_tr m base).2.length ≤ min (e_phnum m base) ITER_MAX := by
    have := find_dyn_loop_tr_length m base ((base + e_phoff m base) % 2^64) (e_phnum m base)
      ITER_MAX 0
    unfold _find_dyn_tr
    omega
  refine ⟨find_dyn_tr_fst m base, hold, fun dyn st =>
    ⟨dyn_walk_tr_fst m ITER_MAX dyn st, dyn_walk_tr_length m ITER_MAX dyn st⟩, fun hash => ?_,
    ?_, ?_⟩
  · have hh := resolve_sym_wtr_headers_prefix m base hash
    have he := resolve_sym_wtr_entries_prefix m base hash
    refine ⟨resolve_sym_wtr_fst m base hash, ?_, ?_, hh, he⟩
    · have := hh.length_le
      rwa [List.length_range] at this
    · have := he.length_le
      rwa [List.length_map, List.length_range] at this
  · have hp : (0x1000 + e_phoff mem_nophdr 0x1000) % 2^64 = 0x1000 := by decide
    have hnone : ∀ i, p_type mem_nophdr
        ((0x1000 + e_phoff mem_nophdr 0x1000) % 2^64 + SIZEOF_PHDR * i) ≠ PT_DYNAMIC := by
      intro i
      rw [hp]
      exact mem_nophdr_no_dynamic i
    refine ⟨by decide, hnone, ?_, ?_⟩
    · rw [mem_nophdr_headers _ (by decide), List.length_range]
    · exact resolve_sym_no_dyn mem_nophdr 0x1000 _ (Or.inr (Or.inr (by
        rw [find_dyn_eq_spec, find_dyn_spec]
        have hf : (List.range (min (e_phnum mem_nophdr 0x1000) ITER_MAX)).find? (fun i =>
            p_type mem_nophdr ((0x1000 + e_phoff mem_nophdr 0x1000) % 2^64 + SIZEOF_PHDR * i)
              == PT_DYNAMIC) = none := by
          rw [List.find?_eq_none]
          intro i _
          simpa using hnone i
        rw [hf])))
  · have h : _find_dyn mem_noterm 0x1000 = 0x1000 + 192 := by decide
    refine ⟨by rw [h]; exact mem_noterm_no_null, ?_, ?_⟩
    · rw [mem_noterm_entries _ (by decide), List.length_map, List.length_range]
    · rw [resolve_sym_of_walk mem_noterm 0x1000 _ (0x1000 + 128) (0x1000 + 176) 7 (by decide)
        (by decide) (by rw [h]; decide) (by rw [h]; exact mem_noterm_walk) (by decide)
        (by decide) (by decide)]
      decide

/-- C15 (amended). The symbol-table scan of `resolve_sym` examines the records
at `symtab`, `symtab + 24`, ... below `strtab` in order, so it performs at most
`⌈(strtab − symtab) / 24⌉` iterations, a number fixed by the addresses that the
dynamic table declares and not bounded by `ITER_MAX`. -/
theorem C15_scan_rounds (m : Mem) (base hash : Nat) :
    (resolve_sym_tr m base hash).1 = resolve_sym m base hash ∧
    (resolve_sym_tr m base hash).2.examined <+:
      sym_addrs (dyn_walk m ITER_MAX (_find_dyn m base) ⟨0, 0, 0⟩).symtab
        (dyn_walk m ITER_MAX (_find_dyn m base) ⟨0, 0, 0⟩).strtab ∧
    (resolve_sym_tr m base hash).2.examined.length ≤
      ((dyn_walk m ITER_MAX (_find_dyn m base) ⟨0, 0, 0⟩).strtab -
        (dyn_walk m ITER_MAX (_find_dyn m base) ⟨0, 0, 0⟩).symtab + 23) / 24 := by
  have hp : (resolve_sym_tr m base hash).2.examined <+:
      sym_addrs (dyn_walk m ITER_MAX (_find_dyn m base) ⟨0, 0, 0⟩).symtab
        (dyn_walk m ITER_MAX (_find_dyn m base) ⟨0, 0, 0⟩).strtab := by
    unfold resolve_sym_tr
    split
    · exact List.nil_prefix
    · simp only
      split
      · exact List.nil_prefix
      · split
        · exact List.nil_prefix
        · exact sym_scan_tr_prefix m base hash _ _ _ _
  refine ⟨resolve_sym_tr_fst m base hash, hp, ?_⟩
  rw [← sym_addrs_length]
  exact hp.length_le

/-- Counterexample to C15 as stated: the image of `mem_wide` declares its
string table 4097 records after its symbol table, and the scan performs 4097
iterations, more than `ITER_MAX`. -/
theorem C15_counterexample :
    (resolve_sym_tr mem_wide 0x1000 (djb2 (lit "write"))).2.examined.length = 4097 ∧
    ITER_MAX < 4097 := by
  refine ⟨?_, by decide⟩
  have h : _find_dyn mem_wide 0x1000 = 0x1000 + 128 := by decide
  rw [resolve_sym_tr_of_walk mem_wide 0x1000 _ (0x1000 + 192) (0x1000 + 192 + 24 * 4097) 8
    (by decide) (by decide) (by rw [h]; decide) (by rw [h]; decide) (by decide) (by decide)
    (by decide)]
  rw [sym_scan_tr_all mem_wide 0x1000 _ _ 8 _ _ _ rfl (by omega), sym_addrs_length]
  intro a ha
  obtain ⟨j, rfl, _⟩ := mem_sym_addrs.mp ha
  exact rd32_memOf_beyond 0x1000 (wide_image 0x1000) _ (by
    have : (wide_image 0x1000).length = 192 := by decide
    omega)

/-- C16 (amended). For every symbol entry whose name `resolve_sym` hashes, the
first byte read for that name lies inside the string table, at an offset from
`strtab` below the declared size `strsz`; and every byte read for a name lies
inside the string table provided the string table ends with a NUL byte (the
byte at `strtab + strsz − 1` is zero). -/
theorem C16_name_reads (m : Mem) (base hash : Nat) :
    (resolve_sym_tr m base hash).1 = resolve_sym m base hash ∧
    (resolve_sym_ntr m base hash).1 = resolve_sym m base hash ∧
    (resolve_sym_ntr m base hash).2.flatten = (resolve_sym_tr m base hash).2.name_reads ∧
    (∀ g ∈ (resolve_sym_ntr m base hash).2,
      ∃ a0, g.head? = some a0 ∧
        (dyn_walk m ITER_MAX (_find_dyn m base) ⟨0, 0, 0⟩).strtab ≤ a0 ∧
        a0 < (dyn_walk m ITER_MAX (_find_dyn m base) ⟨0, 0, 0⟩).strtab +
          (dyn_walk m ITER_MAX (_find_dyn m base) ⟨0, 0, 0⟩).strsz) ∧
    (rd8 m ((dyn_walk m ITER_MAX (_find_dyn m base) ⟨0, 0, 0⟩).strtab +
        (dyn_walk m ITER_MAX (_find_dyn m base) ⟨0, 0, 0⟩).strsz - 1) = 0 →
      ∀ a ∈ (resolve_sym_tr m base hash).2.name_reads,
        (dyn_walk m ITER_MAX (_find_dyn m base) ⟨0, 0, 0⟩).strtab ≤ a ∧
        a < (dyn_walk m ITER_MAX (_find_dyn m base) ⟨0, 0, 0⟩).strtab +
          (dyn_walk m ITER_MAX (_find_dyn m base) ⟨0, 0, 0⟩).strsz) := by
  refine ⟨resolve_sym_tr_fst m base hash, resolve_sym_ntr_fst m base hash,
    resolve_sym_ntr_flatten m base hash, ?_, ?_⟩
  · intro g hg
    unfold resolve_sym_ntr at hg
    split at hg
    · simp at hg
    · simp only at hg
      split at hg
      · simp at hg
      · split at hg
        · simp at hg
        · obtain ⟨e, _, _, hlt, rfl⟩ := sym_scan_ntr_heads m base hash _ _ _ _ g hg
          exact ⟨_, djb2_at_tr_head m _, Nat.le_add_right _ _, by omega⟩
  · intro hz a ha
    unfold resolve_sym_tr at ha
    split at ha
    · simp at ha
    · simp only at ha
      split at ha
      · simp at ha
      · split at ha
        · simp at ha
        · exact sym_scan_tr_reads m base hash _ _ (walk_strsz_lt m _) hz _ _ a ha

/-- Witness for C16: in the image of `mem_libc` the string table ends with a NUL
and the first byte read for `write`, at offset 1, lies inside it; in the image
of `mem_short`, whose string table of size 3 does not end with a NUL, the reads
for `write` still start inside the table. -/
theorem C16_witness :
    rd8 mem_libc ((dyn_walk mem_libc ITER_MAX (_find_dyn mem_libc 0x1000) ⟨0, 0, 0⟩).strtab +
      (dyn_walk mem_libc ITER_MAX (_find_dyn mem_libc 0x1000) ⟨0, 0, 0⟩).strsz - 1) = 0 ∧
    ((dyn_walk mem_libc ITER_MAX (_find_dyn mem_libc 0x1000) ⟨0, 0, 0⟩).strtab ≤ 0x1000 + 241 ∧
      0x1000 + 241 < (dyn_walk mem_libc ITER_MAX (_find_dyn mem_libc 0x1000) ⟨0, 0, 0⟩).strtab +
        (dyn_walk mem_libc ITER_MAX (_find_dyn mem_libc 0x1000) ⟨0, 0, 0⟩).strsz) ∧
    ∃ a0, [0x10f1, 0x10f2, 0x10f3, 0x10f4, 0x10f5, 0x10f6].head? = some a0 ∧
      (dyn_walk mem_short ITER_MAX (_find_dyn mem_short 0x1000) ⟨0, 0, 0⟩).strtab ≤ a0 ∧
      a0 < (dyn_walk mem_short ITER_MAX (_find_dyn mem_short 0x1000) ⟨0, 0, 0⟩).strtab +
        (dyn_walk mem_short ITER_MAX (_find_dyn mem_short 0x1000) ⟨0, 0, 0⟩).strsz :=
  ⟨by decide,
   (C16_name_reads mem_libc 0x1000 (djb2 (lit "write"))).2.2.2.2 (by decide) (0x1000 + 241)
    (by decide),
   (C16_name_reads mem_short 0x1000 (djb2 (lit "write"))).2.2.2.1
    [0x10f1, 0x10f2, 0x10f3, 0x10f4, 0x10f5, 0x10f6] (by decide)⟩

/-- Counterexample to C16 as stated: the image of `mem_short` declares a string
table of size 3; the entry for `write` has name offset 1, below that size, and
`resolve_sym` hashes its name, reading the byte at offset 5 of the table. -/
theorem C16_counterexample :
    dyn_walk mem_short ITER_MAX (_find_dyn mem_short 0x1000) ⟨0, 0, 0⟩ =
      ⟨0x1000 + 192, 0x1000 + 240, 3⟩ ∧
    resolve_sym mem_short 0x1000 (djb2 (lit "write")) = some 0x1500 ∧
    (0x1000 + 240 + 5) ∈ (resolve_sym_tr mem_short 0x1000 (djb2 (lit "write"))).2.name_reads := by
  decide

/-- C18. On a listing delivered by a successful read, the records written by
`_enum_modules` appear in listing order (their identities are a sublist of those
of the lines that have a `/` and a base passing `_is_elf`); for every recorded
hash the record's base is the base of the first line of the listing that has a
`/`, that hash and a base passing `_is_elf`; and once `MAX_MODULES` records
exist no further line is recorded, the call returning as usual. -/
theorem C18_enum_order (m : Mem) (fd : Int) (ls : List (List Nat)) (t g : List Nat)
    (ctx : nebula_ctx_t) (hfd : 0 ≤ fd) (hls : ∀ l ∈ ls, is_line l) (ht : is_line t)
    (hlen : ctx.mods.length = MAX_MODULES) :
    (table_of (_enum_modules ⟨fd, (listing_text ls t).length, listing_text ls t ++ g⟩ m ctx).1.mods
        (_enum_modules ⟨fd, (listing_text ls t).length, listing_text ls t ++ g⟩ m ctx).2).Sublist
      (((listing_lines ls t).filter (fun l => decide (47 ∈ l) && _is_elf m (line_base l))).map
        (fun l => (line_hash l, line_base l))) ∧
    (∀ r ∈ table_of
        (_enum_modules ⟨fd, (listing_text ls t).length, listing_text ls t ++ g⟩ m ctx).1.mods
        (_enum_modules ⟨fd, (listing_text ls t).length, listing_text ls t ++ g⟩ m ctx).2,
      ∃ l, (listing_lines ls t).find? (fun l =>
          decide (47 ∈ l) && (line_hash l == r.1) && _is_elf m (line_base l)) = some l ∧
        line_base l = r.2) ∧
    (∀ pre post, listing_lines ls t = pre ++ post → (enum_spec m pre).length = MAX_MODULES →
      table_of
        (_enum_modules ⟨fd, (listing_text ls t).length, listing_text ls t ++ g⟩ m ctx).1.mods
        (_enum_modules ⟨fd, (listing_text ls t).length, listing_text ls t ++ g⟩ m ctx).2 =
        enum_spec m pre) ∧
    (_enum_modules ⟨fd, (listing_text ls t).length, listing_text ls t ++ g⟩ m ctx).2
      ≤ MAX_MODULES := by
  rw [enum_modules_listing m fd ls t g ctx hfd hls ht hlen]
  refine ⟨?_, ?_, ?_, (enum_modules_inv _ m ctx hlen).2.1⟩
  · have := foldl_enum_step_sublist m (listing_lines ls t) [] [] (by simp)
    simpa [enum_spec] using this
  · intro r hr
    have := foldl_enum_step_first m (listing_lines ls t) [] [] (by simp) (by simp) r hr
    simpa using this
  · intro pre post hsplit hfull
    rw [hsplit]
    unfold enum_spec
    rw [List.foldl_append]
    exact foldl_enum_step_full m post (by
      show ¬(enum_spec m pre).length < MAX_MODULES
      omega)

/-- Witness for C18: three mappings of the same file; the record has the base
of the first. -/
theorem C18_witness :
    ∃ l, (listing_lines lines_dup []).find? (fun l =>
        decide (47 ∈ l) && (line_hash l == djb2 (lit "libc.so.6")) &&
          _is_elf mem_two (line_base l)) = some l ∧
      line_base l = 0x1000 :=
  (C18_enum_order mem_two 3 lines_dup [] [] zero_ctx (by decide) (by decide) (by decide)
    (by decide)).2.1 (djb2 (lit "libc.so.6"), 0x1000) (by decide)

/-- C19 (amended). For every mapping listing delivered by a successful read, a
line that contains no `/` (anonymous, `[stack]`, `[heap]` and other unnamed or
bracketed mappings without a `/` in their name) never produces a module record
in `_enum_modules` and is never returned by `resolve_mod`, whatever its base
holds and whatever its permissions: `resolve_mod` returns the base of the first
matching line among those of the first 64 lines that have a `/`, the table is
the one built from the lines that have a `/`, and a line without `/` matches no
hash and leaves the table as it is. -/
theorem C19_no_slash_lines (m : Mem) (fd : Int) (ls : List (List Nat)) (t g : List Nat)
    (ctx : nebula_ctx_t) (hfd : 0 ≤ fd) (hls : ∀ l ∈ ls, is_line l) (ht : is_line t)
    (hlen : ctx.mods.length = MAX_MODULES) :
    (∀ hash,
      resolve_mod ⟨fd, (listing_text ls t).length, listing_text ls t ++ g⟩ m hash =
        match (((listing_lines ls t).take 64).filter (fun l => decide (47 ∈ l))).find?
            (line_matches m hash) with
        | some l => line_base l
        | none => 0) ∧
    table_of (_enum_modules ⟨fd, (listing_text ls t).length, listing_text ls t ++ g⟩ m ctx).1.mods
        (_enum_modules ⟨fd, (listing_text ls t).length, listing_text ls t ++ g⟩ m ctx).2 =
      enum_spec m ((listing_lines ls t).filter (fun l => decide (47 ∈ l))) ∧
    ∀ l ∈ listing_lines ls t, 47 ∉ l →
      (∀ hash, line_matches m hash l = false) ∧ ∀ acc, enum_step m acc l = acc := by
  refine ⟨fun hash => ?_, ?_, fun l _ h47 => ⟨fun hash => ?_, fun acc => ?_⟩⟩
  · rw [resolve_mod_listing m hash fd ls t g hfd hls ht, resolve_mod_spec,
      find?_filter_of_imp _ _ _ (fun x hx => line_matches_slash hx)]
  · rw [enum_modules_listing m fd ls t g ctx hfd hls ht hlen]
    unfold enum_spec
    rw [foldl_enum_step_filter]
  · simp [line_matches, h47]
  · exact enum_step_no_slash m acc l h47

/-- Witness for C19: a `[heap]` line before the line of `libc.so.6`. -/
theorem C19_witness :
    table_of (_enum_modules (read_lines
        [lit "1000-2000 rwxp 00000000 00:00 0 [heap]",
         lit "1000-2000 r-xp 00000000 08:01 1234 /lib/libc.so.6"]) mem_libc zero_ctx).1.mods
      (_enum_modules (read_lines
        [lit "1000-2000 rwxp 00000000 00:00 0 [heap]",
         lit "1000-2000 r-xp 00000000 08:01 1234 /lib/libc.so.6"]) mem_libc zero_ctx).2 =
      enum_spec mem_libc [lit "1000-2000 r-xp 00000000 08:01 1234 /lib/libc.so.6"] :=
  (C19_no_slash_lines mem_libc 3
    [lit "1000-2000 rwxp 00000000 00:00 0 [heap]",
     lit "1000-2000 r-xp 00000000 08:01 1234 /lib/libc.so.6"] [] [] zero_ctx (by decide)
    (by decide) (by decide) (by decide)).2.1

/-- Counterexample to C19 as stated: the final field of the line is the
bracketed name `[anon:/x]`, not an absolute path; its base holds a valid image
header.  `resolve_mod` returns that base for the hash of `x]` and
`_enum_modules` makes a record of it. -/
theorem C19_counterexample :
    final_field (lit "1000-2000 r-xp 00000000 00:00 0 [anon:/x]") = lit "[anon:/x]" ∧
    (lit "[anon:/x]").head? = some 91 ∧
    resolve_mod (read_lines lines_anon) mem_libc (djb2 (lit "x]")) = 0x1000 ∧
    (_enum_modules (read_lines lines_anon) mem_libc zero_ctx).2 = 1 ∧
    ((_enum_modules (read_lines lines_anon) mem_libc zero_ctx).1.mods.getD 0 zero_mod).base
      = 0x1000 := by
  decide

/-- C20. On a listing delivered by a successful read, for every record written
by `_enum_modules` the stored path is the line's text from its first `/` to the
end of the line, cut to its first `MAX_PATH_LEN - 1` bytes when longer, and
followed by a NUL; the rest of the 128-byte path field and the field `end` are
as before, so nothing outside the path field is written; and the recorded hash
is `djb2n` of the whole final path component. -/
theorem C20_enum_path (m : Mem) (fd : Int) (ls : List (List Nat)) (t g : List Nat)
    (ctx : nebula_ctx_t) (hfd : 0 ≤ fd) (hls : ∀ l ∈ ls, is_line l) (ht : is_line t)
    (hlen : ctx.mods.length = MAX_MODULES)
    (hpaths : ∀ x ∈ ctx.mods, x.path.length = MAX_PATH_LEN) :
    ∀ k, k < (_enum_modules ⟨fd, (listing_text ls t).length, listing_text ls t ++ g⟩ m ctx).2 →
      ∃ l ∈ listing_lines ls t, 47 ∈ l ∧
        ((_enum_modules ⟨fd, (listing_text ls t).length, listing_text ls t ++ g⟩ m
          ctx).1.mods.getD k zero_mod).path =
          (l.dropWhile (fun c => c ≠ 47)).take (MAX_PATH_LEN - 1) ++
            0 :: (ctx.mods.getD k zero_mod).path.drop
              (min (l.dropWhile (fun c => c ≠ 47)).length (MAX_PATH_LEN - 1) + 1) ∧
        ((_enum_modules ⟨fd, (listing_text ls t).length, listing_text ls t ++ g⟩ m
          ctx).1.mods.getD k zero_mod).path.length = MAX_PATH_LEN ∧
        ((_enum_modules ⟨fd, (listing_text ls t).length, listing_text ls t ++ g⟩ m
          ctx).1.mods.getD k zero_mod).end_ = (ctx.mods.getD k zero_mod).end_ ∧
        ((_enum_modules ⟨fd, (listing_text ls t).length, listing_text ls t ++ g⟩ m
          ctx).1.mods.getD k zero_mod).hash = djb2n (last_comp l) (last_comp l).length := by
  intro k hk
  obtain ⟨l, e, hl, _, h47, _, _, hrec⟩ :=
    enum_modules_records m fd ls t g ctx hfd hls ht hlen k hk
  have hk32 : k < ctx.mods.length := by
    have := (enum_modules_inv ⟨fd, (listing_text ls t).length, listing_text ls t ++ g⟩ m ctx
      hlen).2.1
    omega
  have hold : (ctx.mods.getD k zero_mod).path.length = MAX_PATH_LEN := by
    rw [List.getD_eq_getElem _ _ hk32]
    exact hpaths _ (List.getElem_mem _)
  have hpath := fill_mod_path (ctx.mods.getD k zero_mod) (line_base l) (line_hash l)
    (perm_bits (skip_spaces (skip_to_space (l ++ e)))) (path_of l) e hold
  refine ⟨l, hl, h47, ?_, ?_, ?_, ?_⟩
  · rw [hrec]; exact hpath
  · rw [hrec, line_record, hpath]
    simp only [List.length_append, List.length_take, List.length_cons, List.length_drop, hold,
      MAX_PATH_LEN]
    omega
  · rw [hrec]; rfl
  · rw [hrec]; rfl

/-- Witness for C20: a path of 141 bytes is stored as its first 127 bytes and a
NUL. -/
theorem C20_witness :
    ∃ l ∈ listing_lines lines_long [], 47 ∈ l ∧
      ((_enum_modules ⟨3, (listing_text lines_long []).length, listing_text lines_long [] ++ []⟩
        mem_libc zero_ctx).1.mods.getD 0 zero_mod).path =
        (l.dropWhile (fun c => c ≠ 47)).take (MAX_PATH_LEN - 1) ++
          0 :: (zero_ctx.mods.getD 0 zero_mod).path.drop
            (min (l.dropWhile (fun c => c ≠ 47)).length (MAX_PATH_LEN - 1) + 1) ∧
      ((_enum_modules ⟨3, (listing_text lines_long []).length, listing_text lines_long [] ++ []⟩
        mem_libc zero_ctx).1.mods.getD 0 zero_mod).path.length = MAX_PATH_LEN ∧
      ((_enum_modules ⟨3, (listing_text lines_long []).length, listing_text lines_long [] ++ []⟩
        mem_libc zero_ctx).1.mods.getD 0 zero_mod).end_ = (zero_ctx.mods.getD 0 zero_mod).end_ ∧
      ((_enum_modules ⟨3, (listing_text lines_long []).length, listing_text lines_long [] ++ []⟩
        mem_libc zero_ctx).1.mods.getD 0 zero_mod).hash =
        djb2n (last_comp l) (last_comp l).length :=
  C20_enum_path mem_libc 3 lines_long [] [] zero_ctx (by decide) (by decide) (by decide)
    (by decide) (by decide) 0 (by decide)

/-- C21 (amended). On a listing delivered by a successful read, every record
written by `_enum_modules` comes from a line with a `/`, and its `perms` value
is always in `0..7`.  When the line's second space-delimited field has at least
three characters `c0`, `c1`, `c2` (more generally, when three characters of the
line follow its first run of spaces), the value is
`4 * [c0 = 'r'] + 2 * [c1 = 'w'] + [c2 = 'x']` and depends on no other
character. -/
theorem C21_perms (m : Mem) (fd : Int) (ls : List (List Nat)) (t g : List Nat)
    (ctx : nebula_ctx_t) (hfd : 0 ≤ fd) (hls : ∀ l ∈ ls, is_line l) (ht : is_line t)
    (hlen : ctx.mods.length = MAX_MODULES) :
    ∀ k, k < (_enum_modules ⟨fd, (listing_text ls t).length, listing_text ls t ++ g⟩ m ctx).2 →
      ∃ l ∈ listing_lines ls t, 47 ∈ l ∧
        ((_enum_modules ⟨fd, (listing_text ls t).length, listing_text ls t ++ g⟩ m
          ctx).1.mods.getD k zero_mod).hash = line_hash l ∧
        ((_enum_modules ⟨fd, (listing_text ls t).length, listing_text ls t ++ g⟩ m
          ctx).1.mods.getD k zero_mod).base = line_base l ∧
        ((_enum_modules ⟨fd, (listing_text ls t).length, listing_text ls t ++ g⟩ m
          ctx).1.mods.getD k zero_mod).perms ≤ 7 ∧
        (3 ≤ (after_spaces l).length →
          ((_enum_modules ⟨fd, (listing_text ls t).length, listing_text ls t ++ g⟩ m
            ctx).1.mods.getD k zero_mod).perms = perms_spec (after_spaces l)) ∧
        (3 ≤ (field2 l).length →
          ((_enum_modules ⟨fd, (listing_text ls t).length, listing_text ls t ++ g⟩ m
            ctx).1.mods.getD k zero_mod).perms = perms_spec (field2 l)) := by
  intro k hk
  obtain ⟨l, e, hl, hline, h47, _, _, hrec⟩ :=
    enum_modules_records m fd ls t g ctx hfd hls ht hlen k hk
  have hperms : ((_enum_modules ⟨fd, (listing_text ls t).length, listing_text ls t ++ g⟩ m
      ctx).1.mods.getD k zero_mod).perms = perm_bits (skip_spaces (skip_to_space (l ++ e))) := by
    rw [hrec]; rfl
  have hgen : 3 ≤ (after_spaces l).length →
      ((_enum_modules ⟨fd, (listing_text ls t).length, listing_text ls t ++ g⟩ m
        ctx).1.mods.getD k zero_mod).perms = perms_spec (after_spaces l) := by
    intro h3
    rw [hperms, line_perms l e hline h3]
  refine ⟨l, hl, h47, by rw [hrec]; rfl, by rw [hrec]; rfl, ?_, hgen, ?_⟩
  · rw [hperms]
    exact perm_bits_le _
  · intro h3
    have h3' : 3 ≤ (after_spaces l).length :=
      h3.trans (List.takeWhile_sublist _).length_le
    rw [hgen h3']
    exact (perms_spec_takeWhile _ _ h3).symm

/-- Witness for C21: the line of `libc.so.6` with the field `r-xp` gives 5. -/
theorem C21_witness :
    ∃ l ∈ listing_lines [lit "1000-2000 r-xp 00000000 08:01 1234 /lib/libc.so.6"] [], 47 ∈ l ∧
      ((_enum_modules (read_lines [lit "1000-2000 r-xp 00000000 08:01 1234 /lib/libc.so.6"])
        mem_libc zero_ctx).1.mods.getD 0 zero_mod).hash = line_hash l ∧
      ((_enum_modules (read_lines [lit "1000-2000 r-xp 00000000 08:01 1234 /lib/libc.so.6"])
        mem_libc zero_ctx).1.mods.getD 0 zero_mod).base = line_base l ∧
      ((_enum_modules (read_lines [lit "1000-2000 r-xp 00000000 08:01 1234 /lib/libc.so.6"])
        mem_libc zero_ctx).1.mods.getD 0 zero_mod).perms ≤ 7 ∧
      (3 ≤ (after_spaces l).length →
        ((_enum_modules (read_lines [lit "1000-2000 r-xp 00000000 08:01 1234 /lib/libc.so.6"])
          mem_libc zero_ctx).1.mods.getD 0 zero_mod).perms = perms_spec (after_spaces l)) ∧
      (3 ≤ (field2 l).length →
        ((_enum_modules (read_lines [lit "1000-2000 r-xp 00000000 08:01 1234 /lib/libc.so.6"])
          mem_libc zero_ctx).1.mods.getD 0 zero_mod).perms = perms_spec (field2 l)) :=
  C21_perms mem_libc 3 [lit "1000-2000 r-xp 00000000 08:01 1234 /lib/libc.so.6"] [] []
    zero_ctx (by decide) (by decide) (by decide) (by decide) 0 (by decide)

/-- Counterexample to C21 as stated: the lines `1000 r x/y` and `1000 r y/y` both
yield a record and have the same second field `r`, but the recorded values are
5 and 4: the third character read is the first character of the third field. -/
theorem C21_counterexample :
    field2 (lit "1000 r x/y") = lit "r" ∧ field2 (lit "1000 r y/y") = lit "r" ∧
    perms_spec (lit "r") = 4 ∧
    (_enum_modules (read_lines [lit "1000 r x/y"]) mem_libc zero_ctx).2 = 1 ∧
    (_enum_modules (read_lines [lit "1000 r y/y"]) mem_libc zero_ctx).2 = 1 ∧
    ((_enum_modules (read_lines [lit "1000 r x/y"]) mem_libc zero_ctx).1.mods.getD 0
      zero_mod).perms = 5 ∧
    ((_enum_modules (read_lines [lit "1000 r y/y"]) mem_libc zero_ctx).1.mods.getD 0
      zero_mod).perms = 4 := by
  decide

/-- C22. If opening the mapping listing fails (negative descriptor) or the read
returns zero or a negative count, `_enum_modules` returns 0 and leaves the
context, hence every module record, as it was, and `resolve_mod` returns 0 for
every hash. -/
theorem C22_read_fails (f : file_read_t) (m : Mem) (ctx : nebula_ctx_t)
    (h : f.fd < 0 ∨ f.n ≤ 0) :
    _enum_modules f m ctx = (ctx, 0) ∧ ∀ hash, resolve_mod f m hash = 0 := by
  unfold _enum_modules resolve_mod
  rcases h with h | h
  · simp [h]
  · simp [h]

/-- Witness for C22: a read that returns 0 bytes. -/
theorem C22_witness :
    _enum_modules ⟨3, 0, lit "1000-2000 r-xp 00000000 08:01 1234 /lib/libc.so.6\n"⟩ mem_libc
      zero_ctx = (zero_ctx, 0) ∧
    ∀ hash, resolve_mod ⟨3, 0, lit "1000-2000 r-xp 00000000 08:01 1234 /lib/libc.so.6\n"⟩
      mem_libc hash = 0 :=
  C22_read_fails ⟨3, 0, lit "1000-2000 r-xp 00000000 08:01 1234 /lib/libc.so.6\n"⟩ mem_libc
    zero_ctx (Or.inr (by decide))

/-- C23 (evaluation of the code). The compile-time hash `H` of the empty literal
is `HASH_FNV1A_SEED`.  On a literal of at least 31 characters `H` hashes the
first 32 bytes of the literal's array last byte first, and on the 31-character
literal `__libc_single_threaded_internal` it gives `0x096cef66` where the
run-time `fnv1a` gives `0x30af74b0`. -/
theorem C23_H_not_fnv1a (beyond : Nat → Nat) :
    H_lit [] beyond = HASH_FNV1A_SEED ∧ fnv1a [] = HASH_FNV1A_SEED ∧
    (∀ l : List Nat, 31 ≤ l.length →
      H_lit l beyond =
        (((List.range 32).reverse.map (fun j => (l ++ [0]).getD j 0)).foldl _CT_HASH_BYTE
          HASH_FNV1A_SEED) % 2^32) ∧
    (lit "__libc_single_threaded_internal").length = 31 ∧
    H_lit (lit "__libc_single_threaded_internal") beyond = 0x096cef66 ∧
    fnv1a (lit "__libc_single_threaded_internal") = 0x30af74b0 ∧
    H_lit (lit "__libc_single_threaded_internal") beyond ≠
      fnv1a (lit "__libc_single_threaded_internal") := by
  have hH : H_lit (lit "__libc_single_threaded_internal") beyond = 0x096cef66 := by
    rw [H_lit_long _ beyond (by decide)]
    decide
  have hf : fnv1a (lit "__libc_single_threaded_internal") = 0x30af74b0 := by decide
  refine ⟨H_lit_nil beyond, rfl, fun l hl => H_lit_long l beyond hl, by decide, hH, hf, ?_⟩
  rw [hH, hf]
  decide

/-- C24. For every NUL-terminated string `s` (a buffer of bytes), `djb2(s)`
equals `djb2n(s, strlen(s))`, and `djb2n` folds `h ↦ (33 * h + byte) mod 2^32`
over the bytes, starting from 5381.  Hence for a line standing in the buffer
whose final path component is a given name, the hash that `resolve_mod` and
`_enum_modules` compute with `djb2n` is `djb2` of that name; in particular it is
the target `djb2("libc.so.6")` of `nebula_init` when the component is exactly
`libc.so.6`. -/
theorem C24_djb2_agree (s : List Nat) (hs : ∀ c ∈ s, c < 256) :
    djb2 s = djb2n s (_strlen s) ∧
    (∀ n, n ≤ s.length →
      djb2n s n = (s.take n).foldl (fun h c => (33 * h + c) % 2^32) 5381) ∧
    (∀ l e, is_line l → is_end e → 47 ∈ l → (∀ c ∈ l, c < 256) →
      djb2n (scan_name (skip_to_slash (l ++ e)) (skip_to_slash (l ++ e))).1
        (line_len (scan_name (skip_to_slash (l ++ e)) (skip_to_slash (l ++ e))).1) =
        djb2 (last_comp l)) ∧
    (∀ l e, is_line l → is_end e → 47 ∈ l → last_comp l = lit "libc.so.6" →
      djb2n (scan_name (skip_to_slash (l ++ e)) (skip_to_slash (l ++ e))).1
        (line_len (scan_name (skip_to_slash (l ++ e)) (skip_to_slash (l ++ e))).1) =
        djb2 (lit "libc.so.6")) := by
  refine ⟨djb2_from_eq_djb2n s _ hs, fun n hn => djb2n_loop_eq_foldl n s _ hn hs, ?_, ?_⟩
  · intro l e hl he h47 hb
    have hb' : ∀ c ∈ last_comp l, c < 256 := by
      intro c hc
      have h1 : c ∈ l.reverse.takeWhile (fun c => c ≠ 47) := by simpa [last_comp] using hc
      exact hb c (by simpa using (List.takeWhile_sublist _).subset h1)
    rw [name_hash_line hl he h47, line_hash, djb2, djb2_from_eq_djb2n _ _ hb',
      strlen_of_line (is_line_last_comp hl)]
    rfl
  · intro l e hl he h47 hname
    rw [name_hash_line hl he h47, line_hash, hname]
    decide

/-- Witness for C24: the name `libc.so.6` followed by a NUL and other bytes. -/
theorem C24_witness :
    djb2 (lit "libc.so.6" ++ 0 :: lit "rest") = djb2n (lit "libc.so.6" ++ 0 :: lit "rest") 9 ∧
    djb2n (scan_name (skip_to_slash (lit "1000-2000 r-xp 00000000 08:01 1234 /lib/libc.so.6" ++
        [10])) (skip_to_slash (lit "1000-2000 r-xp 00000000 08:01 1234 /lib/libc.so.6" ++
        [10]))).1
      (line_len (scan_name (skip_to_slash
        (lit "1000-2000 r-xp 00000000 08:01 1234 /lib/libc.so.6" ++ [10]))
        (skip_to_slash (lit "1000-2000 r-xp 00000000 08:01 1234 /lib/libc.so.6" ++ [10]))).1) =
      djb2 (lit "libc.so.6") :=
  ⟨(C24_djb2_agree (lit "libc.so.6" ++ 0 :: lit "rest") (by decide)).1,
   (C24_djb2_agree [] (by decide)).2.2.2
    (lit "1000-2000 r-xp 00000000 08:01 1234 /lib/libc.so.6") [10] (by decide)
    (Or.inr rfl) (by decide) (by decide)⟩

/-- C25 (amended). Let `st` be what the dynamic-table walk of `resolve_sym`
records.  If the declared string-table address is less than or equal to the
declared symbol-table address, the symbol scan examines no entry and
`resolve_sym` returns 0, whatever the hash and whatever the memory holds.  When
the string table lies above the symbol table, the entries examined are records
at addresses `symtab + 24 * k` below `strtab`, in order and from the first one
on: when the scan is reached they are exactly these records up to and including
the entry at which the scan ends by returning, and all of them when there is no
such entry. -/
theorem C25_scan_range (m : Mem) (base hash : Nat) (st : dyn_info_t)
    (hst : dyn_walk m ITER_MAX (_find_dyn m base) ⟨0, 0, 0⟩ = st) :
    (resolve_sym_tr m base hash).1 = resolve_sym m base hash ∧
    (st.strtab ≤ st.symtab →
      (resolve_sym_tr m base hash).2.examined = [] ∧ resolve_sym m base hash = some 0) ∧
    (resolve_sym_tr m base hash).2.examined <+: sym_addrs st.symtab st.strtab ∧
    (∀ a, a ∈ sym_addrs st.symtab st.strtab ↔ ∃ k, a = st.symtab + 24 * k ∧ a < st.strtab) ∧
    (base ≠ 0 → hash ≠ 0 → _is_elf m base = true → _find_dyn m base ≠ 0 →
      st.symtab ≠ 0 → st.strtab ≠ 0 → st.strsz ≠ 0 →
      (resolve_sym_tr m base hash).2.examined =
        cut_after (sym_stop m st.strtab st.strsz hash) (sym_addrs st.symtab st.strtab) ∧
      ((∀ a ∈ sym_addrs st.symtab st.strtab, sym_stop m st.strtab st.strsz hash a = false) →
        (resolve_sym_tr m base hash).2.examined = sym_addrs st.symtab st.strtab)) := by
  have hpre : (resolve_sym_tr m base hash).2.examined <+: sym_addrs st.symtab st.strtab := by
    unfold resolve_sym_tr
    split
    · exact List.nil_prefix
    · simp only
      split
      · exact List.nil_prefix
      · split
        · exact List.nil_prefix
        · rw [hst]
          exact sym_scan_tr_prefix m base hash _ _ _ _
  refine ⟨resolve_sym_tr_fst m base hash, fun hle => ?_, hpre, fun a => mem_sym_addrs, ?_⟩
  · have hnil : (resolve_sym_tr m base hash).2.examined = [] := by
      have := hpre
      rw [sym_addrs_nil hle] at this
      exact List.prefix_nil.mp this
    refine ⟨hnil, ?_⟩
    unfold resolve_sym
    split
    · rfl
    · simp only
      split
      · rfl
      · split
        · rfl
        · rw [hst, Nat.sub_eq_zero_of_le hle]
          rfl
  · intro hb hh hv hd h1 h2 h3
    have hex : (resolve_sym_tr m base hash).2.examined =
        cut_after (sym_stop m st.strtab st.strsz hash) (sym_addrs st.symtab st.strtab) := by
      rw [resolve_sym_tr_of_walk m base hash st.symtab st.strtab st.strsz hv hh hd hst h1 h2 h3]
      exact sym_scan_tr_examined m base hash st.strtab st.strsz
        ((st.strtab - st.symtab + 23) / 24) (st.strtab - st.symtab) st.symtab rfl (by omega)
    exact ⟨hex, fun hall => by rw [hex, cut_after_of_none _ _ hall]⟩

/-- Witness for C25: the image of `mem_flat` declares its string table below its
symbol table, and `write` is not found in it. -/
theorem C25_witness :
    dyn_walk mem_flat ITER_MAX (_find_dyn mem_flat 0x1000) ⟨0, 0, 0⟩ = ⟨0x10c0, 0x1064, 7⟩ ∧
    (resolve_sym_tr mem_flat 0x1000 (djb2 (lit "write"))).2.examined = [] ∧
    resolve_sym mem_flat 0x1000 (djb2 (lit "write")) = some 0 :=
  ⟨by decide,
   (C25_scan_range mem_flat 0x1000 (djb2 (lit "write")) ⟨0x10c0, 0x1064, 7⟩ (by decide)).2.1
    (by decide)⟩

/-- Counterexample to C25 as stated: the image of `mem_tri` has its string table
above its symbol table, with three records below `strtab`; for the hash of
`write` the scan returns at the second record and the third is not examined. -/
theorem C25_counterexample :
    dyn_walk mem_tri ITER_MAX (_find_dyn mem_tri 0x1000) ⟨0, 0, 0⟩ = ⟨0x10c0, 0x1108, 12⟩ ∧
    sym_addrs 0x10c0 0x1108 = [0x10c0, 0x10d8, 0x10f0] ∧
    (resolve_sym_tr mem_tri 0x1000 (djb2 (lit "write"))).2.examined = [0x10c0, 0x10d8] ∧
    resolve_sym mem_tri 0x1000 (djb2 (lit "write")) = some 0x1500 ∧
    resolve_sym mem_tri 0x1000 (djb2 (lit "read")) = some 0x1600 := by
  decide

/-- C26. For every string `s` and every `max ≤ 16`, `_hex2u64(s, max)` is the
numeric value of the longest prefix of `s`, of at most `max` characters, that
consists of hexadecimal digits in either case, and is 0 when `s` does not start
with a hexadecimal digit.  No `0x` prefix is accepted: `0x41` yields 0.  A
mapping line that does not start with a hexadecimal digit gets base 0, matches
no hash and adds no record: on a listing delivered by a successful read,
`resolve_mod` and `_enum_modules` give what they give on the lines that start
with a hexadecimal digit. -/
theorem C26_hex_token (s : List Nat) (max : Nat) (hmax : max ≤ 16) :
    _hex2u64 s max = hex_value (hex_token s max) ∧
    (starts_hex s = false → _hex2u64 s max = 0) ∧
    _hex2u64 (lit "0x41") max = 0 ∧
    (∀ l, starts_hex l = false →
      line_base l = 0 ∧
      ∀ m, (∀ hash, line_matches m hash l = false) ∧ ∀ acc, enum_step m acc l = acc) ∧
    ∀ (m : Mem) (fd : Int) (ls : List (List Nat)) (t g : List Nat) (ctx : nebula_ctx_t),
      0 ≤ fd → (∀ l ∈ ls, is_line l) → is_line t → ctx.mods.length = MAX_MODULES →
      (∀ hash,
        resolve_mod ⟨fd, (listing_text ls t).length, listing_text ls t ++ g⟩ m hash =
          resolve_mod_spec m hash 64 (((listing_lines ls t).take 64).filter starts_hex)) ∧
      table_of
          (_enum_modules ⟨fd, (listing_text ls t).length, listing_text ls t ++ g⟩ m ctx).1.mods
          (_enum_modules ⟨fd, (listing_text ls t).length, listing_text ls t ++ g⟩ m ctx).2 =
        enum_spec m ((listing_lines ls t).filter starts_hex) := by
  have hno : ∀ l, starts_hex l = false → line_base l = 0 := line_base_no_digit
  refine ⟨hex2u64_eq_value s max hmax, fun h => ?_, ?_, fun l hl => ⟨hno l hl, fun m =>
    ⟨fun hash => line_matches_base_zero (hno l hl), fun acc =>
      enum_step_base_zero m acc l (hno l hl)⟩⟩, ?_⟩
  · rw [hex2u64_eq_value s max hmax]
    cases s with
    | nil => rw [hex_token_nil]; rfl
    | cons c r =>
      cases max with
      | zero => rw [hex_token_zero]; rfl
      | succ k =>
        rw [hex_token_cons_other c r k (by simpa [starts_hex] using h)]
        rfl
  · interval_cases max <;> rfl
  · intro m fd ls t g ctx hfd hls ht hlen
    refine ⟨fun hash => ?_, ?_⟩
    · have hlen64 : (((listing_lines ls t).take 64).filter starts_hex).length ≤ 64 :=
        (List.length_filter_le _ _).trans (by simp)
      rw [resolve_mod_listing m hash fd ls t g hfd hls ht, resolve_mod_spec, resolve_mod_spec,
        List.take_of_length_le hlen64,
        find?_filter_of_imp _ _ _ (fun x hx => by
          by_contra hs
          have := @line_matches_base_zero m hash x (hno x (by simpa using hs))
          rw [this] at hx
          exact Bool.noConfusion hx)]
    · rw [enum_modules_listing m fd ls t g ctx hfd hls ht hlen]
      unfold enum_spec
      rw [foldl_enum_step_filter_of m starts_hex
        (fun l hl acc => enum_step_base_zero m acc l (hno l hl))]

/-- Witness for C26: the base token of a mapping line, cut at 16 characters or
at the first character that is no hexadecimal digit. -/
theorem C26_witness :
    _hex2u64 (lit "7fFf0a1B2c3D-7fff0a1b3000 r-xp") 16 = 0x7fff0a1b2c3d ∧
    _hex2u64 (lit "0x41") 16 = 0 ∧
    (_read_cpu_info ⟨3, 23, lit "CPU implementer\t: 0x41\n"⟩).impl = 0 :=
  ⟨((C26_hex_token (lit "7fFf0a1B2c3D-7fff0a1b3000 r-xp") 16 (by decide)).1).trans (by decide),
   (C26_hex_token [] 16 (by decide)).2.2.1, by decide⟩

/-- C27. On a listing delivered by a successful read, with the same memory:
every record that `_enum_modules` writes and whose hash belongs to a line with a
`/` and a valid base among the first 64 lines (as it does when the record was
written for one of these lines) satisfies `resolve_mod(record.hash) =
record.base`; and whenever `resolve_mod(h)` returns a non-zero base `b` and
`_enum_modules` returns fewer than `MAX_MODULES` records, the table holds
exactly one record with hash `h`, and its base is `b`. -/
theorem C27_table_lookup (m : Mem) (fd : Int) (ls : List (List Nat)) (t g : List Nat)
    (ctx : nebula_ctx_t) (hfd : 0 ≤ fd) (hls : ∀ l ∈ ls, is_line l) (ht : is_line t)
    (hlen : ctx.mods.length = MAX_MODULES) :
    (∀ k, k < (_enum_modules ⟨fd, (listing_text ls t).length, listing_text ls t ++ g⟩ m ctx).2 →
      (∃ l ∈ (listing_lines ls t).take 64, 47 ∈ l ∧
        line_hash l = ((_enum_modules ⟨fd, (listing_text ls t).length, listing_text ls t ++ g⟩ m
          ctx).1.mods.getD k zero_mod).hash ∧ _is_elf m (line_base l) = true) →
      resolve_mod ⟨fd, (listing_text ls t).length, listing_text ls t ++ g⟩ m
        ((_enum_modules ⟨fd, (listing_text ls t).length, listing_text ls t ++ g⟩ m
          ctx).1.mods.getD k zero_mod).hash =
        ((_enum_modules ⟨fd, (listing_text ls t).length, listing_text ls t ++ g⟩ m
          ctx).1.mods.getD k zero_mod).base) ∧
    (∀ h b, resolve_mod ⟨fd, (listing_text ls t).length, listing_text ls t ++ g⟩ m h = b →
      b ≠ 0 →
      (_enum_modules ⟨fd, (listing_text ls t).length, listing_text ls t ++ g⟩ m ctx).2
        < MAX_MODULES →
      (∃ k, k < (_enum_modules ⟨fd, (listing_text ls t).length, listing_text ls t ++ g⟩ m
          ctx).2 ∧
        ((_enum_modules ⟨fd, (listing_text ls t).length, listing_text ls t ++ g⟩ m
          ctx).1.mods.getD k zero_mod).hash = h ∧
        ((_enum_modules ⟨fd, (listing_text ls t).length, listing_text ls t ++ g⟩ m
          ctx).1.mods.getD k zero_mod).base = b) ∧
      ((((_enum_modules ⟨fd, (listing_text ls t).length, listing_text ls t ++ g⟩ m
          ctx).1.mods.take
        (_enum_modules ⟨fd, (listing_text ls t).length, listing_text ls t ++ g⟩ m ctx).2).map
        (fun x => x.hash)).count h = 1) ∧
      ∀ k, k < (_enum_modules ⟨fd, (listing_text ls t).length, listing_text ls t ++ g⟩ m
          ctx).2 →
        ((_enum_modules ⟨fd, (listing_text ls t).length, listing_text ls t ++ g⟩ m
          ctx).1.mods.getD k zero_mod).hash = h →
        ((_enum_modules ⟨fd, (listing_text ls t).length, listing_text ls t ++ g⟩ m
          ctx).1.mods.getD k zero_mod).base = b) := by
  have htab := enum_modules_listing m fd ls t g ctx hfd hls ht hlen
  have hinv := enum_modules_inv ⟨fd, (listing_text ls t).length, listing_text ls t ++ g⟩ m ctx
    hlen
  have hc : (_enum_modules ⟨fd, (listing_text ls t).length, listing_text ls t ++ g⟩ m ctx).2 ≤
      (_enum_modules ⟨fd, (listing_text ls t).length, listing_text ls t ++ g⟩ m
        ctx).1.mods.length := by
    rw [hinv.1]; exact hinv.2.1
  refine ⟨fun k hk h64 => ?_, fun h b hres hb hroom => ?_⟩
  · have hmem := mem_table_of hk hc
    rw [htab] at hmem
    rw [resolve_mod_listing m _ fd ls t g hfd hls ht]
    obtain ⟨l, hl, h47, hh, helf⟩ := h64
    exact resolve_mod_spec_record m _ _ hmem ⟨l, hl, by simp [line_matches, h47, hh, helf]⟩
  · rw [resolve_mod_listing m h fd ls t g hfd hls ht] at hres
    have hlen' : (enum_spec m (listing_lines ls t)).length < MAX_MODULES := by
      rw [← htab, table_of_length hc]
      exact hroom
    obtain ⟨hin, honly⟩ := enum_spec_of_resolve m _ h b hres hb hlen'
    rw [← htab] at hin honly
    refine ⟨table_of_index hin, ?_, fun k hk hkh => ?_⟩
    · rw [← table_of_hashes]
      apply List.count_eq_one_of_mem
      · rw [htab]; exact enum_spec_nodup m _
      · exact List.mem_map.mpr ⟨(h, b), hin, rfl⟩
    · exact honly _ (mem_table_of hk hc) hkh

/-- Witness for C27: with `libc-2.31.so` at `0x1000` and `libc.so.6` at `0x1100`,
the lookup of `libc.so.6` gives `0x1100`, and the table holds one record with
that hash, of base `0x1100`. -/
theorem C27_witness :
    ∃ k, k < (_enum_modules (read_lines lines_two) mem_two zero_ctx).2 ∧
      ((_enum_modules (read_lines lines_two) mem_two zero_ctx).1.mods.getD k zero_mod).hash =
        djb2 (lit "libc.so.6") ∧
      ((_enum_modules (read_lines lines_two) mem_two zero_ctx).1.mods.getD k zero_mod).base =
        0x1100 :=
  ((C27_table_lookup mem_two 3 lines_two [] [] zero_ctx (by decide) (by decide) (by decide)
    (by decide)).2 (djb2 (lit "libc.so.6")) 0x1100 (by decide) (by decide) (by decide)).1

/-- C28. The two copies of the resolver agree: for every read of the mapping
listing, memory, base and hash, `resolve_mod` and `resolve_sym` of
`src/src/resolve.c` return the same values as `resolve_mod` and `resolve_sym`
of `src/src/nebula.c`, and so do their private helpers `_is_elf`, `_hex2u64`
and `_find_dyn`. -/
theorem C28_copies_agree (f : file_read_t) (m : Mem) (base hash : Nat) :
    ResolveC.resolve_mod f m hash = resolve_mod f m hash ∧
    ResolveC.resolve_sym m base hash = resolve_sym m base hash ∧
    ResolveC._is_elf m base = _is_elf m base ∧
    (∀ s max, ResolveC._hex2u64 s max = _hex2u64 s max) ∧
    ResolveC._find_dyn m base = _find_dyn m base := by
  refine ⟨?_, ?_, rc_is_elf_eq m base, rc_hex2u64_eq, rc_find_dyn_eq m base⟩
  · unfold ResolveC.resolve_mod resolve_mod
    rw [rc_resolve_mod_loop_eq]
  · unfold ResolveC.resolve_sym resolve_sym
    simp only [rc_is_elf_eq, rc_find_dyn_eq, rc_dyn_walk_eq, rc_sym_scan_eq]

/-- C29. For every memory and base, `resolve_sym(base, 0)` returns 0, and its
symbol scan touches nothing: the guard `!hash` comes before any table is read.
So a symbol whose name has djb2 hash 0 is never resolved although it passes
every entry filter: the image of `mem_zero_hash` exports the function `6PC61CH`,
whose name hashes to 0, in a record that passes the filters, and `resolve_sym`
returns 0 for that hash. -/
theorem C29_hash_zero (m : Mem) (base : Nat) :
    resolve_sym m base 0 = some 0 ∧
    resolve_sym_tr m base 0 = (some 0, ⟨[], []⟩) ∧
    (djb2 (lit "6PC61CH") = 0 ∧
      _is_elf mem_zero_hash 0x1000 = true ∧
      dyn_walk mem_zero_hash ITER_MAX (_find_dyn mem_zero_hash 0x1000) ⟨0, 0, 0⟩ =
        ⟨0x1000 + 192, 0x1000 + 240, 9⟩ ∧
      (0x1000 + 216) ∈ sym_addrs (0x1000 + 192) (0x1000 + 240) ∧
      sym_ok mem_zero_hash 9 (0x1000 + 216) = true ∧
      has_cstr mem_zero_hash (0x1000 + 240 + st_name mem_zero_hash (0x1000 + 216))
        (lit "6PC61CH") ∧
      resolve_sym mem_zero_hash 0x1000 (djb2 (lit "6PC61CH")) = some 0) := by
  refine ⟨by simp [resolve_sym], by simp [resolve_sym_tr], ?_⟩
  decide

/-- C30 (evaluation of the code). The read `maps_cut` delivers 4095 bytes into
the 4096-byte buffer: 59 whole lines and a cut line with no space in it.  On the
cut line the pointer `p` of `_enum_modules` stops at the terminator, index 4095,
and the three permission reads are at the indices 4095, 4096 and 4097: the last
two are past the terminator, and past the end of the buffer. -/
theorem C30_reads_past_terminator :
    maps_cut.n = 4095 ∧ maps_cut.buf.length = 4096 ∧
    (_enum_modules_tr maps_cut mem_libc zero_ctx).1 = _enum_modules maps_cut mem_libc zero_ctx ∧
    4095 ∈ (_enum_modules_tr maps_cut mem_libc zero_ctx).2 ∧
    4096 ∈ (_enum_modules_tr maps_cut mem_libc zero_ctx).2 ∧
    4097 ∈ (_enum_modules_tr maps_cut mem_libc zero_ctx).2 := by
  have hlen := maps_cut_text_length
  have heq : maps_cut =
      ⟨3, ((listing_text lines_cut tail_cut).length : Int),
        listing_text lines_cut tail_cut ++ [0xaa]⟩ := by
    rw [hlen]; rfl
  have hls : ∀ l ∈ lines_cut, is_line l := by
    intro l hl
    rw [List.eq_of_mem_replicate hl]
    decide
  have hbase : ∀ l ∈ lines_cut, _is_elf mem_libc (line_base l) = false := by
    intro l hl
    rw [List.eq_of_mem_replicate hl]
    decide
  have hroom : (enum_spec mem_libc lines_cut).length < MAX_MODULES := by
    unfold enum_spec
    rw [foldl_enum_step_invalid mem_libc lines_cut hbase]
    decide
  have hreads := enum_modules_tr_last mem_libc 3 lines_cut tail_cut [0xaa] zero_ctx (by decide)
    hls (by decide) (by decide) (by decide) (by decide) hroom
  rw [← heq, hlen] at hreads
  refine ⟨rfl, ?_, enum_modules_tr_fst _ _ _, hreads 0 (by decide), hreads 1 (by decide),
    hreads 2 (by decide)⟩
  show (listing_text lines_cut tail_cut ++ [0xaa]).length = 4096
  rw [List.length_append, hlen]
  rfl

/-- C31. For every memory, address and length, `crc32(data, len)` is the
standard reflected CRC-32 (polynomial `0xEDB88320`, initial value `0xFFFFFFFF`,
final complement) of the `len` bytes at `data`: the branch-free step
`(crc >> 1) ^ (0xedb88320 & -(crc & 1))` equals the conditional shift-and-xor
step, and the final `~crc` in `u32` is the xor with `0xFFFFFFFF`.  In
particular `crc32` of the empty input is 0 and `crc32` of the ASCII bytes
`123456789` is `0xCBF43926`. -/
theorem C31_crc32_standard (m : Mem) (data len : Nat) :
    crc32 m data len = crc32_spec (bytes_at m data len) ∧
    (∀ crc, crc32_bit crc = crc32_step_spec crc) ∧
    crc32 m data len < 2^32 ∧
    crc32 m data 0 = 0 ∧
    crc32 (memOf data (lit "123456789")) data 9 = 0xCBF43926 := by
  have hmain : ∀ (m : Mem) (data len : Nat),
      crc32 m data len = crc32_spec (bytes_at m data len) := by
    intro m data len
    unfold crc32 crc32_spec crc32_reg_spec
    rw [not_u32_eq_xor _ (crc32_loop_lt m len data _ (by decide)), crc32_loop_eq_foldl]
  have hzero : crc32 m data 0 = 0 := by
    unfold crc32 crc32_loop
    exact Nat.sub_self _
  refine ⟨hmain m data len, crc32_bit_eq_spec, ?_, hzero, ?_⟩
  · unfold crc32
    omega
  · have hb : bytes_at (memOf data (lit "123456789")) data (lit "123456789").length =
        lit "123456789" := bytes_at_memOf data _ (by decide)
    have h9 : (lit "123456789").length = 9 := by decide
    rw [h9] at hb
    rw [hmain, hb]
    exact crc32_spec_check

end Nebula
